import Mathlib

/-!
# MSA disc images (`src/msa.c`) and YM recording (`src/ymFormat.c`)

A shallow embedding of the MSA run-length codec of Hatari: `MSA_FindRunOfBytes`,
the track compression loop and chunk writer of `MSA_WriteDisc`, and the track
decoder of `MSA_UnCompress`; and of the recorder of YM register dumps,
`YMFormat_BeginRecording`, `YMFormat_UpdateRecording`, `YMFormat_EndRecording`
and `YMFormat_ConvertToStreams` (namespace `YMFormat`).

Conventions of the embedding of `msa.c`

* Memory reached through a C pointer is a `List Nat` holding the bytes from the
  pointer onwards; advancing the pointer drops elements from the front.
* Bytes are natural numbers; the values the code itself stores are reduced
  modulo 256, and 16-bit quantities modulo 65536.
* `int` variables that can get negative in the decoder are `Int`; the `int`
  returned by `MSA_UnCompress` is the number of bytes stored, an `unsigned long`
  difference of pointers, converted to `int` (`toInt`).
* `MSA_UnCompress` answers `none` exactly when the C code would read behind the
  end of the file buffer it was given.
* The encoder reads the image only below `ImageSize` (`MSA_WriteDisc` answers
  `none` if the buffer is shorter); a read behind the end of a list, which then
  cannot happen, is given the value 0 or ends a scan.
* `MSA_WriteDisc` answers `none` as well when a store would go behind the end
  of its workspace of `MSA_WORKSPACE_SIZE` bytes.
-/

set_option maxRecDepth 1000000

namespace MSA

/-! ## Collaborators that are declared in other files -/

/-- Modelled from the spec: the macro `NUMBYTESPERSECTOR` of `floppy.h`, which is
not part of the sources at hand; sectors are fixed at 512 bytes. -/
def NUMBYTESPERSECTOR : Nat := 512

/-- Modelled from the spec: `STMemory_Swap68000Int` of `stMemory.c` applied to a
16-bit word loaded from memory, i.e. the utility `to_host16`: the two bytes in
memory order are read as a big-endian unsigned 16-bit number. -/
def readWord (hi lo : Nat) : Nat := hi * 256 + lo

/-- Modelled from the spec: `STMemory_Swap68000Int` of `stMemory.c` applied to a
value that is then stored in memory, i.e. the utility `to_disk16`: the argument
is converted to `unsigned short` (reduced modulo 65536) and laid out big-endian. -/
def storeWord (v : Int) : List Nat :=
  [(v % 65536).toNat / 256, (v % 65536).toNat % 256]

/-- Conversion of a 16-bit pattern to the `short int` of `MSAHEADERSTRUCT`. -/
def toShort (v : Nat) : Int := if v < 32768 then (v : Int) else (v : Int) - 65536

/-- Size of the workspace of `MSA_WriteDisc`. -/
def MSA_WORKSPACE_SIZE : Nat := 1024 * 1024

/-! ## `MSA_FindRunOfBytes` -/

/-- The `for(i=1; i<nBytesInBuffer; i++)` loop of `MSA_FindRunOfBytes`; the list
is the memory at `pBuffer`, the result is the final `nTotalRun`. -/
def findRunLoop (ScannedByte nBytesInBuffer : Nat) : List Nat → Nat → Nat → Nat
  | [], _, nTotalRun => nTotalRun
  | b :: pBuffer, i, nTotalRun =>
    if i < nBytesInBuffer then
      if b = ScannedByte then
        findRunLoop ScannedByte nBytesInBuffer pBuffer (i + 1) (nTotalRun + 1)
      else nTotalRun
    else nTotalRun

/-- Embedding of `MSA_FindRunOfBytes(pBuffer, nBytesInBuffer)`; a negative
`nBytesInBuffer` behaves like 0 and is left out. -/
def MSA_FindRunOfBytes (pBuffer : List Nat) (nBytesInBuffer : Nat) : Nat :=
  if nBytesInBuffer < 2 then 0
  else
    match pBuffer with
    | [] => 0
    | ScannedByte :: pBuffer =>
      if ScannedByte ≠ 0xE5 then
        let nTotalRun := findRunLoop ScannedByte nBytesInBuffer pBuffer 1 1
        if nTotalRun < 4 then 0 else nTotalRun
      else 1

/-! ## `MSA_WriteDisc` -/

/-- The `while(nBytesToGo>0)` loop of `MSA_WriteDisc`.  Every iteration is
recorded as the pair of the number of image bytes it consumed and the bytes it
stored at `pMSABuffer`; the second component of the result is the final value of
the `unsigned short` counter `nCompressedBytes`.  The first argument bounds the
number of iterations (every iteration lowers `nBytesToGo`, see
`compressLoop_fuel`). -/
def compressLoop : Nat → List Nat → Nat → Nat → List (Nat × List Nat) × Nat
  | 0, _, _, nCompressedBytes => ([], nCompressedBytes)
  | fuel + 1, pImageBuffer, nBytesToGo, nCompressedBytes =>
    if nBytesToGo > 0 then
      let nBytesRun := MSA_FindRunOfBytes pImageBuffer nBytesToGo
      if nBytesRun = 0 then
        let r := compressLoop fuel (pImageBuffer.drop 1) (nBytesToGo - 1)
          ((nCompressedBytes + 1) % 65536)
        ((1, [pImageBuffer.headD 0]) :: r.1, r.2)
      else
        let r := compressLoop fuel (pImageBuffer.drop nBytesRun) (nBytesToGo - nBytesRun)
          ((nCompressedBytes + 4) % 65536)
        ((nBytesRun, 0xE5 :: pImageBuffer.headD 0 :: storeWord nBytesRun) :: r.1, r.2)
    else ([], nCompressedBytes)

/-- The iterations of the compression loop started with `nBytesToGo` bytes to go
and `nCompressedBytes = 0`. -/
def loopSteps (pImageBuffer : List Nat) (nBytesToGo : Nat) : List (Nat × List Nat) :=
  (compressLoop nBytesToGo pImageBuffer nBytesToGo 0).1

/-- The iterations of the compression loop for the track at `pImageBuffer`, where
`nBytesToGo` starts as `NUMBYTESPERSECTOR * nSectorsPerTrack`. -/
def trackSteps (pImageBuffer : List Nat) (nSectorsPerTrack : Nat) : List (Nat × List Nat) :=
  loopSteps pImageBuffer (NUMBYTESPERSECTOR * nSectorsPerTrack)

/-- The RLE token stream the compression loop stores for the track. -/
def trackStream (pImageBuffer : List Nat) (nSectorsPerTrack : Nat) : List Nat :=
  ((trackSteps pImageBuffer nSectorsPerTrack).map Prod.snd).flatten

/-- Final value of `nCompressedBytes` for the track. -/
def trackCompressedBytes (pImageBuffer : List Nat) (nSectorsPerTrack : Nat) : Nat :=
  (compressLoop (NUMBYTESPERSECTOR * nSectorsPerTrack) pImageBuffer
    (NUMBYTESPERSECTOR * nSectorsPerTrack) 0).2

/-- The payload `MSA_WriteDisc` leaves behind the length word of one chunk:
the token stream when `nCompressedBytes` is below the track size, else the
`memcpy` of the raw track. -/
def chunkPayload (pImageBuffer : List Nat) (nSectorsPerTrack : Nat) : List Nat :=
  if trackCompressedBytes pImageBuffer nSectorsPerTrack < NUMBYTESPERSECTOR * nSectorsPerTrack then
    trackStream pImageBuffer nSectorsPerTrack
  else
    pImageBuffer.take (NUMBYTESPERSECTOR * nSectorsPerTrack)

/-- The length word `MSA_WriteDisc` stores at `pMSADataLength`. -/
def chunkLength (pImageBuffer : List Nat) (nSectorsPerTrack : Nat) : List Nat :=
  if trackCompressedBytes pImageBuffer nSectorsPerTrack < NUMBYTESPERSECTOR * nSectorsPerTrack then
    storeWord (trackCompressedBytes pImageBuffer nSectorsPerTrack)
  else
    storeWord (NUMBYTESPERSECTOR * nSectorsPerTrack)

/-- Body of the `Side` loop of `MSA_WriteDisc`: the bytes between the old and the
new value of `pMSABuffer`. -/
def writeChunk (pImageBuffer : List Nat) (nSectorsPerTrack : Nat) : List Nat :=
  chunkLength pImageBuffer nSectorsPerTrack ++ chunkPayload pImageBuffer nSectorsPerTrack

/-- Offset of the track data pointer: `(nBytesPerTrack*Side) +
((nBytesPerTrack*nSides)*Track)` with the `unsigned short` `nBytesPerTrack`. -/
def trackOffset (nSectorsPerTrack nSides Track Side : Nat) : Nat :=
  let nBytesPerTrack := (NUMBYTESPERSECTOR * nSectorsPerTrack) % 65536
  nBytesPerTrack * Side + (nBytesPerTrack * nSides) * Track

/-- The ten header bytes stored by `MSA_WriteDisc`. -/
def writeHeader (ImageSize nSectorsPerTrack nSides : Nat) : List Nat :=
  let nTracks := ((ImageSize / NUMBYTESPERSECTOR) / nSectorsPerTrack) / nSides
  storeWord 0x0E0F ++ storeWord nSectorsPerTrack ++ storeWord ((nSides : Int) - 1)
    ++ storeWord 0 ++ storeWord ((nTracks : Int) - 1)

/-- The track data pointers `pImageBuffer` that the `Track` and `Side` loops of
`MSA_WriteDisc` compute, in the order of the iterations. -/
def trackPointers (pBuffer : List Nat) (nSectorsPerTrack nSides nTracks : Nat) :
    List (List Nat) :=
  (List.range nTracks).flatMap fun Track =>
    (List.range nSides).map fun Side =>
      pBuffer.drop (trackOffset nSectorsPerTrack nSides Track Side)

/-- The stores into the workspace made by one iteration of the `Side` loop that
starts with `pMSABuffer` at the given offset, each as the pair of its first
offset and its number of bytes: the token stream stored by the compression loop
behind the two bytes skipped for the length, the length word, and the `memcpy`
of the raw track when the compressed track is not smaller. -/
def chunkWrites (pMSABuffer : Nat) (pImageBuffer : List Nat) (nSectorsPerTrack : Nat) :
    List (Nat × Nat) :=
  [(pMSABuffer + 2, (trackStream pImageBuffer nSectorsPerTrack).length), (pMSABuffer, 2)] ++
    if trackCompressedBytes pImageBuffer nSectorsPerTrack <
        NUMBYTESPERSECTOR * nSectorsPerTrack then []
    else [(pMSABuffer + 2, NUMBYTESPERSECTOR * nSectorsPerTrack)]

/-- The stores into the workspace behind the header, for the given track data
pointers, starting with `pMSABuffer` at the given offset. -/
def workspaceWrites : Nat → List (List Nat) → Nat → List (Nat × Nat)
  | _, [], _ => []
  | pMSABuffer, pImageBuffer :: rest, nSectorsPerTrack =>
    chunkWrites pMSABuffer pImageBuffer nSectorsPerTrack ++
      workspaceWrites (pMSABuffer + (writeChunk pImageBuffer nSectorsPerTrack).length) rest
        nSectorsPerTrack

/-- All stores of `MSA_WriteDisc` into its workspace: the header at offset 0 and
the stores of the iterations, where `pMSABuffer` starts at
`sizeof(MSAHEADERSTRUCT)`. -/
def allWrites (pBuffer : List Nat) (ImageSize nSectorsPerTrack nSides : Nat) :
    List (Nat × Nat) :=
  let nTracks := ((ImageSize / NUMBYTESPERSECTOR) / nSectorsPerTrack) / nSides
  (0, 10) :: workspaceWrites 10 (trackPointers pBuffer nSectorsPerTrack nSides nTracks)
    nSectorsPerTrack

/-- Whether every store stays inside the `MSA_WORKSPACE_SIZE` bytes allocated. -/
def fitsWorkspace (writes : List (Nat × Nat)) : Bool :=
  writes.all fun w => decide (w.1 + w.2 ≤ MSA_WORKSPACE_SIZE)

/-- Embedding of `MSA_WriteDisc(pszFileName, pBuffer, ImageSize)`: the bytes
handed to `File_Save`.  `Floppy_FindDiscDetails` is declared in another file; the
two values it returns, `nSectorsPerTrack` and `nSides`, are parameters.  The
result is `none` where the C code divides by zero, is told to read more bytes
than the image buffer holds, or stores behind the end of its workspace. -/
def MSA_WriteDisc (pBuffer : List Nat) (ImageSize nSectorsPerTrack nSides : Nat) :
    Option (List Nat) :=
  if nSectorsPerTrack = 0 ∨ nSides = 0 ∨ pBuffer.length < ImageSize then none
  else
    let nTracks := ((ImageSize / NUMBYTESPERSECTOR) / nSectorsPerTrack) / nSides
    if fitsWorkspace (allWrites pBuffer ImageSize nSectorsPerTrack nSides) then
      some (writeHeader ImageSize nSectorsPerTrack nSides ++
        ((trackPointers pBuffer nSectorsPerTrack nSides nTracks).map fun pImageBuffer =>
          writeChunk pImageBuffer nSectorsPerTrack).flatten)
    else none

/-! ## `MSA_UnCompress` -/

/-- The `while(NumBytesUnCompressed<...)` loop of `MSA_UnCompress` for one
track.  The list is the memory at `pMSAImageBuffer`; the result is the bytes
stored through `pImageBuffer` and the memory at the final `pMSAImageBuffer`. -/
def uncompressLoop (nBytesPerTrack : Int) : List Nat → Int → Option (List Nat × List Nat)
  | [], NumBytesUnCompressed =>
    if NumBytesUnCompressed < nBytesPerTrack then none else some ([], [])
  | Byte :: pMSAImageBuffer, NumBytesUnCompressed =>
    if NumBytesUnCompressed < nBytesPerTrack then
      if Byte ≠ 0xE5 then
        match uncompressLoop nBytesPerTrack pMSAImageBuffer (NumBytesUnCompressed + 1) with
        | none => none
        | some r => some (Byte :: r.1, r.2)
      else
        match pMSAImageBuffer with
        | Data :: hi :: lo :: pMSAImageBuffer =>
          let RunLength : Int := readWord hi lo
          let RunLength : Int :=
            if RunLength + NumBytesUnCompressed > nBytesPerTrack then
              nBytesPerTrack - NumBytesUnCompressed
            else RunLength
          match uncompressLoop nBytesPerTrack pMSAImageBuffer
              (NumBytesUnCompressed + RunLength) with
          | none => none
          | some r => some (List.replicate RunLength.toNat Data ++ r.1, r.2)
        | _ => none
    else some ([], Byte :: pMSAImageBuffer)

/-- Body of the `Side` loop of `MSA_UnCompress`: one chunk is read from the
memory at `pMSAImageBuffer`; the result is the decoded track and the memory
behind the chunk. -/
def uncompressChunk (nBytesPerTrack : Int) : List Nat → Option (List Nat × List Nat)
  | hi :: lo :: pMSAImageBuffer =>
    let DataLength : Int := readWord hi lo
    if DataLength = nBytesPerTrack then
      if pMSAImageBuffer.length < nBytesPerTrack.toNat then none
      else some (pMSAImageBuffer.take nBytesPerTrack.toNat,
                 pMSAImageBuffer.drop DataLength.toNat)
    else uncompressLoop nBytesPerTrack pMSAImageBuffer 0
  | _ => none

/-- The `Side` loop of `MSA_UnCompress`, for the given number of iterations. -/
def uncompressSides (nBytesPerTrack : Int) : Nat → List Nat → Option (List Nat × List Nat)
  | 0, pMSAImageBuffer => some ([], pMSAImageBuffer)
  | n + 1, pMSAImageBuffer =>
    match uncompressChunk nBytesPerTrack pMSAImageBuffer with
    | none => none
    | some c =>
      match uncompressSides nBytesPerTrack n c.2 with
      | none => none
      | some r => some (c.1 ++ r.1, r.2)

/-- The `Track` loop of `MSA_UnCompress`, for the given number of iterations. -/
def uncompressTracks (nBytesPerTrack : Int) (nSides : Nat) :
    Nat → List Nat → Option (List Nat × List Nat)
  | 0, pMSAImageBuffer => some ([], pMSAImageBuffer)
  | n + 1, pMSAImageBuffer =>
    match uncompressSides nBytesPerTrack nSides pMSAImageBuffer with
    | none => none
    | some c =>
      match uncompressTracks nBytesPerTrack nSides n c.2 with
      | none => none
      | some r => some (c.1 ++ r.1, r.2)

/-- The value an `int` gets from an `unsigned long`: the low 32 bits, read as
two's complement. -/
def toInt (v : Nat) : Int :=
  if v % 4294967296 < 2147483648 then ((v % 4294967296 : Nat) : Int)
  else ((v % 4294967296 : Nat) : Int) - 4294967296

/-- Embedding of `MSA_UnCompress(pMSAFile, pBuffer)`: the returned `ImageSize`
together with the bytes stored in `pBuffer`.  `ImageSize` is an `int` that is
assigned the `unsigned long` difference of the final `pImageBuffer` and
`pBuffer`, the number of bytes stored. -/
def MSA_UnCompress (pMSAFile : List Nat) : Option (Int × List Nat) :=
  match pMSAFile with
  | id0 :: id1 :: header =>
    if readWord id0 id1 = 0x0E0F then
      match header with
      | s0 :: s1 :: d0 :: d1 :: a0 :: a1 :: e0 :: e1 :: pMSAImageBuffer =>
        let SectorsPerTrack := toShort (readWord s0 s1)
        let Sides := toShort (readWord d0 d1)
        let StartingTrack := toShort (readWord a0 a1)
        let EndingTrack := toShort (readWord e0 e1)
        match uncompressTracks (NUMBYTESPERSECTOR * SectorsPerTrack) (Sides + 1).toNat
            (EndingTrack + 1 - StartingTrack).toNat pMSAImageBuffer with
        | none => none
        | some r => some (toInt r.1.length, r.1)
      | _ => none
    else some (0, [])
  | _ => none

/-- The header fields as `MSA_UnCompress` reads them into `MSAHEADERSTRUCT` once
it has found the ID marker: `SectorsPerTrack`, `Sides`, `StartingTrack` and
`EndingTrack` (see `MSA_UnCompress_of_readHeader`). -/
def readHeader (pMSAFile : List Nat) : Option (Int × Int × Int × Int) :=
  match pMSAFile with
  | id0 :: id1 :: s0 :: s1 :: d0 :: d1 :: a0 :: a1 :: e0 :: e1 :: _ =>
    if readWord id0 id1 = 0x0E0F then
      some (toShort (readWord s0 s1), toShort (readWord d0 d1), toShort (readWord a0 a1),
        toShort (readWord e0 e1))
    else none
  | _ => none

/-! ## Vocabulary of the contracts -/

/-- Number of leading bytes of the buffer, among its first `max_len` bytes, that
are equal to `b`. -/
def runCount (buffer : List Nat) (max_len b : Nat) : Nat :=
  ((buffer.take max_len).takeWhile (fun x => decide (x = b))).length

/-- The count of the run finder's contract: `n` is the largest `k ≤ max_len` such
that `buffer[0..k)` are all equal to `b`. -/
def IsLongestRun (buffer : List Nat) (max_len b n : Nat) : Prop :=
  (n ≤ max_len ∧ ∀ i, i < n → buffer[i]? = some b) ∧
    ∀ k, k ≤ max_len → (∀ i, i < k → buffer[i]? = some b) → k ≤ n

instance (buffer : List Nat) (max_len b n : Nat) : Decidable (IsLongestRun buffer max_len b n) := by
  unfold IsLongestRun
  infer_instance

/-- One element of the RLE token stream as the file format comment of `msa.c`
describes it: a data byte other than `0xE5`, or the marker `0xE5` followed by a
data byte and the two bytes of a run length. -/
def isToken : List Nat → Bool
  | [b] => b != 0xE5
  | [marker, _, _, _] => marker == 0xE5
  | _ => false

/-- The bytes one token stands for. -/
def expandToken : List Nat → List Nat
  | [_, Data, hi, lo] => List.replicate (readWord hi lo) Data
  | t => t

/-- The bytes a sequence of tokens stands for. -/
def expandTokens (toks : List (List Nat)) : List Nat :=
  (toks.map expandToken).flatten

/-! ## Inputs used in the theorems -/

/-- A track of one sector: 511 zero bytes followed by one byte `0xE5`. -/
def trackEndingInE5 : List Nat := List.replicate 511 0 ++ [0xE5]

/-- An image of two tracks, one side, one sector per track, whose first track is
`trackEndingInE5`. -/
def imageEndingInE5 : List Nat :=
  trackEndingInE5 ++ [1, 0, 0, 0xE5, 7, 2, 0] ++ (List.range 505).map fun i => 1 + i % 2

/-- A track of 33 sectors: 16384 bytes `0xE5` followed by 512 zero bytes. -/
def trackOfEscapes : List Nat := List.replicate 16384 0xE5 ++ List.replicate 512 0

/-- A track of one sector that starts with two bytes `0xE5`, followed by 510
zero bytes. -/
def trackTwoEscapes : List Nat := [0xE5, 0xE5] ++ List.replicate 510 0

/-- A track of one sector whose only byte `0xE5` is its last byte, behind the
bytes `1, 2, 3`. -/
def trackSingleEscapeLast : List Nat := List.replicate 508 7 ++ [1, 2, 3, 0xE5]

/-- A container of two tracks, one side, one sector per track.  The first chunk
has the length word 4 and the payload `E5 00 01 FF`, which stands for 511 bytes
only; the second chunk is a verbatim one whose data begin `05 E5 09 02 00`. -/
def containerShortPayload : List Nat :=
  [0x0E, 0x0F, 0, 1, 0, 0, 0, 0, 0, 1] ++ [0, 4, 0xE5, 0, 1, 0xFF] ++
    ([2, 0] ++ ([5, 0xE5, 9, 2, 0] ++ List.replicate 507 0))

/-- A container of two tracks, one side, one sector per track.  The first chunk
has the length word 2 and is followed by the four bytes `E5 07 02 00`; the second
chunk is `00 04 | E5 09 02 00`. -/
def containerWrongLength : List Nat :=
  [0x0E, 0x0F, 0, 1, 0, 0, 0, 0, 0, 1] ++ [0, 2, 0xE5, 7, 2, 0] ++ [0, 4, 0xE5, 9, 2, 0]

/-- An image of one track, one side and 32768 sectors per track: 16777216 zero
bytes. -/
def imageOf32768Sectors : List Nat := List.replicate (NUMBYTESPERSECTOR * 32768) 0

/-- An image of two tracks, one side and 128 sectors per track: 65536 zero bytes
followed by 65536 bytes `1`. -/
def imageOfTwoLongTracks : List Nat :=
  List.replicate (NUMBYTESPERSECTOR * 128) 0 ++ List.replicate (NUMBYTESPERSECTOR * 128) 1

/-- An image of 513 bytes, one byte more than one track of one sector. -/
def imageWithExtraByte : List Nat := List.replicate 512 0 ++ [7]

/-- An image of 32769 tracks, one side and one sector per track: 16777728 zero
bytes. -/
def imageOf32769Tracks : List Nat := List.replicate (NUMBYTESPERSECTOR * 32769) 0

/-- A track of one sector: 511 bytes `0xE5` followed by one zero byte. -/
def trackOfEscapesAndZero : List Nat := List.replicate 511 0xE5 ++ [0]

/-- An image of 2042 tracks, one side and one sector per track; every track is
`trackOfEscapesAndZero`. -/
def imageOf2042Tracks : List Nat := (List.replicate 2042 trackOfEscapesAndZero).flatten

/-- An image of one track, two sides and one sector per track: side 0 is
`trackTwoEscapes`, side 1 holds the bytes `i % 7`. -/
def imageOfTwoSides : List Nat := trackTwoEscapes ++ (List.range 512).map fun i => i % 7

end MSA

namespace YMFormat

/-! ## YM recording (`src/ymFormat.c`)

The workspace of the recorder is a block of `YM_RECORDSIZE` bytes; a block is a
function from the offset into the block to the byte held there, and a pointer
into the workspace is the offset.  What `malloc` and `strdup` answer is a
parameter of the function that calls them: `none` (or `false`) for `NULL`, and
for `malloc` the block with the bytes it happens to hold.  The variables
`PSGRegisters` and `bEnvelopeFreqFlag` of the sound emulation are parameters as
well.  `int` variables are `Int`. -/

/-- Modelled from the spec: the macro `NUM_PSG_SOUND_REGISTERS` of `psg.h`, which
is not part of the sources at hand; a frame holds 14 register bytes. -/
def NUM_PSG_SOUND_REGISTERS : Nat := 14

/-- Modelled from the spec: `PSG_REG_ENV_SHAPE` of `psg.h`, register 13, the last
of the 14 registers of a frame. -/
def PSG_REG_ENV_SHAPE : Nat := 13

/-- The macro `YM_MAX_VBLS`. -/
def YM_MAX_VBLS : Nat := 50 * 60 * 8

/-- The macro `YM_RECORDSIZE`. -/
def YM_RECORDSIZE : Nat := 4 + (YM_MAX_VBLS * NUM_PSG_SOUND_REGISTERS)

/-- The store `*p = v` into a block. -/
def poke (block : Nat → Nat) (p v : Nat) : Nat → Nat :=
  fun i => if i = p then v else block i

/-- The file-scope variables of `ymFormat.c`.  `pYMData` is the offset of the
pointer from the start of the workspace it was set from. -/
structure State where
  bRecordingYM : Bool
  nYMVBLS : Int
  pYMData : Nat
  pYMWorkspace : Option (Nat → Nat)
  pszYMFileName : Option String

/-- The file-scope variables as they are initialised; `pYMData` has no
initialiser and is not read before `YMFormat_BeginRecording` has set it. -/
def initial : State :=
  { bRecordingYM := false, nYMVBLS := 0, pYMData := 0, pYMWorkspace := none, pszYMFileName := none }

/-- The inner loop of `YMFormat_ConvertToStreams`, with `Count` iterations to
go: `*pNewYMStream++ = *pTmpYMStream; pTmpYMStream += NUM_PSG_SOUND_REGISTERS`.
The result is the new workspace. -/
def copyStream (pYMWorkspace : Nat → Nat) : Nat → Nat → Nat → (Nat → Nat) → (Nat → Nat)
  | 0, _, _, pNewYMWorkspace => pNewYMWorkspace
  | Count + 1, pTmpYMStream, pNewYMStream, pNewYMWorkspace =>
    copyStream pYMWorkspace Count (pTmpYMStream + NUM_PSG_SOUND_REGISTERS) (pNewYMStream + 1)
      (poke pNewYMWorkspace pNewYMStream (pYMWorkspace pTmpYMStream))

/-- The outer loop of `YMFormat_ConvertToStreams`, with `k` registers to go from
`Reg` on; `pTmpYMData` and `pNewYMData` are both at offset 4 of their
workspace. -/
def copyStreams (pYMWorkspace : Nat → Nat) (nYMVBLS : Nat) :
    Nat → Nat → (Nat → Nat) → (Nat → Nat)
  | 0, _, pNewYMWorkspace => pNewYMWorkspace
  | k + 1, Reg, pNewYMWorkspace =>
    copyStreams pYMWorkspace nYMVBLS k (Reg + 1)
      (copyStream pYMWorkspace nYMVBLS (4 + Reg) (4 + Reg * nYMVBLS) pNewYMWorkspace)

/-- Embedding of `YMFormat_ConvertToStreams()`.  The variables it reads,
`pYMWorkspace` and `nYMVBLS`, are parameters, together with the answer of its
`malloc`.  The result is `none` where the function returns `FALSE`, and the value
it assigns to `pYMWorkspace` where it returns `TRUE`.  The loop over `Count` does
not run unless `nYMVBLS` is positive. -/
def YMFormat_ConvertToStreams (pYMWorkspace : Nat → Nat) (nYMVBLS : Int)
    (pNewYMWorkspace : Option (Nat → Nat)) : Option (Nat → Nat) :=
  match pNewYMWorkspace with
  | some block =>
    let header := poke (poke (poke (poke block 0 (pYMWorkspace 0)) 1 (pYMWorkspace 1))
      2 (pYMWorkspace 2)) 3 (pYMWorkspace 3)
    some (copyStreams pYMWorkspace nYMVBLS.toNat NUM_PSG_SOUND_REGISTERS 0 header)
  | none => none

/-- Modelled from the spec: `File_Save(pszFileName, pAddress, Size, bQueryOverwrite)`
of `file.c`, which is not part of the sources at hand; the file written holds
the first `Size` bytes of the block. -/
def File_Save (pszFileName : String) (pAddress : Nat → Nat) (Size : Nat) : String × List Nat :=
  (pszFileName, (List.range Size).map pAddress)

/-- Embedding of `YMFormat_EndRecording()`: the variables afterwards, and the
file saved if there is one.  The parameter is the answer of the `malloc` of
`YMFormat_ConvertToStreams`. -/
def YMFormat_EndRecording (s : State) (pNewYMWorkspace : Option (Nat → Nat)) :
    State × Option (String × List Nat) :=
  let saved : Option (String × List Nat) :=
    match s.bRecordingYM, s.pszYMFileName, s.pYMWorkspace with
    | true, some pszYMFileName, some pYMWorkspace =>
      if s.nYMVBLS ≠ 0 then
        match YMFormat_ConvertToStreams pYMWorkspace s.nYMVBLS pNewYMWorkspace with
        | some converted =>
          some (File_Save pszYMFileName converted
            ((s.nYMVBLS * NUM_PSG_SOUND_REGISTERS).toNat + 4))
        | none => none
      else none
    | _, _, _ => none
  ({ bRecordingYM := false, nYMVBLS := s.nYMVBLS, pYMData := s.pYMData,
     pYMWorkspace := none, pszYMFileName := none }, saved)

/-- Embedding of `YMFormat_BeginRecording(filename)`: the value returned and the
variables afterwards.  `filename` is `none` for `NULL`; `strdup` tells whether
`strdup` answers a copy, `malloc` is the answer of `malloc`.  The call of
`YMFormat_EndRecording` finds `bRecordingYM` cleared and does not convert, so it
calls no `malloc`. -/
def YMFormat_BeginRecording (s : State) (filename : Option String) (strdup : Bool)
    (malloc : Option (Nat → Nat)) : Bool × State :=
  let s1 := (YMFormat_EndRecording { s with bRecordingYM := false } none).1
  match filename with
  | none => (false, s1)
  | some name =>
    if name.length ≤ 0 then (false, s1)
    else if ¬ strdup then (false, s1)
    else
      match malloc with
      | none => (false, { s1 with pszYMFileName := none })
      | some block =>
        (true, { bRecordingYM := true, nYMVBLS := 0, pYMData := 4,
                 pYMWorkspace := some (poke (poke (poke (poke block 0 0x59) 1 0x4D) 2 0x33) 3 0x21),
                 pszYMFileName := some name })

/-- The store `*pYMData++ = v` of `YMFormat_UpdateRecording`; `none` if
`pYMWorkspace` is `NULL` or `pYMData` is not inside the workspace. -/
def storeRegister (s : State) (v : Nat) : Option State :=
  match s.pYMWorkspace with
  | some block =>
    if s.pYMData < YM_RECORDSIZE then
      some { s with pYMWorkspace := some (poke block s.pYMData v), pYMData := s.pYMData + 1 }
    else none
  | none => none

/-- The loop `for(i=0; i<(NUM_PSG_SOUND_REGISTERS-1); i++) *pYMData++ = PSGRegisters[i]`
of `YMFormat_UpdateRecording`, with `k` iterations to go from `i` on. -/
def storeRegisters (PSGRegisters : Nat → Nat) : Nat → Nat → State → Option State
  | 0, _, s => some s
  | k + 1, i, s =>
    match storeRegister s (PSGRegisters i) with
    | some s1 => storeRegisters PSGRegisters k (i + 1) s1
    | none => none

/-- Embedding of `YMFormat_UpdateRecording()`: the variables afterwards and the
file saved if the workspace has run full; `none` if a register is stored outside
an allocated workspace.  `malloc` is the answer of the `malloc` of
`YMFormat_ConvertToStreams`. -/
def YMFormat_UpdateRecording (s : State) (PSGRegisters : Nat → Nat) (bEnvelopeFreqFlag : Bool)
    (malloc : Option (Nat → Nat)) : Option (State × Option (String × List Nat)) :=
  if s.bRecordingYM then
    match storeRegisters PSGRegisters (NUM_PSG_SOUND_REGISTERS - 1) 0 s with
    | some s1 =>
      match storeRegister s1
          (if bEnvelopeFreqFlag then PSGRegisters PSG_REG_ENV_SHAPE else 0xff) with
      | some s2 =>
        let s3 := { s2 with nYMVBLS := s2.nYMVBLS + 1 }
        if s3.nYMVBLS ≥ (YM_MAX_VBLS : Int) then some (YMFormat_EndRecording s3 malloc)
        else some (s3, none)
      | none => none
    | none => none
  else some (s, none)

/-- A call of one of the three entry points, with what the environment answers
during the call. -/
inductive Call where
  | BeginRecording (filename : Option String) (strdup : Bool) (malloc : Option (Nat → Nat))
  | UpdateRecording (PSGRegisters : Nat → Nat) (bEnvelopeFreqFlag : Bool)
      (malloc : Option (Nat → Nat))
  | EndRecording (malloc : Option (Nat → Nat))

/-- The variables after one call. -/
def step (s : State) : Call → Option State
  | Call.BeginRecording filename sd malloc => some (YMFormat_BeginRecording s filename sd malloc).2
  | Call.UpdateRecording PSGRegisters bEnvelopeFreqFlag malloc =>
    (YMFormat_UpdateRecording s PSGRegisters bEnvelopeFreqFlag malloc).map Prod.fst
  | Call.EndRecording malloc => some (YMFormat_EndRecording s malloc).1

/-- The variables after a sequence of calls. -/
def run (s : State) : List Call → Option State
  | [] => some s
  | c :: calls =>
    match step s c with
    | some s1 => run s1 calls
    | none => none

/-- A workspace that holds the frame number in registers 0 to 6 and the register
number in the others. -/
def recordedBlock : Nat → Nat :=
  fun i => if i < 4 then [0x59, 0x4D, 0x33, 0x21].getD i 0
    else if (i - 4) % 14 < 7 then (i - 4) / 14 else (i - 4) % 14

/-- A block of zero bytes. -/
def zeroBlock : Nat → Nat := fun _ => 0

/-- The invariant of the recorder: while `bRecordingYM` is set the workspace is
allocated, `nYMVBLS` is in `0 .. YM_MAX_VBLS - 1` and `pYMData` is at offset
`4 + 14 * nYMVBLS`. -/
def RecorderInvariant (s : State) : Prop :=
  s.bRecordingYM = true →
    (∃ block, s.pYMWorkspace = some block) ∧ 0 ≤ s.nYMVBLS ∧ s.nYMVBLS < (YM_MAX_VBLS : Int) ∧
      (s.pYMData : Int) = 4 + 14 * s.nYMVBLS

/-- A recording is begun and one frame is stored. -/
def callsOfOneFrame : List Call :=
  [Call.BeginRecording (some "tune.ym") true (some zeroBlock),
   Call.UpdateRecording (fun i => 16 + i) false none]

end YMFormat

namespace MSA

/-- An RLE-coded chunk for a track of 16384 sectors: the length word `02 04`,
128 escape sequences of 65535 zero bytes each and one of 128 zero bytes. -/
def chunkOf16384Sectors : List Nat :=
  [2, 4] ++ ((List.replicate 128 [0xE5, 0, 0xFF, 0xFF] ++ [[0xE5, 0, 0, 128]]).flatten)

/-- A container of 128 tracks, two sides and 16384 sectors per track, whose 256
chunks are all `chunkOf16384Sectors`; it has 132618 bytes. -/
def containerOf2GiB : List Nat :=
  [0x0E, 0x0F, 0x40, 0, 0, 1, 0, 0, 0, 127] ++ (List.replicate 256 chunkOf16384Sectors).flatten

/-! ## Theorems -/

/-! ### The run finder -/

theorem findRunLoop_eq (s n : Nat) (p : List Nat) (i t : Nat) :
    findRunLoop s n p i t = t + ((p.take (n - i)).takeWhile (fun x => decide (x = s))).length := by
  induction p generalizing i t with
  | nil => simp [findRunLoop]
  | cons b p ih =>
    unfold findRunLoop
    by_cases hi : i < n
    · have hk : n - i = (n - (i + 1)) + 1 := by omega
      rw [if_pos hi, hk, List.take_succ_cons]
      by_cases hb : b = s
      · rw [if_pos hb, ih]
        simp [List.takeWhile_cons, hb]
        omega
      · rw [if_neg hb]
        simp [List.takeWhile_cons, hb]
    · have hk : n - i = 0 := by omega
      rw [if_neg hi, hk]
      simp

theorem findRun_cons (b : Nat) (p : List Nat) (n : Nat) (hn : 2 ≤ n) (hb : b ≠ 0xE5) :
    MSA_FindRunOfBytes (b :: p) n =
      if runCount (b :: p) n b < 4 then 0 else runCount (b :: p) n b := by
  have hk : n = (n - 1) + 1 := by omega
  have hc : runCount (b :: p) n b = 1 + ((p.take (n - 1)).takeWhile (fun x => decide (x = b))).length := by
    unfold runCount
    rw [hk, List.take_succ_cons]
    simp [List.takeWhile_cons]
    omega
  unfold MSA_FindRunOfBytes
  rw [if_neg (by omega)]
  simp only [hb, ne_eq, not_false_eq_true, if_true]
  rw [findRunLoop_eq, hc]

theorem findRun_escape (p : List Nat) (n : Nat) (hn : 2 ≤ n) :
    MSA_FindRunOfBytes (0xE5 :: p) n = 1 := by
  unfold MSA_FindRunOfBytes
  rw [if_neg (by omega)]
  simp

theorem findRun_short (p : List Nat) (n : Nat) (hn : n < 2) :
    MSA_FindRunOfBytes p n = 0 := by
  unfold MSA_FindRunOfBytes
  rw [if_pos hn]

theorem runCount_le (buffer : List Nat) (max_len b : Nat) : runCount buffer max_len b ≤ max_len := by
  unfold runCount
  calc ((buffer.take max_len).takeWhile _).length ≤ (buffer.take max_len).length :=
        (List.takeWhile_sublist _).length_le
    _ ≤ max_len := by simp

theorem findRun_le (p : List Nat) (n : Nat) : MSA_FindRunOfBytes p n ≤ n := by
  by_cases hn : n < 2
  · rw [findRun_short p n hn]; omega
  · cases p with
    | nil => simp [MSA_FindRunOfBytes]
    | cons b p =>
      by_cases hb : b = 0xE5
      · subst hb; rw [findRun_escape p n (by omega)]; omega
      · rw [findRun_cons b p n (by omega) hb]
        have := runCount_le (b :: p) n b
        split <;> omega

/-! ### The compression loop -/

theorem compressLoop_fuel (fuel₁ fuel₂ : Nat) (p : List Nat) (n c : Nat)
    (h₁ : n ≤ fuel₁) (h₂ : n ≤ fuel₂) :
    compressLoop fuel₁ p n c = compressLoop fuel₂ p n c := by
  induction fuel₁ generalizing fuel₂ p n c with
  | zero =>
    have hn : n = 0 := by omega
    subst hn
    cases fuel₂ <;> simp [compressLoop]
  | succ f ih =>
    cases fuel₂ with
    | zero =>
      have hn : n = 0 := by omega
      subst hn
      simp [compressLoop]
    | succ g =>
      unfold compressLoop
      by_cases hn : n > 0
      · have hle := findRun_le p n
        simp only [hn, if_true]
        by_cases hr : MSA_FindRunOfBytes p n = 0
        · simp only [hr, if_true]
          rw [ih g _ _ _ (by omega) (by omega)]
        · simp only [hr, if_false]
          rw [ih g _ _ _ (by omega) (by omega)]
      · simp [hn]

theorem compressLoop_fst (fuel : Nat) (p : List Nat) (n c c' : Nat) :
    (compressLoop fuel p n c).1 = (compressLoop fuel p n c').1 := by
  induction fuel generalizing p n c c' with
  | zero => simp [compressLoop]
  | succ f ih =>
    unfold compressLoop
    by_cases hn : n > 0
    · simp only [hn, if_true]
      by_cases hr : MSA_FindRunOfBytes p n = 0
      · simp only [hr, if_true]
        rw [ih _ _ _ ((c' + 1) % 65536)]
      · simp only [hr, if_false]
        rw [ih _ _ _ ((c' + 4) % 65536)]
    · simp [hn]

theorem compressLoop_snd (fuel : Nat) (p : List Nat) (n c : Nat) (hc : c < 65536) :
    (compressLoop fuel p n c).2 =
      (c + (((compressLoop fuel p n c).1.map Prod.snd).flatten).length) % 65536 := by
  induction fuel generalizing p n c with
  | zero => simp [compressLoop]; omega
  | succ f ih =>
    unfold compressLoop
    by_cases hn : n > 0
    · simp only [hn, if_true]
      by_cases hr : MSA_FindRunOfBytes p n = 0
      · simp only [hr, if_true]
        rw [ih (p.drop 1) (n - 1) ((c + 1) % 65536) (Nat.mod_lt _ (by norm_num))]
        simp; omega
      · simp only [hr, if_false]
        rw [ih _ _ ((c + 4) % 65536) (Nat.mod_lt _ (by norm_num))]
        simp [storeWord]; omega
    · simp [hn]; omega

theorem loopSteps_zero (p : List Nat) : loopSteps p 0 = [] := by
  simp [loopSteps, compressLoop]

theorem loopSteps_literal (p : List Nat) (n : Nat) (hn : 0 < n)
    (hr : MSA_FindRunOfBytes p n = 0) :
    loopSteps p n = (1, [p.headD 0]) :: loopSteps (p.drop 1) (n - 1) := by
  obtain ⟨k, rfl⟩ : ∃ k, n = k + 1 := ⟨n - 1, by omega⟩
  unfold loopSteps
  rw [compressLoop]
  simp only [hn, hr, if_true]
  rw [compressLoop_fst k _ _ _ 0]
  simp

theorem loopSteps_run (p : List Nat) (n r : Nat) (hr : MSA_FindRunOfBytes p n = r)
    (h0 : r ≠ 0) :
    loopSteps p n = (r, 0xE5 :: p.headD 0 :: storeWord r) :: loopSteps (p.drop r) (n - r) := by
  have hle := findRun_le p n
  obtain ⟨k, rfl⟩ : ∃ k, n = k + 1 := ⟨n - 1, by omega⟩
  unfold loopSteps
  rw [compressLoop]
  subst hr
  simp only [h0, if_false, Nat.succ_pos, gt_iff_lt, if_true]
  rw [compressLoop_fst k _ _ _ 0, compressLoop_fuel k (k + 1 - MSA_FindRunOfBytes p (k + 1)) _ _ _
    (by omega) (le_refl _)]

theorem loopSteps_consumed (p : List Nat) (n : Nat) :
    ((loopSteps p n).map Prod.fst).sum = n := by
  induction n using Nat.strong_induction_on generalizing p with
  | _ n ih =>
    by_cases hn : n = 0
    · subst hn; simp [loopSteps_zero]
    · by_cases hr : MSA_FindRunOfBytes p n = 0
      · rw [loopSteps_literal p n (by omega) hr]
        simp [ih (n - 1) (by omega)]
        omega
      · have hle := findRun_le p n
        rw [loopSteps_run p n _ rfl hr]
        simp [ih (n - MSA_FindRunOfBytes p n) (by omega)]
        omega

theorem runCount_nil (n b : Nat) : runCount [] n b = 0 := by
  simp [runCount]

theorem runCount_zero (l : List Nat) (b : Nat) : runCount l 0 b = 0 := by
  simp [runCount]

theorem runCount_cons_eq (b : Nat) (l : List Nat) (n : Nat) :
    runCount (b :: l) (n + 1) b = 1 + runCount l n b := by
  simp [runCount, List.takeWhile_cons]; omega

theorem runCount_cons_ne (x b : Nat) (l : List Nat) (n : Nat) (h : x ≠ b) :
    runCount (x :: l) n b = 0 := by
  cases n with
  | zero => simp [runCount]
  | succ n => simp [runCount, List.takeWhile_cons, h]

theorem runCount_head_ne (l : List Nat) (n b : Nat) (h : l.head? ≠ some b) :
    runCount l n b = 0 := by
  cases l with
  | nil => exact runCount_nil n b
  | cons x l =>
    apply runCount_cons_ne
    intro hx; apply h; simp [hx]

/-- A run that is followed, inside the buffer, by a different byte. -/
theorem runCount_replicate (k m b : Nat) (rest : List Nat)
    (h : m = 0 ∨ rest.head? ≠ some b) :
    runCount (List.replicate k b ++ rest) (k + m) b = k := by
  induction k with
  | zero =>
    rcases h with h | h
    · subst h; simp [runCount_zero]
    · simpa using runCount_head_ne rest m b h
  | succ k ih =>
    have : k + 1 + m = (k + m) + 1 := by omega
    rw [List.replicate_succ, List.cons_append, this, runCount_cons_eq, ih]
    omega

/-- The count stops in front of a byte that differs. -/
theorem runCount_le_index (l : List Nat) (n b i y : Nat) (hy : l[i]? = some y) (hne : y ≠ b) :
    runCount l n b ≤ i := by
  induction l generalizing n i with
  | nil => simp at hy
  | cons x l ih =>
    by_cases hx : x = b
    · subst hx
      cases i with
      | zero => simp at hy; omega
      | succ i =>
        cases n with
        | zero => simp [runCount_zero]
        | succ n =>
          rw [runCount_cons_eq]
          have := ih n i (by simpa using hy)
          omega
    · rw [runCount_cons_ne x b l n hx]; omega

theorem runCount_append_le (pre rest : List Nat) (m b : Nat) :
    runCount (pre ++ rest) (pre.length + m) b ≤ pre.length + runCount rest m b := by
  induction pre with
  | nil => simp
  | cons x pre ih =>
    by_cases hx : x = b
    · subst hx
      have : (x :: pre).length + m = (pre.length + m) + 1 := by simp; omega
      rw [List.cons_append, this, runCount_cons_eq]
      simp; omega
    · rw [List.cons_append, runCount_cons_ne x b _ _ hx]; omega

/-- The condition under which no run of the compression loop reaches from `pre`
into the `m` bytes that follow it. -/
theorem runCount_boundary (pre rest : List Nat) (m b : Nat) (hpre : pre ≠ [])
    (hb : m = 0 ∨ pre.getLast? ≠ some b ∨ rest.head? ≠ some b) :
    runCount (pre ++ rest) (pre.length + m) b ≤ pre.length := by
  rcases hb with h | h | h
  · subst h
    simpa using runCount_le (pre ++ rest) (pre.length + 0) b
  · have hlen : 0 < pre.length := List.length_pos.mpr hpre
    have hlast : (pre ++ rest)[pre.length - 1]? = pre.getLast? := by
      rw [List.getElem?_append_left (by omega), List.getLast?_eq_getElem?]
    cases hg : pre.getLast? with
    | none => simp [List.getLast?_eq_none_iff] at hg; exact absurd hg hpre
    | some y =>
      have := runCount_le_index (pre ++ rest) (pre.length + m) b (pre.length - 1) y
        (by rw [hlast, hg]) (by intro hyb; apply h; rw [hg, hyb])
      omega
  · have := runCount_append_le pre rest m b
    rw [runCount_head_ne rest m b h] at this
    omega

theorem findRun_escape_le (p : List Nat) (n : Nat) : MSA_FindRunOfBytes (0xE5 :: p) n ≤ 1 := by
  by_cases hn : n < 2
  · rw [findRun_short _ _ hn]; omega
  · rw [findRun_escape _ _ (by omega)]

theorem getLast?_drop_of_lt (l : List Nat) (r : Nat) (h : r < l.length) :
    (l.drop r).getLast? = l.getLast? := by
  rw [List.getLast?_eq_getElem?, List.getLast?_eq_getElem?, List.getElem?_drop, List.length_drop]
  congr 1
  omega

/-- The loop reaches the end of `pre` with an iteration boundary when no run can
extend from the last byte of `pre` into the bytes that follow. -/
theorem loopSteps_append_aux (rest : List Nat) (m : Nat) :
    ∀ (k : Nat) (pre : List Nat), pre.length = k →
      (m = 0 ∨ ∀ x, pre.getLast? = some x → x ≠ 0xE5 → rest.head? ≠ some x) →
      ∃ front, loopSteps (pre ++ rest) (pre.length + m) = front ++ loopSteps rest m ∧
        (front.map Prod.fst).sum = pre.length := by
  intro k
  induction k using Nat.strong_induction_on with
  | _ k ih =>
    intro pre hl hb
    cases pre with
    | nil => exact ⟨[], by simp at hl; subst hl; simp, by simp at hl; subst hl; simp⟩
    | cons x pre' =>
      subst hl
      by_cases hr : MSA_FindRunOfBytes (x :: pre' ++ rest) ((x :: pre').length + m) = 0
      · have hb' : m = 0 ∨ ∀ y, pre'.getLast? = some y → y ≠ 0xE5 → rest.head? ≠ some y := by
          rcases hb with h | h
          · exact Or.inl h
          · right
            intro y hy
            apply h
            cases pre' with
            | nil => simp at hy
            | cons z zs => simpa [List.getLast?_cons_cons] using hy
        obtain ⟨front, hf, hs⟩ := ih pre'.length (by simp) pre' rfl hb'
        refine ⟨(1, [x]) :: front, ?_, by simp [hs]; omega⟩
        rw [loopSteps_literal _ _ (by simp) hr]
        have : (x :: pre').length + m - 1 = pre'.length + m := by simp
        simp [this, hf]
      · have hle : MSA_FindRunOfBytes (x :: pre' ++ rest) ((x :: pre').length + m) ≤
            (x :: pre').length := by
          by_cases hx : x = 0xE5
          · subst hx
            have := findRun_escape_le (pre' ++ rest) ((229 :: pre').length + m)
            simp at this ⊢; omega
          · have h2 : 2 ≤ (x :: pre').length + m := by
              by_contra hlt
              exact hr (findRun_short _ _ (by omega))
            rw [List.cons_append, findRun_cons x _ _ h2 hx] at hr ⊢
            have hbound := runCount_boundary (x :: pre') rest m x (by simp) (by
              rcases hb with h | h
              · exact Or.inl h
              · by_cases hg : (x :: pre').getLast? = some x
                · exact Or.inr (Or.inr (h x hg hx))
                · exact Or.inr (Or.inl hg))
            rw [List.cons_append] at hbound
            split
            · omega
            · exact hbound
        obtain ⟨r, hrdef⟩ : ∃ r, r = MSA_FindRunOfBytes (x :: pre' ++ rest) ((x :: pre').length + m) :=
          ⟨_, rfl⟩
        rw [← hrdef] at hr hle
        have hb' : m = 0 ∨ ∀ y, ((x :: pre').drop r).getLast? = some y → y ≠ 0xE5 →
            rest.head? ≠ some y := by
          rcases hb with h | h
          · exact Or.inl h
          · right
            intro y hy
            apply h
            by_cases hlt : r < (x :: pre').length
            · rwa [getLast?_drop_of_lt _ _ hlt] at hy
            · rw [List.drop_of_length_le (by omega)] at hy
              simp at hy
        obtain ⟨front, hf, hs⟩ := ih ((x :: pre').drop r).length
          (by rw [List.length_drop]; simp; omega) ((x :: pre').drop r) rfl hb'
        refine ⟨(r, 0xE5 :: x :: storeWord r) :: front, ?_, ?_⟩
        · rw [loopSteps_run _ _ r hrdef.symm hr]
          have h1 : (x :: pre' ++ rest).drop r = (x :: pre').drop r ++ rest := by
            show List.drop r ((x :: pre') ++ rest) = _
            rw [List.drop_append_of_le_length hle]
          have h2 : (x :: pre').length + m - r = ((x :: pre').drop r).length + m := by
            rw [List.length_drop]; omega
          rw [h1, h2, hf]
          simp
        · rw [List.length_drop] at hs
          rw [List.map_cons, List.sum_cons, hs]
          omega

theorem loopSteps_append (pre rest : List Nat) (m : Nat)
    (hb : m = 0 ∨ ∀ x, pre.getLast? = some x → x ≠ 0xE5 → rest.head? ≠ some x) :
    ∃ front, loopSteps (pre ++ rest) (pre.length + m) = front ++ loopSteps rest m ∧
      (front.map Prod.fst).sum = pre.length :=
  loopSteps_append_aux rest m pre.length pre rfl hb

/-! ### Single iterations of the compression loop -/

/-- The last byte of a track is stored as a literal, whatever its value. -/
theorem loopSteps_last_byte (x : Nat) (rest : List Nat) :
    loopSteps (x :: rest) 1 = [(1, [x])] := by
  rw [loopSteps_literal _ _ (by omega) (findRun_short _ _ (by omega))]
  simp [loopSteps_zero]

/-- A byte `0xE5` that is not the last byte of the track. -/
theorem loopSteps_escape (rest : List Nat) (m : Nat) (hm : 1 ≤ m) :
    loopSteps (0xE5 :: rest) (1 + m) = (1, [0xE5, 0xE5, 0, 1]) :: loopSteps rest m := by
  rw [loopSteps_run _ _ 1 (findRun_escape _ _ (by omega)) (by omega)]
  simp [storeWord]

theorem loopSteps_escapes (k : Nat) (rest : List Nat) (m : Nat) (hm : 1 ≤ m) :
    loopSteps (List.replicate k 0xE5 ++ rest) (k + m) =
      List.replicate k (1, [0xE5, 0xE5, 0, 1]) ++ loopSteps rest m := by
  induction k with
  | zero => simp
  | succ k ih =>
    have h : k + 1 + m = 1 + (k + m) := by omega
    rw [List.replicate_succ, List.cons_append, h, loopSteps_escape _ _ (by omega), ih,
      List.replicate_succ, List.cons_append]

/-- A run of at least four bytes other than `0xE5`, ended by the end of the track
or by a different byte. -/
theorem loopSteps_long_run (b k : Nat) (rest : List Nat) (m : Nat) (hb : b ≠ 0xE5)
    (hk : 4 ≤ k) (hend : m = 0 ∨ rest.head? ≠ some b) :
    loopSteps (List.replicate k b ++ rest) (k + m) =
      (k, 0xE5 :: b :: storeWord k) :: loopSteps rest m := by
  obtain ⟨j, rfl⟩ : ∃ j, k = j + 1 := ⟨k - 1, by omega⟩
  have hrun : MSA_FindRunOfBytes (List.replicate (j + 1) b ++ rest) (j + 1 + m) = j + 1 := by
    have hc := runCount_replicate (j + 1) m b rest hend
    rw [List.replicate_succ, List.cons_append] at hc ⊢
    rw [findRun_cons b _ _ (by omega) hb, hc, if_neg (by omega)]
  rw [loopSteps_run _ _ (j + 1) hrun (by omega)]
  have hd : List.drop (j + 1) (List.replicate (j + 1) b ++ rest) = rest := by
    rw [List.drop_append_of_le_length (by simp)]
    simp
  have hm : j + 1 + m - (j + 1) = m := by omega
  rw [hd, hm]
  simp [List.replicate_succ]

/-- A run of fewer than four bytes other than `0xE5`, ended by the end of the
track or by a different byte. -/
theorem loopSteps_short_run (b k : Nat) (rest : List Nat) (m : Nat) (hb : b ≠ 0xE5)
    (hk : k < 4) (hend : m = 0 ∨ rest.head? ≠ some b) :
    loopSteps (List.replicate k b ++ rest) (k + m) =
      List.replicate k (1, [b]) ++ loopSteps rest m := by
  induction k with
  | zero => simp
  | succ k ih =>
    have hrun : MSA_FindRunOfBytes (List.replicate (k + 1) b ++ rest) (k + 1 + m) = 0 := by
      by_cases h2 : k + 1 + m < 2
      · exact findRun_short _ _ h2
      · have hc := runCount_replicate (k + 1) m b rest hend
        rw [List.replicate_succ, List.cons_append] at hc ⊢
        rw [findRun_cons b _ _ (by omega) hb, hc, if_pos hk]
    rw [loopSteps_literal _ _ (by omega) hrun]
    have hm : k + 1 + m - 1 = k + m := by omega
    rw [hm]
    simp only [List.replicate_succ, List.cons_append, List.headD_cons, List.drop_succ_cons,
      List.drop_zero]
    rw [ih (by omega)]

/-! ### Claims C1 to C3 -/

/-- C1, the code at a failing input: `imageEndingInE5` has exactly
`2 * 1 * 1 * 512` bytes; `MSA_UnCompress` applied to the container that
`MSA_WriteDisc` builds from it (one sector per track, one side) returns the size
1024 but not the image: the first track comes back with its last byte `0xE5`
replaced by `2` and the second track as 512 bytes `7`. -/
theorem C1_roundtrip_fails_trailing_escape :
    imageEndingInE5.length = 2 * 1 * 1 * 512 ∧
    (MSA_WriteDisc imageEndingInE5 1024 1 1).bind MSA_UnCompress =
      some (1024, List.replicate 511 0 ++ [2] ++ List.replicate 512 7) ∧
    (MSA_WriteDisc imageEndingInE5 1024 1 1).bind MSA_UnCompress ≠
      some (1024, imageEndingInE5) := by
  decide

/-- C2, the code at a failing input: the track `trackEndingInE5` contains the
byte `0xE5`, and the compression loop stores that byte, the last one of the
track, as the bare literal `0xE5` behind the escape sequence of the 511 zero
bytes. -/
theorem C2_trailing_escape_literal :
    0xE5 ∈ trackEndingInE5 ∧ trackEndingInE5.length = NUMBYTESPERSECTOR * 1 ∧
    trackSteps trackEndingInE5 1 = [(511, [0xE5, 0, 1, 255]), (1, [0xE5])] ∧
    trackStream trackEndingInE5 1 = [0xE5, 0, 1, 255, 0xE5] := by
  decide

/-- Every track that ends in `0xE5` gets that byte stored as a bare literal by the
last iteration of the compression loop. -/
theorem trackSteps_trailing_escape (pre beyond : List Nat) (nSectorsPerTrack : Nat)
    (hlen : pre.length + 1 = NUMBYTESPERSECTOR * nSectorsPerTrack) :
    ∃ front, trackSteps (pre ++ 0xE5 :: beyond) nSectorsPerTrack = front ++ [(1, [0xE5])] ∧
      (front.map Prod.fst).sum = pre.length := by
  obtain ⟨front, hf, hs⟩ := loopSteps_append pre (0xE5 :: beyond) 1 (Or.inr (by
    intro x _ hx h
    simp at h
    exact hx h.symm))
  refine ⟨front, ?_, hs⟩
  rw [trackSteps, ← hlen, hf, loopSteps_last_byte]

theorem length_flatten_replicate (k : Nat) (t : List Nat) :
    (List.replicate k t).flatten.length = k * t.length := by
  induction k with
  | zero => simp
  | succ k ih => simp [List.replicate_succ, ih]; ring

theorem trackSteps_trackOfEscapes :
    trackSteps trackOfEscapes 33 =
      List.replicate 16384 (1, [0xE5, 0xE5, 0, 1]) ++ [(512, [0xE5, 0, 2, 0])] := by
  have h : NUMBYTESPERSECTOR * 33 = 16384 + 512 := by decide
  have h' := loopSteps_long_run 0 512 [] 0 (by decide) (by decide) (Or.inl rfl)
  rw [List.append_nil, Nat.add_zero, loopSteps_zero] at h'
  have h2 := loopSteps_escapes 16384 (List.replicate 512 0) 512 (by decide)
  have hw : storeWord (512 : Nat) = [2, 0] := by decide
  rw [trackSteps, trackOfEscapes, h, h2, h', hw]
theorem trackStream_trackOfEscapes : (trackStream trackOfEscapes 33).length = 65540 := by
  rw [trackStream, trackSteps_trackOfEscapes, List.map_append, List.map_replicate,
    List.flatten_append, List.length_append, length_flatten_replicate]
  show 16384 * 4 + 4 = 65540
  decide

theorem trackCompressedBytes_eq (p : List Nat) (nSectorsPerTrack : Nat) :
    trackCompressedBytes p nSectorsPerTrack = (trackStream p nSectorsPerTrack).length % 65536 := by
  rw [trackCompressedBytes, compressLoop_snd _ _ _ _ (by decide), trackStream, trackSteps,
    loopSteps, Nat.zero_add]

/-- C3, the code at a failing input: for the 33-sector track `trackOfEscapes`
(16896 bytes) the token stream has 65540 bytes, the `unsigned short` counter
`nCompressedBytes` ends at 4, so the length word stored is 4 and the payload
left in the chunk is the whole token stream of 65540 bytes, more than
`33 * 512`. -/
theorem C3_counter_wraps_for_33_sectors :
    trackOfEscapes.length = 33 * 512 ∧
    trackCompressedBytes trackOfEscapes 33 = 4 ∧
    chunkLength trackOfEscapes 33 = [0, 4] ∧
    (chunkPayload trackOfEscapes 33).length = 65540 ∧
    ¬ (chunkPayload trackOfEscapes 33).length ≤ 33 * 512 := by
  have hc : trackCompressedBytes trackOfEscapes 33 = 4 := by
    rw [trackCompressedBytes_eq, trackStream_trackOfEscapes]
  have hp : (chunkPayload trackOfEscapes 33).length = 65540 := by
    rw [chunkPayload, hc, if_pos (by decide), trackStream_trackOfEscapes]
  refine ⟨?_, hc, ?_, hp, by rw [hp]; decide⟩
  · rw [trackOfEscapes, List.length_append, List.length_replicate, List.length_replicate]
  rw [chunkLength, hc, if_pos (by decide)]
  decide

/-- Every iteration stores at most four bytes and the last byte of a track costs
one byte only when it is handled on its own. -/
theorem loopSteps_stream_le (p : List Nat) (n : Nat) (hn : 1 ≤ n) :
    (((loopSteps p n).map Prod.snd).flatten).length + 3 ≤ 4 * n := by
  induction n using Nat.strong_induction_on generalizing p with
  | _ n ih =>
    by_cases hr : MSA_FindRunOfBytes p n = 0
    · rw [loopSteps_literal p n (by omega) hr]
      by_cases h1 : n - 1 = 0
      · rw [h1, loopSteps_zero]
        simp; omega
      · have := ih (n - 1) (by omega) (p.drop 1) (by omega)
        simp only [List.map_cons, List.flatten_cons, List.length_append, List.length_singleton]
        omega
    · have hle := findRun_le p n
      have h2 : 2 ≤ n := by
        by_contra hlt
        exact hr (findRun_short p n (by omega))
      rw [loopSteps_run p n _ rfl hr]
      have hlen : (0xE5 :: p.headD 0 :: storeWord (MSA_FindRunOfBytes p n)).length = 4 := rfl
      by_cases h1 : n - MSA_FindRunOfBytes p n = 0
      · rw [h1, loopSteps_zero]
        simp only [List.map_cons, List.map_nil, List.flatten_cons, List.flatten_nil,
          List.length_append, hlen, List.length_nil]
        omega
      · have := ih (n - MSA_FindRunOfBytes p n) (by omega) (p.drop (MSA_FindRunOfBytes p n))
          (by omega)
        simp only [List.map_cons, List.flatten_cons, List.length_append, hlen]
        omega

/-- Up to 32 sectors per track the counter `nCompressedBytes` cannot wrap, and the
payload of a chunk is never longer than the track. -/
theorem chunkPayload_length_le (pImageBuffer : List Nat) (nSectorsPerTrack : Nat)
    (hspt : nSectorsPerTrack ≤ 32) :
    (chunkPayload pImageBuffer nSectorsPerTrack).length ≤
      NUMBYTESPERSECTOR * nSectorsPerTrack := by
  have h512 : NUMBYTESPERSECTOR = 512 := rfl
  rw [chunkPayload]
  split
  · rename_i h
    by_cases h0 : nSectorsPerTrack = 0
    · subst h0; simp at h
    · have hb := loopSteps_stream_le pImageBuffer (NUMBYTESPERSECTOR * nSectorsPerTrack)
        (by rw [h512]; omega)
      have hs : (trackStream pImageBuffer nSectorsPerTrack).length < 65536 := by
        rw [trackStream, trackSteps]
        rw [h512] at hb ⊢
        omega
      rw [trackCompressedBytes_eq, Nat.mod_eq_of_lt hs] at h
      omega
  · rw [List.length_take]
    exact Nat.min_le_left _ _

/-! ### Claims C4 and C5 -/

/-- C4, counterexample: with three bytes `0xE5` at the current position and
`max_len = 4` the run finder returns 1, not the count 3 of consecutive `0xE5`
bytes; and the run of exactly two `0xE5` bytes at the start of `trackTwoEscapes`
is emitted as two escape sequences `E5 E5 00 01`, not as one `E5 E5 00 02`. -/
theorem C4_escape_run_not_counted :
    runCount [0xE5, 0xE5, 0xE5, 0] 4 0xE5 = 3 ∧
    MSA_FindRunOfBytes [0xE5, 0xE5, 0xE5, 0] 4 = 1 ∧
    trackTwoEscapes.length = NUMBYTESPERSECTOR * 1 ∧
    trackSteps trackTwoEscapes 1 =
      [(1, [0xE5, 0xE5, 0, 1]), (1, [0xE5, 0xE5, 0, 1]), (510, [0xE5, 0, 1, 254])] ∧
    (2, [0xE5, 0xE5, 0, 2]) ∉ trackSteps trackTwoEscapes 1 := by
  decide

/-- C4, amended: when the byte at the current position is `0xE5` and
`max_len >= 2`, `MSA_FindRunOfBytes` returns 1 whatever follows; consequently a
run of 2 or 3 bytes `0xE5` inside a track that is followed by at least one more
byte of the track is emitted as 2 (resp. 3) escape sequences `E5 E5 00 01`, one
for each byte of the run. -/
theorem C4_escape_bytes_one_by_one (buffer pre post beyond : List Nat)
    (max_len k nSectorsPerTrack : Nat) (hmax : 2 ≤ max_len) (hk : k = 2 ∨ k = 3)
    (hpost : post ≠ [])
    (hlen : pre.length + k + post.length = NUMBYTESPERSECTOR * nSectorsPerTrack) :
    MSA_FindRunOfBytes (0xE5 :: buffer) max_len = 1 ∧
    ∃ front back,
      trackSteps (pre ++ List.replicate k 0xE5 ++ post ++ beyond) nSectorsPerTrack =
        front ++ List.replicate k (1, [0xE5, 0xE5, 0, 1]) ++ back ∧
      (front.map Prod.fst).sum = pre.length ∧ (back.map Prod.fst).sum = post.length := by
  refine ⟨findRun_escape buffer max_len hmax, ?_⟩
  have hk1 : 1 ≤ k := by omega
  have hp1 : 1 ≤ post.length := List.length_pos.mpr hpost
  obtain ⟨front, hf, hs⟩ := loopSteps_append pre (List.replicate k 0xE5 ++ (post ++ beyond))
    (k + post.length) (Or.inr (by
      intro x _ hx h
      obtain ⟨j, rfl⟩ : ∃ j, k = j + 1 := ⟨k - 1, by omega⟩
      simp [List.replicate_succ] at h
      exact hx h.symm))
  refine ⟨front, loopSteps (post ++ beyond) post.length, ?_, hs, loopSteps_consumed _ _⟩
  have hT : NUMBYTESPERSECTOR * nSectorsPerTrack = pre.length + (k + post.length) := by omega
  rw [trackSteps, hT, List.append_assoc, List.append_assoc, hf,
    loopSteps_escapes k _ _ hp1, List.append_assoc]

/-- C4, witness: the run of two bytes `0xE5` at the start of a one-sector track. -/
theorem C4_escape_bytes_one_by_one_witness :
    MSA_FindRunOfBytes (0xE5 :: [0xE5, 0]) 3 = 1 ∧
    ∃ front back,
      trackSteps ([] ++ List.replicate 2 0xE5 ++ List.replicate 510 0 ++ []) 1 =
        front ++ List.replicate 2 (1, [0xE5, 0xE5, 0, 1]) ++ back ∧
      (front.map Prod.fst).sum = ([] : List Nat).length ∧
      (back.map Prod.fst).sum = (List.replicate 510 0).length :=
  C4_escape_bytes_one_by_one [0xE5, 0] [] (List.replicate 510 0) [] 3 2 1 (by decide)
    (Or.inl rfl) (by decide) (by decide)

theorem runCount_prefix (l : List Nat) (n b i : Nat) (hi : i < runCount l n b) :
    l[i]? = some b := by
  induction l generalizing n i with
  | nil => simp [runCount_nil] at hi
  | cons x l ih =>
    cases n with
    | zero => simp [runCount_zero] at hi
    | succ n =>
      by_cases hx : x = b
      · subst hx
        rw [runCount_cons_eq] at hi
        cases i with
        | zero => simp
        | succ i => simpa using ih n i (by omega)
      · simp [runCount_cons_ne x b l _ hx] at hi

theorem runCount_largest (l : List Nat) (n b k : Nat) (hk : k ≤ n)
    (hall : ∀ i, i < k → l[i]? = some b) : k ≤ runCount l n b := by
  induction l generalizing n k with
  | nil =>
    cases k with
    | zero => omega
    | succ k => simpa using hall 0 (by omega)
  | cons x l ih =>
    cases k with
    | zero => omega
    | succ k =>
      obtain ⟨n', rfl⟩ : ∃ n', n = n' + 1 := ⟨n - 1, by omega⟩
      have hx : x = b := by simpa using hall 0 (by omega)
      subst hx
      rw [runCount_cons_eq]
      have := ih n' k (by omega) (fun i hi => by simpa using hall (i + 1) (by omega))
      omega

theorem isLongestRun_iff (buffer : List Nat) (max_len b n : Nat) :
    IsLongestRun buffer max_len b n ↔ n = runCount buffer max_len b := by
  constructor
  · rintro ⟨⟨hle, hall⟩, hmax⟩
    have h1 := runCount_largest buffer max_len b n hle hall
    have h2 := hmax (runCount buffer max_len b) (runCount_le buffer max_len b)
      (fun i hi => runCount_prefix buffer max_len b i hi)
    omega
  · rintro rfl
    exact ⟨⟨runCount_le _ _ _, fun i hi => runCount_prefix _ _ _ i hi⟩,
      fun k hk hall => runCount_largest _ _ _ k hk hall⟩

/-- C5: `MSA_FindRunOfBytes` returns 0 if `max_len < 2`; otherwise, when
`b = buffer[0]` is not `0xE5` and `n` is the largest `k <= max_len` such that
`buffer[0..k)` are all equal to `b`, it returns 0 if `n < 4` and `n` if `n >= 4`. -/
theorem C5_findRun_reference (buffer : List Nat) (max_len b n : Nat)
    (h : max_len < 2 ∨
      (buffer.head? = some b ∧ b ≠ 0xE5 ∧ IsLongestRun buffer max_len b n)) :
    MSA_FindRunOfBytes buffer max_len =
      if max_len < 2 then 0 else if n < 4 then 0 else n := by
  by_cases hm : max_len < 2
  · rw [if_pos hm, findRun_short _ _ hm]
  · rcases h with h | ⟨hb, hne, hn⟩
    · exact absurd h hm
    · rw [if_neg hm]
      cases buffer with
      | nil => simp at hb
      | cons x l =>
        have hx : x = b := by simpa using hb
        subst hx
        rw [(isLongestRun_iff _ _ _ _).mp hn, findRun_cons x l max_len (by omega) hne]

/-- C5, witness: five bytes `7` followed by `3`, with `max_len = 6`. -/
theorem C5_findRun_reference_witness :
    MSA_FindRunOfBytes [7, 7, 7, 7, 7, 3] 6 = if 6 < 2 then 0 else if 5 < 4 then 0 else 5 :=
  C5_findRun_reference [7, 7, 7, 7, 7, 3] 6 7 5 (Or.inr ⟨rfl, by decide, by decide⟩)

/-! ### Claims C6 and C7 -/

/-- A maximal run inside a track: the iterations of the compression loop for the
track split into those for the bytes in front of the run, those for the run, and
those for the bytes behind it. -/
theorem trackSteps_run (pre post beyond : List Nat) (b k nSectorsPerTrack : Nat)
    (hk : 1 ≤ k) (hpre : pre.getLast? ≠ some b)
    (hlen : pre.length + k + post.length = NUMBYTESPERSECTOR * nSectorsPerTrack) :
    ∃ front,
      trackSteps (pre ++ List.replicate k b ++ post ++ beyond) nSectorsPerTrack =
        front ++ loopSteps (List.replicate k b ++ (post ++ beyond)) (k + post.length) ∧
      (front.map Prod.fst).sum = pre.length := by
  obtain ⟨front, hf, hs⟩ := loopSteps_append pre (List.replicate k b ++ (post ++ beyond))
    (k + post.length) (Or.inr (by
      intro x hx _ h
      obtain ⟨j, rfl⟩ : ∃ j, k = j + 1 := ⟨k - 1, by omega⟩
      simp [List.replicate_succ] at h
      exact hpre (by rw [hx, h])))
  refine ⟨front, ?_, hs⟩
  have hT : NUMBYTESPERSECTOR * nSectorsPerTrack = pre.length + (k + post.length) := by omega
  rw [trackSteps, hT, List.append_assoc, List.append_assoc, hf]

theorem run_end (post beyond : List Nat) (b : Nat) (hpost : post.head? ≠ some b) :
    post.length = 0 ∨ (post ++ beyond).head? ≠ some b := by
  cases post with
  | nil => exact Or.inl rfl
  | cons x post => right; simpa using hpost

/-- C6: in the iterations of the compression loop for a track, every maximal run
(the neighbours inside the track differ) of exactly 3 identical bytes other than
`0xE5` is emitted as 3 literal bytes, and every maximal run of exactly 4
identical bytes other than `0xE5` is emitted as one escape sequence; `pre` and
`post` are the parts of the track in front of and behind the run, of any length. -/
theorem C6_minimum_run_threshold (pre post beyond : List Nat) (b k nSectorsPerTrack : Nat)
    (hb : b ≠ 0xE5) (hk : k = 3 ∨ k = 4)
    (hpre : pre.getLast? ≠ some b) (hpost : post.head? ≠ some b)
    (hlen : pre.length + k + post.length = NUMBYTESPERSECTOR * nSectorsPerTrack) :
    ∃ front back,
      trackSteps (pre ++ List.replicate k b ++ post ++ beyond) nSectorsPerTrack =
        front ++ (if k = 3 then [(1, [b]), (1, [b]), (1, [b])] else [(4, [0xE5, b, 0, 4])])
          ++ back ∧
      (front.map Prod.fst).sum = pre.length ∧ (back.map Prod.fst).sum = post.length := by
  obtain ⟨front, hf, hs⟩ := trackSteps_run pre post beyond b k nSectorsPerTrack (by omega)
    hpre hlen
  refine ⟨front, loopSteps (post ++ beyond) post.length, ?_, hs, loopSteps_consumed _ _⟩
  rw [hf]
  rcases hk with rfl | rfl
  · rw [loopSteps_short_run b 3 _ _ hb (by omega) (run_end post beyond b hpost)]
    simp [List.replicate]
  · rw [loopSteps_long_run b 4 _ _ hb (by omega) (run_end post beyond b hpost)]
    simp [storeWord]

/-- C6, witness: the run `9 9 9` between the bytes `1` and `2` at the start of a
one-sector track. -/
theorem C6_minimum_run_threshold_witness :
    ∃ front back,
      trackSteps ([1] ++ List.replicate 3 9 ++ (2 :: List.replicate 507 0) ++ []) 1 =
        front ++ (if 3 = 3 then [(1, [9]), (1, [9]), (1, [9])] else [(4, [0xE5, 9, 0, 4])])
          ++ back ∧
      (front.map Prod.fst).sum = [1].length ∧
      (back.map Prod.fst).sum = (2 :: List.replicate 507 0).length :=
  C6_minimum_run_threshold [1] (2 :: List.replicate 507 0) [] 9 3 1 (by decide) (Or.inl rfl)
    (by decide) (by decide) (by decide)

/-- C7, the code at a failing input: in the one-sector track
`trackSingleEscapeLast` the only byte `0xE5` is the last byte of the track, behind
the byte `3`; the compression loop stores it as the bare literal `E5`, and no
iteration of the loop stores the escape sequence `E5 E5 00 01`. -/
theorem C7_trailing_escape_is_a_bare_literal :
    trackSingleEscapeLast.length = NUMBYTESPERSECTOR * 1 ∧
    trackSingleEscapeLast = List.replicate 508 7 ++ [1, 2, 3] ++ [0xE5] ∧
    trackSteps trackSingleEscapeLast 1 =
      [(508, [0xE5, 7, 1, 252]), (1, [1]), (1, [2]), (1, [3]), (1, [0xE5])] ∧
    (1, [0xE5, 0xE5, 0, 1]) ∉ trackSteps trackSingleEscapeLast 1 := by
  decide

/-- The escape sequences of the other runs: a maximal run of `n` copies of a
byte `b` other than `0xE5`, `4 <= n < 65536`, is stored as the 4 bytes
`0xE5, b, n div 256, n mod 256`, and a single `0xE5` byte with bytes of the track
behind it as `E5 E5 00 01`. -/
theorem trackSteps_escape_sequence (pre post beyond : List Nat) (b n nSectorsPerTrack : Nat)
    (hcase : (b ≠ 0xE5 ∧ 4 ≤ n ∧ n < 65536) ∨ (b = 0xE5 ∧ n = 1 ∧ post ≠ []))
    (hpre : pre.getLast? ≠ some b) (hpost : post.head? ≠ some b)
    (hlen : pre.length + n + post.length = NUMBYTESPERSECTOR * nSectorsPerTrack) :
    ∃ front back,
      trackSteps (pre ++ List.replicate n b ++ post ++ beyond) nSectorsPerTrack =
        front ++ [(n, [0xE5, b, n / 256, n % 256])] ++ back ∧
      (front.map Prod.fst).sum = pre.length ∧ (back.map Prod.fst).sum = post.length := by
  obtain ⟨front, hf, hs⟩ := trackSteps_run pre post beyond b n nSectorsPerTrack (by omega)
    hpre hlen
  refine ⟨front, loopSteps (post ++ beyond) post.length, ?_, hs, loopSteps_consumed _ _⟩
  rw [hf]
  rcases hcase with ⟨hb, h4, hn⟩ | ⟨rfl, rfl, hne⟩
  · rw [loopSteps_long_run b n _ _ hb h4 (run_end post beyond b hpost)]
    have hw : storeWord (n : Int) = [n / 256, n % 256] := by
      have hmod : ((n : Int) % 65536).toNat = n := by omega
      simp [storeWord, hmod]
    rw [hw]
    simp
  · have hp1 : 1 ≤ post.length := List.length_pos.mpr hne
    have := loopSteps_escapes 1 (post ++ beyond) post.length hp1
    rw [this]
    simp

/-! ### Claim C8 -/

theorem storeWord_of_lt (v : Nat) (hv : v < 65536) :
    storeWord (v : Int) = [v / 256, v % 256] := by
  have hmod : ((v : Int) % 65536).toNat = v := by omega
  simp [storeWord, hmod]

theorem readWord_storeWord (v : Nat) (hv : v < 65536) (payload : List Nat) :
    ∃ hi lo, storeWord (v : Int) ++ payload = hi :: lo :: payload ∧ readWord hi lo = v := by
  refine ⟨v / 256, v % 256, by rw [storeWord_of_lt v hv]; rfl, ?_⟩
  unfold readWord
  omega

/-- C8, the code at a failing input: for the 33-sector track `trackOfEscapes`
(`T = 16896`) the token stream has `c = 65540` bytes, which is not below `T`, and
the chunk written is the length word `00 04` followed by the 65540 token bytes,
not the word `T` followed by the `T` raw bytes of the track; the length word read
back, 4, is not the number of payload bytes. -/
theorem C8_fallback_missed_when_counter_wraps :
    trackOfEscapes.length = NUMBYTESPERSECTOR * 33 ∧
    (trackStream trackOfEscapes 33).length = 65540 ∧
    ¬ (trackStream trackOfEscapes 33).length < NUMBYTESPERSECTOR * 33 ∧
    writeChunk trackOfEscapes 33 = [0, 4] ++ trackStream trackOfEscapes 33 ∧
    writeChunk trackOfEscapes 33 ≠
      storeWord (NUMBYTESPERSECTOR * 33 : Nat) ++ trackOfEscapes.take (NUMBYTESPERSECTOR * 33) ∧
    readWord 0 4 ≠ (trackStream trackOfEscapes 33).length := by
  have hc : trackCompressedBytes trackOfEscapes 33 = 4 := by
    rw [trackCompressedBytes_eq, trackStream_trackOfEscapes]
  have hw : storeWord (4 : Nat) = [0, 4] := by decide
  have hT : storeWord (NUMBYTESPERSECTOR * 33 : Nat) = [66, 0] := by decide
  have hchunk : writeChunk trackOfEscapes 33 = [0, 4] ++ trackStream trackOfEscapes 33 := by
    rw [writeChunk, chunkLength, chunkPayload, hc, if_pos (by decide), if_pos (by decide), hw]
  refine ⟨?_, trackStream_trackOfEscapes, by rw [trackStream_trackOfEscapes]; decide, hchunk,
    ?_, by rw [trackStream_trackOfEscapes]; decide⟩
  · rw [trackOfEscapes, List.length_append, List.length_replicate, List.length_replicate]
    decide
  · rw [hchunk, hT]
    intro h
    exact absurd (List.cons.inj h).1 (by decide)

/-- The chunk of a track whose token stream has `c < 65536` bytes, so that the
`unsigned short` counter holds `c`: if `c < T` the chunk is the 16-bit word `c`
followed by the `c` token bytes, otherwise the 16-bit word `T` followed by the
`T` raw bytes of the track; the length word is the number of payload bytes. -/
theorem writeChunk_verbatim_fallback (pImageBuffer : List Nat) (nSectorsPerTrack : Nat)
    (htrack : NUMBYTESPERSECTOR * nSectorsPerTrack ≤ pImageBuffer.length)
    (hc : (trackStream pImageBuffer nSectorsPerTrack).length < 65536) :
    ((trackStream pImageBuffer nSectorsPerTrack).length < NUMBYTESPERSECTOR * nSectorsPerTrack →
      writeChunk pImageBuffer nSectorsPerTrack =
        storeWord ((trackStream pImageBuffer nSectorsPerTrack).length : Nat) ++
          trackStream pImageBuffer nSectorsPerTrack) ∧
    (¬ (trackStream pImageBuffer nSectorsPerTrack).length < NUMBYTESPERSECTOR * nSectorsPerTrack →
      writeChunk pImageBuffer nSectorsPerTrack =
        storeWord (NUMBYTESPERSECTOR * nSectorsPerTrack : Nat) ++
          pImageBuffer.take (NUMBYTESPERSECTOR * nSectorsPerTrack) ∧
      (pImageBuffer.take (NUMBYTESPERSECTOR * nSectorsPerTrack)).length =
        NUMBYTESPERSECTOR * nSectorsPerTrack) ∧
    ∃ hi lo payload, writeChunk pImageBuffer nSectorsPerTrack = hi :: lo :: payload ∧
      readWord hi lo = payload.length := by
  have hcb : trackCompressedBytes pImageBuffer nSectorsPerTrack =
      (trackStream pImageBuffer nSectorsPerTrack).length := by
    rw [trackCompressedBytes_eq, Nat.mod_eq_of_lt hc]
  have htake : (pImageBuffer.take (NUMBYTESPERSECTOR * nSectorsPerTrack)).length =
      NUMBYTESPERSECTOR * nSectorsPerTrack := by
    rw [List.length_take]; omega
  have hlt : (trackStream pImageBuffer nSectorsPerTrack).length <
        NUMBYTESPERSECTOR * nSectorsPerTrack →
      writeChunk pImageBuffer nSectorsPerTrack =
        storeWord ((trackStream pImageBuffer nSectorsPerTrack).length : Nat) ++
          trackStream pImageBuffer nSectorsPerTrack := by
    intro h
    rw [writeChunk, chunkLength, chunkPayload, hcb, if_pos h, if_pos h]
  have hge : ¬ (trackStream pImageBuffer nSectorsPerTrack).length <
        NUMBYTESPERSECTOR * nSectorsPerTrack →
      writeChunk pImageBuffer nSectorsPerTrack =
        storeWord (NUMBYTESPERSECTOR * nSectorsPerTrack : Nat) ++
          pImageBuffer.take (NUMBYTESPERSECTOR * nSectorsPerTrack) := by
    intro h
    rw [writeChunk, chunkLength, chunkPayload, hcb, if_neg h, if_neg h, Nat.cast_mul]
  refine ⟨hlt, fun h => ⟨hge h, htake⟩, ?_⟩
  by_cases h : (trackStream pImageBuffer nSectorsPerTrack).length <
      NUMBYTESPERSECTOR * nSectorsPerTrack
  · obtain ⟨hi, lo, h1, h2⟩ := readWord_storeWord _ hc (trackStream pImageBuffer nSectorsPerTrack)
    exact ⟨hi, lo, _, (hlt h).trans h1, h2⟩
  · obtain ⟨hi, lo, h1, h2⟩ := readWord_storeWord (NUMBYTESPERSECTOR * nSectorsPerTrack)
      (by omega) (pImageBuffer.take (NUMBYTESPERSECTOR * nSectorsPerTrack))
    exact ⟨hi, lo, _, (hge h).trans h1, by rw [h2, htake]⟩

/-! ### The track decoder -/

theorem uncompressLoop_done (T : Int) (input : List Nat) (n : Int) (h : ¬ n < T) :
    uncompressLoop T input n = some ([], input) := by
  rcases input with _ | ⟨b, _ | ⟨d, _ | ⟨hi, _ | ⟨lo, r⟩⟩⟩⟩ <;> simp [uncompressLoop, h]

theorem uncompressLoop_literal (T : Int) (Byte : Nat) (input : List Nat) (n : Int)
    (h : n < T) (hb : Byte ≠ 0xE5) :
    uncompressLoop T (Byte :: input) n =
      (uncompressLoop T input (n + 1)).map fun r => (Byte :: r.1, r.2) := by
  have key : ∀ X : Option (List Nat × List Nat),
      (match X with
        | none => none
        | some r => some (Byte :: r.1, r.2)) = X.map fun r => (Byte :: r.1, r.2) := by
    intro X; cases X <;> rfl
  rcases input with _ | ⟨d, _ | ⟨hi, _ | ⟨lo, r⟩⟩⟩
  · rw [uncompressLoop.eq_3 _ _ _ _ (by simp)]
    simp only [h, hb, ne_eq, not_false_eq_true, if_true, key]
  · rw [uncompressLoop.eq_3 _ _ _ _ (by simp)]
    simp only [h, hb, ne_eq, not_false_eq_true, if_true, key]
  · rw [uncompressLoop.eq_3 _ _ _ _ (by simp)]
    simp only [h, hb, ne_eq, not_false_eq_true, if_true, key]
  · rw [uncompressLoop.eq_2]
    simp only [h, hb, ne_eq, not_false_eq_true, if_true, key]

theorem uncompressLoop_short (T : Int) (input : List Nat) (n : Int)
    (h : n < T) (hlen : input.length < 3) :
    uncompressLoop T (0xE5 :: input) n = none := by
  rcases input with _ | ⟨d, _ | ⟨hi, _ | ⟨lo, r⟩⟩⟩
  · simp [uncompressLoop, h]
  · simp [uncompressLoop, h]
  · simp [uncompressLoop, h]
  · simp at hlen; omega

theorem uncompressLoop_run (T : Int) (Data hi lo : Nat) (input : List Nat) (n : Int)
    (h : n < T) (hr : ¬ (readWord hi lo : Int) + n > T) :
    uncompressLoop T (0xE5 :: Data :: hi :: lo :: input) n =
      (uncompressLoop T input (n + readWord hi lo)).map fun r =>
        (List.replicate (readWord hi lo) Data ++ r.1, r.2) := by
  rw [uncompressLoop]
  simp only [h, hr, ne_eq, not_true_eq_false, if_true, if_false, Int.toNat_ofNat]
  cases uncompressLoop T input (n + readWord hi lo) <;> rfl

theorem uncompressLoop_clamp (T : Int) (Data hi lo : Nat) (input : List Nat) (n : Int)
    (h : n < T) (hr : (readWord hi lo : Int) + n > T) :
    uncompressLoop T (0xE5 :: Data :: hi :: lo :: input) n =
      some (List.replicate (T - n).toNat Data, input) := by
  rw [uncompressLoop]
  simp only [h, hr, ne_eq, not_true_eq_false, if_true, if_false]
  rw [uncompressLoop_done T input _ (by omega)]
  simp

/-- Every track the loop completes has exactly the bytes that were missing. -/
theorem uncompressLoop_length (T : Int) :
    ∀ (k : Nat) (input : List Nat) (n : Int) (r : List Nat × List Nat), input.length = k →
      0 ≤ n → n ≤ T → uncompressLoop T input n = some r → (r.1.length : Int) = T - n := by
  intro k
  induction k using Nat.strong_induction_on with
  | _ k ih =>
    intro input n r hk h0 hT hres
    by_cases hn : n < T
    · cases input with
      | nil => simp [uncompressLoop, hn] at hres
      | cons Byte input =>
        by_cases hb : Byte = 0xE5
        · subst hb
          match input, hk, hres with
          | Data :: hi :: lo :: input, hk, hres =>
            by_cases hr : (readWord hi lo : Int) + n > T
            · rw [uncompressLoop_clamp T _ _ _ _ _ hn hr] at hres
              cases hres
              simp; omega
            · rw [uncompressLoop_run T _ _ _ _ _ hn hr] at hres
              cases hrec : uncompressLoop T input (n + readWord hi lo) with
              | none => simp [hrec] at hres
              | some r' =>
                simp [hrec] at hres
                subst hres
                have := ih input.length (by simp at hk; omega) input _ r' rfl (by omega)
                  (by omega) hrec
                simp; omega
          | [], _, hres => simp [uncompressLoop, hn] at hres
          | [_], _, hres => simp [uncompressLoop, hn] at hres
          | [_, _], _, hres => simp [uncompressLoop, hn] at hres
        · rw [uncompressLoop_literal T _ _ _ hn hb] at hres
          cases hrec : uncompressLoop T input (n + 1) with
          | none => simp [hrec] at hres
          | some r' =>
            simp [hrec] at hres
            subst hres
            have := ih input.length (by simp at hk; omega) input _ r' rfl (by omega)
              (by omega) hrec
            simp; omega
    · rw [uncompressLoop_done T input n hn] at hres
      cases hres
      simp; omega

/-- Each chunk contributes exactly `nBytesPerTrack` bytes, whatever its content. -/
theorem uncompressChunk_length (T : Int) (input : List Nat) (r : List Nat × List Nat)
    (hres : uncompressChunk T input = some r) : r.1.length = T.toNat := by
  match input, hres with
  | hi :: lo :: input, hres =>
    rw [uncompressChunk] at hres
    by_cases hd : (readWord hi lo : Int) = T
    · simp only [hd, if_true] at hres
      by_cases hl : input.length < T.toNat
      · simp [hl] at hres
      · simp only [hl, if_false, Option.some.injEq] at hres
        subst hres
        simp; omega
    · simp only [hd, if_false] at hres
      by_cases h0 : 0 ≤ T
      · have := uncompressLoop_length T input.length input 0 r rfl (le_refl _) h0 hres
        omega
      · rw [uncompressLoop_done T input 0 (by omega)] at hres
        cases hres
        simp; omega
  | [], hres => simp [uncompressChunk] at hres
  | [_], hres => simp [uncompressChunk] at hres

theorem uncompressSides_length (T : Int) (k : Nat) (input : List Nat)
    (r : List Nat × List Nat) (hres : uncompressSides T k input = some r) :
    r.1.length = k * T.toNat := by
  induction k generalizing input r with
  | zero =>
    simp [uncompressSides] at hres
    subst hres
    simp
  | succ k ih =>
    rw [uncompressSides] at hres
    cases hc : uncompressChunk T input with
    | none => simp [hc] at hres
    | some c =>
      simp only [hc] at hres
      cases hs : uncompressSides T k c.2 with
      | none => simp [hs] at hres
      | some s =>
        simp only [hs, Option.some.injEq] at hres
        subst hres
        rw [List.length_append, uncompressChunk_length T input c hc, ih c.2 s hs]
        ring

theorem uncompressTracks_length (T : Int) (nSides k : Nat) (input : List Nat)
    (r : List Nat × List Nat) (hres : uncompressTracks T nSides k input = some r) :
    r.1.length = k * (nSides * T.toNat) := by
  induction k generalizing input r with
  | zero =>
    simp [uncompressTracks] at hres
    subst hres
    simp
  | succ k ih =>
    rw [uncompressTracks] at hres
    cases hc : uncompressSides T nSides input with
    | none => simp [hc] at hres
    | some c =>
      simp only [hc] at hres
      cases hs : uncompressTracks T nSides k c.2 with
      | none => simp [hs] at hres
      | some s =>
        simp only [hs, Option.some.injEq] at hres
        subst hres
        rw [List.length_append, uncompressSides_length T nSides input c hc, ih c.2 s hs]
        ring

/-! ### Claims C9 and C10 -/

theorem toInt_of_lt (v : Nat) (hv : v < 2147483648) : toInt v = (v : Int) := by
  unfold toInt
  rw [Nat.mod_eq_of_lt (by omega), if_pos hv]

/-- C9, amended: for every container whose magic is `0x0E0F`, whose header (read
into the `short int` fields of `MSAHEADERSTRUCT`) satisfies `ending_track >=
starting_track`, side field in `{0,1}` and `sectors_per_track >= 1`, for which
`(ending_track - starting_track + 1) * (side_field + 1) * sectors_per_track * 512`
is at most `INT_MAX = 2147483647`, and whose chunk data is long enough (the
decoder never reads behind the end of the file, i.e. the embedding does not
answer `none`), `MSA_UnCompress` returns exactly that product, the number of
bytes it stored; and each chunk contributes exactly `sectors_per_track * 512`
output bytes whatever its content. -/
theorem C9_total_decoded_size (id0 id1 s0 s1 d0 d1 a0 a1 e0 e1 : Nat) (data : List Nat)
    (hmagic : readWord id0 id1 = 0x0E0F)
    (htracks : toShort (readWord a0 a1) ≤ toShort (readWord e0 e1))
    (hsides : toShort (readWord d0 d1) = 0 ∨ toShort (readWord d0 d1) = 1)
    (hspt : 1 ≤ toShort (readWord s0 s1))
    (hint : (toShort (readWord e0 e1) - toShort (readWord a0 a1) + 1) *
      (toShort (readWord d0 d1) + 1) * toShort (readWord s0 s1) * 512 ≤ 2147483647)
    (hdata : (MSA_UnCompress
      (id0 :: id1 :: s0 :: s1 :: d0 :: d1 :: a0 :: a1 :: e0 :: e1 :: data)).isSome) :
    (∃ out,
      MSA_UnCompress (id0 :: id1 :: s0 :: s1 :: d0 :: d1 :: a0 :: a1 :: e0 :: e1 :: data) =
        some ((toShort (readWord e0 e1) - toShort (readWord a0 a1) + 1) *
          (toShort (readWord d0 d1) + 1) * toShort (readWord s0 s1) * 512, out) ∧
      (out.length : Int) =
        (toShort (readWord e0 e1) - toShort (readWord a0 a1) + 1) *
          (toShort (readWord d0 d1) + 1) * toShort (readWord s0 s1) * 512) ∧
    ∀ chunk r, uncompressChunk (NUMBYTESPERSECTOR * toShort (readWord s0 s1)) chunk = some r →
      (r.1.length : Int) = toShort (readWord s0 s1) * 512 := by
  have hT : ((NUMBYTESPERSECTOR : Int) * toShort (readWord s0 s1)).toNat =
      (NUMBYTESPERSECTOR * toShort (readWord s0 s1) : Int) := Int.toNat_of_nonneg (by
    have h : (NUMBYTESPERSECTOR : Int) = 512 := rfl
    rw [h]
    omega)
  have h512 : (NUMBYTESPERSECTOR : Int) = 512 := rfl
  constructor
  · rw [MSA_UnCompress] at hdata ⊢
    simp only [hmagic, if_true] at hdata ⊢
    cases hres : uncompressTracks (NUMBYTESPERSECTOR * toShort (readWord s0 s1))
        (toShort (readWord d0 d1) + 1).toNat
        (toShort (readWord e0 e1) + 1 - toShort (readWord a0 a1)).toNat data with
    | none => simp [hres] at hdata
    | some r =>
      have hl : (r.1.length : Int) =
          (toShort (readWord e0 e1) - toShort (readWord a0 a1) + 1) *
            (toShort (readWord d0 d1) + 1) * toShort (readWord s0 s1) * 512 := by
        rw [uncompressTracks_length _ _ _ _ r hres]
        push_cast
        rw [hT, Int.toNat_of_nonneg (by omega), Int.toNat_of_nonneg (by omega), h512]
        ring
      refine ⟨r.1, ?_, hl⟩
      rw [← hl] at hint
      show some (toInt r.1.length, r.1) = _
      rw [toInt_of_lt _ (by omega), hl]
  · intro chunk r hres
    have := uncompressChunk_length _ chunk r hres
    rw [this, hT, h512]
    ring

/-- C9, witness: a container of one track, one side and one sector per track
whose only chunk is RLE-coded decodes to 512 bytes. -/
theorem C9_total_decoded_size_witness :
    (∃ out,
      MSA_UnCompress (0x0E :: 0x0F :: 0 :: 1 :: 0 :: 0 :: 0 :: 0 :: 0 :: 0 ::
          [0, 8, 0xE5, 7, 1, 255, 0xE5, 9, 0, 5]) =
        some ((toShort (readWord 0 0) - toShort (readWord 0 0) + 1) *
          (toShort (readWord 0 0) + 1) * toShort (readWord 0 1) * 512, out) ∧
      (out.length : Int) =
        (toShort (readWord 0 0) - toShort (readWord 0 0) + 1) *
          (toShort (readWord 0 0) + 1) * toShort (readWord 0 1) * 512) ∧
    ∀ chunk r, uncompressChunk (NUMBYTESPERSECTOR * toShort (readWord 0 1)) chunk = some r →
      (r.1.length : Int) = toShort (readWord 0 1) * 512 :=
  C9_total_decoded_size 0x0E 0x0F 0 1 0 0 0 0 0 0 [0, 8, 0xE5, 7, 1, 255, 0xE5, 9, 0, 5]
    (by decide) (by decide) (by decide) (by decide) (by decide) (by decide)

theorem expandTokens_cons (t : List Nat) (toks : List (List Nat)) :
    expandTokens (t :: toks) = expandToken t ++ expandTokens toks := by
  simp [expandTokens]

/-- A sequence of tokens whose bytes do not fill the track is read by the loop
token by token, without any clamping. -/
theorem uncompressLoop_tokens (T : Int) (toks : List (List Nat)) (s : List Nat) (n : Int)
    (htok : ∀ t ∈ toks, isToken t = true)
    (hlt : n + (expandTokens toks).length < T) :
    uncompressLoop T (toks.flatten ++ s) n =
      (uncompressLoop T s (n + (expandTokens toks).length)).map fun r =>
        (expandTokens toks ++ r.1, r.2) := by
  induction toks generalizing n with
  | nil =>
    simp [expandTokens]
  | cons t toks ih =>
    have ht := htok t (by simp)
    have htoks : ∀ t ∈ toks, isToken t = true := fun t' h' => htok t' (by simp [h'])
    rw [expandTokens_cons, List.length_append] at hlt
    rw [expandTokens_cons, List.flatten_cons, List.append_assoc]
    match t, ht, hlt with
    | [b], ht, hlt =>
      have hb : b ≠ 0xE5 := by simpa [isToken] using ht
      simp only [expandToken, List.length_singleton] at hlt ⊢
      push_cast at hlt
      rw [List.singleton_append, uncompressLoop_literal T b _ n (by omega) hb,
        ih (n + 1) htoks (by omega)]
      simp only [Option.map_map, List.length_append, List.length_singleton]
      push_cast
      have e : n + 1 + ((expandTokens toks).length : Int) =
          n + (1 + ((expandTokens toks).length : Int)) := by ring
      rw [e]
      rfl
    | [m, Data, hi, lo], ht, hlt =>
      have hm : m = 0xE5 := by simpa [isToken] using ht
      subst hm
      simp only [expandToken, List.length_replicate] at hlt ⊢
      rw [List.cons_append, List.cons_append, List.cons_append, List.cons_append,
        List.nil_append, uncompressLoop_run T Data hi lo _ n (by omega) (by omega),
        ih (n + readWord hi lo) htoks (by omega)]
      simp only [Option.map_map, List.length_append, List.length_replicate]
      push_cast
      have e : n + (readWord hi lo : Int) + ((expandTokens toks).length : Int) =
          n + ((readWord hi lo : Int) + ((expandTokens toks).length : Int)) := by ring
      rw [e]
      congr 1
      funext r
      simp
    | [], ht, _ => simp [isToken] at ht
    | [_, _], ht, _ => simp [isToken] at ht
    | [_, _, _], ht, _ => simp [isToken] at ht
    | _ :: _ :: _ :: _ :: _ :: _, ht, _ => simp [isToken] at ht

/-- C10: for every RLE-coded chunk (length word different from `T =
sectors_per_track * 512`) in which, behind any sequence `toks` of tokens that has
emitted fewer than `T` bytes, an escape sequence has `run_length +
bytes_emitted_so_far > T`, the track decoder emits the data byte exactly
`T - bytes_emitted_so_far` times, the decoded track has exactly `T` bytes, and
the `Side` loop goes on with the next chunk right behind the escape sequence. -/
theorem C10_clamp_policy (nSectorsPerTrack : Int) (L0 L1 Data hi lo : Nat)
    (toks : List (List Nat)) (next : List Nat)
    (hrle : (readWord L0 L1 : Int) ≠ NUMBYTESPERSECTOR * nSectorsPerTrack)
    (htok : ∀ t ∈ toks, isToken t = true)
    (hsofar : ((expandTokens toks).length : Int) < NUMBYTESPERSECTOR * nSectorsPerTrack)
    (hover : (readWord hi lo : Int) + (expandTokens toks).length >
      NUMBYTESPERSECTOR * nSectorsPerTrack) :
    uncompressChunk (NUMBYTESPERSECTOR * nSectorsPerTrack)
        (L0 :: L1 :: (toks.flatten ++ 0xE5 :: Data :: hi :: lo :: next)) =
      some (expandTokens toks ++
        List.replicate
          (NUMBYTESPERSECTOR * nSectorsPerTrack - (expandTokens toks).length).toNat Data,
        next) ∧
    ((expandTokens toks ++
        List.replicate
          (NUMBYTESPERSECTOR * nSectorsPerTrack - (expandTokens toks).length).toNat
          Data).length : Int) = NUMBYTESPERSECTOR * nSectorsPerTrack ∧
    ∀ k, uncompressSides (NUMBYTESPERSECTOR * nSectorsPerTrack) (k + 1)
        (L0 :: L1 :: (toks.flatten ++ 0xE5 :: Data :: hi :: lo :: next)) =
      (uncompressSides (NUMBYTESPERSECTOR * nSectorsPerTrack) k next).map fun r =>
        ((expandTokens toks ++
          List.replicate
            (NUMBYTESPERSECTOR * nSectorsPerTrack - (expandTokens toks).length).toNat Data)
          ++ r.1, r.2) := by
  have hchunk : uncompressChunk (NUMBYTESPERSECTOR * nSectorsPerTrack)
        (L0 :: L1 :: (toks.flatten ++ 0xE5 :: Data :: hi :: lo :: next)) =
      some (expandTokens toks ++
        List.replicate
          (NUMBYTESPERSECTOR * nSectorsPerTrack - (expandTokens toks).length).toNat Data,
        next) := by
    rw [uncompressChunk]
    simp only [hrle, if_false]
    rw [uncompressLoop_tokens _ toks _ 0 htok (by omega), Int.zero_add,
      uncompressLoop_clamp _ Data hi lo next _ hsofar hover]
    rfl
  refine ⟨hchunk, ?_, ?_⟩
  · rw [List.length_append, List.length_replicate]
    push_cast
    rw [Int.toNat_of_nonneg (by omega)]
    ring
  · intro k
    rw [uncompressSides, hchunk]
    dsimp only
    cases uncompressSides (NUMBYTESPERSECTOR * nSectorsPerTrack) k next <;> rfl

/-- C10, witness: in the chunk `00 08 | E5 07 01 FF E5 09 00 05` of a one-sector
track the escape sequence `E5 09 00 05` comes when 511 of the 512 bytes are
emitted; the byte `9` is emitted once. -/
theorem C10_clamp_policy_witness :
    uncompressChunk (NUMBYTESPERSECTOR * (1 : Int))
        (0 :: 8 :: ([[0xE5, 7, 1, 255]].flatten ++ 0xE5 :: 9 :: 0 :: 5 :: [])) =
      some (expandTokens [[0xE5, 7, 1, 255]] ++
        List.replicate
          (NUMBYTESPERSECTOR * (1 : Int) - (expandTokens [[0xE5, 7, 1, 255]]).length).toNat 9,
        []) ∧
    ((expandTokens [[0xE5, 7, 1, 255]] ++
        List.replicate
          (NUMBYTESPERSECTOR * (1 : Int) - (expandTokens [[0xE5, 7, 1, 255]]).length).toNat
          9).length : Int) = NUMBYTESPERSECTOR * (1 : Int) ∧
    ∀ k, uncompressSides (NUMBYTESPERSECTOR * (1 : Int)) (k + 1)
        (0 :: 8 :: ([[0xE5, 7, 1, 255]].flatten ++ 0xE5 :: 9 :: 0 :: 5 :: [])) =
      (uncompressSides (NUMBYTESPERSECTOR * (1 : Int)) k []).map fun r =>
        ((expandTokens [[0xE5, 7, 1, 255]] ++
          List.replicate
            (NUMBYTESPERSECTOR * (1 : Int) - (expandTokens [[0xE5, 7, 1, 255]]).length).toNat 9)
          ++ r.1, r.2) :=
  C10_clamp_policy 1 0 8 9 0 5 [[0xE5, 7, 1, 255]] [] (by decide) (by decide) (by decide)
    (by decide)

/-! ### Claims C11, C12 and C16 -/

/-- C11: for every container whose first big-endian 16-bit word is not `0x0E0F`,
`MSA_UnCompress` fails: it returns 0 and stores no byte in the output buffer. -/
theorem C11_invalid_magic (id0 id1 : Nat) (rest : List Nat)
    (hmagic : readWord id0 id1 ≠ 0x0E0F) :
    MSA_UnCompress (id0 :: id1 :: rest) = some (0, []) := by
  unfold MSA_UnCompress
  simp only [hmagic, if_false]

/-- C11, witness: a file that starts with the word `0x0E0E`. -/
theorem C11_invalid_magic_witness :
    MSA_UnCompress (0x0E :: 0x0E :: [0, 9, 0, 1, 0, 0, 0, 79, 1, 2, 3]) = some (0, []) :=
  C11_invalid_magic 0x0E 0x0E [0, 9, 0, 1, 0, 0, 0, 79, 1, 2, 3] (by decide)

/-- A sequence of tokens, none of them empty when expanded, that fills the track
exactly is read token by token, and the loop stops right behind it. -/
theorem uncompressLoop_tokens_exact (T : Int) (toks : List (List Nat)) (s : List Nat) (n : Int)
    (htok : ∀ t ∈ toks, isToken t = true ∧ expandToken t ≠ [])
    (hfill : n + (expandTokens toks).length = T) :
    uncompressLoop T (toks.flatten ++ s) n = some (expandTokens toks, s) := by
  induction toks generalizing n with
  | nil =>
    simp only [expandTokens, List.map_nil, List.flatten_nil, List.length_nil] at hfill
    rw [List.flatten_nil, List.nil_append, uncompressLoop_done T s n (by omega)]
    rfl
  | cons t toks ih =>
    have ht := htok t (by simp)
    have htoks : ∀ t ∈ toks, isToken t = true ∧ expandToken t ≠ [] :=
      fun t' h' => htok t' (by simp [h'])
    rw [expandTokens_cons, List.length_append] at hfill
    rw [expandTokens_cons, List.flatten_cons, List.append_assoc]
    match t, ht, hfill with
    | [b], ht, hfill =>
      have hb : b ≠ 0xE5 := by simpa [isToken] using ht.1
      simp only [expandToken, List.length_singleton] at hfill ⊢
      push_cast at hfill
      rw [List.singleton_append, uncompressLoop_literal T b _ n (by omega) hb,
        ih (n + 1) htoks (by omega)]
      rfl
    | [m, Data, hi, lo], ht, hfill =>
      have hm : m = 0xE5 := by simpa [isToken] using ht.1
      subst hm
      have hne : readWord hi lo ≠ 0 := by
        intro h0
        apply ht.2
        simp [expandToken, h0]
      simp only [expandToken, List.length_replicate] at hfill ⊢
      push_cast at hfill
      rw [List.cons_append, List.cons_append, List.cons_append, List.cons_append,
        List.nil_append, uncompressLoop_run T Data hi lo _ n (by omega) (by omega),
        ih (n + readWord hi lo) htoks (by omega)]
      rfl
    | [], ht, _ => simp [isToken] at ht
    | [_, _], ht, _ => simp [isToken] at ht
    | [_, _, _], ht, _ => simp [isToken] at ht
    | _ :: _ :: _ :: _ :: _ :: _, ht, _ => simp [isToken] at ht

/-- C12, counterexample: in `containerShortPayload` (valid magic, two tracks of
one sector) the payload `E5 00 01 FF` of the first chunk is exhausted when 511
bytes are produced (on its own it cannot be decoded to 512 bytes), yet
`MSA_UnCompress` does not fail: it takes the next chunk's length word for data
and returns the size 1024 and an image. -/
theorem C12_exhausted_payload_is_not_detected :
    uncompressLoop 512 [0xE5, 0, 1, 0xFF] 0 = none ∧
    MSA_UnCompress containerShortPayload =
      some (1024, List.replicate 511 0 ++ [2] ++ List.replicate 512 9) := by
  decide

/-- C12, amended: when the payload of an RLE-coded chunk (length word `L`
different from `T`, followed by `L` bytes that are a sequence of tokens) is
exhausted with fewer than `T` bytes produced, `MSA_UnCompress` does not detect it:
the track loop goes on with the bytes `after` that follow the payload in the file
as if they belonged to the track.  A track the chunk decoder completes has
exactly `T` bytes, and when the file ends with the payload the decoder reads
behind the end of the file. -/
theorem C12_decoding_runs_past_payload (nSectorsPerTrack : Int) (L0 L1 : Nat)
    (toks : List (List Nat)) (after : List Nat)
    (hlen : readWord L0 L1 = toks.flatten.length)
    (hrle : (readWord L0 L1 : Int) ≠ NUMBYTESPERSECTOR * nSectorsPerTrack)
    (htok : ∀ t ∈ toks, isToken t = true)
    (hshort : ((expandTokens toks).length : Int) < NUMBYTESPERSECTOR * nSectorsPerTrack) :
    (L0 :: L1 :: (toks.flatten ++ after)).drop (2 + readWord L0 L1) = after ∧
    uncompressChunk (NUMBYTESPERSECTOR * nSectorsPerTrack) (L0 :: L1 :: (toks.flatten ++ after)) =
      (uncompressLoop (NUMBYTESPERSECTOR * nSectorsPerTrack) after
        (expandTokens toks).length).map (fun r => (expandTokens toks ++ r.1, r.2)) ∧
    (∀ r, uncompressChunk (NUMBYTESPERSECTOR * nSectorsPerTrack)
        (L0 :: L1 :: (toks.flatten ++ after)) = some r →
      (r.1.length : Int) = NUMBYTESPERSECTOR * nSectorsPerTrack) ∧
    uncompressChunk (NUMBYTESPERSECTOR * nSectorsPerTrack) (L0 :: L1 :: toks.flatten) = none := by
  have hchunk : ∀ after : List Nat,
      uncompressChunk (NUMBYTESPERSECTOR * nSectorsPerTrack)
          (L0 :: L1 :: (toks.flatten ++ after)) =
        (uncompressLoop (NUMBYTESPERSECTOR * nSectorsPerTrack) after
          (expandTokens toks).length).map (fun r => (expandTokens toks ++ r.1, r.2)) := by
    intro after
    rw [uncompressChunk]
    simp only [hrle, if_false]
    rw [uncompressLoop_tokens _ toks _ 0 htok (by omega), Int.zero_add]
  refine ⟨?_, hchunk after, ?_, ?_⟩
  · have h2 : 2 + readWord L0 L1 = toks.flatten.length + 1 + 1 := by omega
    rw [h2, List.drop_succ_cons, List.drop_succ_cons, List.drop_left]
  · intro r hr
    have := uncompressChunk_length _ _ r hr
    rw [this, Int.toNat_of_nonneg (by omega)]
  · have h := hchunk []
    rw [List.append_nil] at h
    rw [h, uncompressLoop]
    simp [hshort]

/-- C12, witness: the first chunk of `containerShortPayload`, followed by the
second chunk. -/
theorem C12_decoding_runs_past_payload_witness :
    (0 :: 4 :: ([[0xE5, 0, 1, 0xFF]].flatten ++ [2, 0, 5, 0xE5, 9, 2, 0])).drop
        (2 + readWord 0 4) = [2, 0, 5, 0xE5, 9, 2, 0] ∧
    uncompressChunk (NUMBYTESPERSECTOR * (1 : Int))
        (0 :: 4 :: ([[0xE5, 0, 1, 0xFF]].flatten ++ [2, 0, 5, 0xE5, 9, 2, 0])) =
      (uncompressLoop (NUMBYTESPERSECTOR * (1 : Int)) [2, 0, 5, 0xE5, 9, 2, 0]
        (expandTokens [[0xE5, 0, 1, 0xFF]]).length).map
          (fun r => (expandTokens [[0xE5, 0, 1, 0xFF]] ++ r.1, r.2)) ∧
    (∀ r, uncompressChunk (NUMBYTESPERSECTOR * (1 : Int))
        (0 :: 4 :: ([[0xE5, 0, 1, 0xFF]].flatten ++ [2, 0, 5, 0xE5, 9, 2, 0])) = some r →
      (r.1.length : Int) = NUMBYTESPERSECTOR * (1 : Int)) ∧
    uncompressChunk (NUMBYTESPERSECTOR * (1 : Int)) (0 :: 4 :: [[0xE5, 0, 1, 0xFF]].flatten) =
      none :=
  C12_decoding_runs_past_payload 1 0 4 [[0xE5, 0, 1, 0xFF]] [2, 0, 5, 0xE5, 9, 2, 0]
    (by decide) (by decide) (by decide) (by decide)

/-- C16, counterexample: the first chunk of `containerWrongLength` has the length
word `L = 2`, but the decoder reads the four bytes `E5 07 02 00` behind it and
takes the next length word at offset 6 of the chunk, not at offset `2 + L = 4`:
the image returned is 512 bytes `7` and 512 bytes `9`. -/
theorem C16_length_word_of_rle_chunk_unused :
    readWord 0 2 = 2 ∧
    uncompressChunk 512 ([0, 2, 0xE5, 7, 2, 0] ++ [0, 4, 0xE5, 9, 2, 0]) =
      some (List.replicate 512 7, [0, 4, 0xE5, 9, 2, 0]) ∧
    ([0, 2, 0xE5, 7, 2, 0] ++ [0, 4, 0xE5, 9, 2, 0]).drop (2 + 2) ≠ [0, 4, 0xE5, 9, 2, 0] ∧
    MSA_UnCompress containerWrongLength =
      some (1024, List.replicate 512 7 ++ List.replicate 512 9) := by
  decide

/-- C16, amended: for a verbatim chunk (`L = T`) `MSA_UnCompress` copies exactly
the `L` payload bytes that follow the length word and reads the next chunk's
length word at offset `2 + L`; for an RLE-coded chunk (`L != T`) it does not use
`L`: it reads tokens until `T` bytes are produced and takes the next length word
right behind the last token read, which is the offset `2 + L` when the `L`
payload bytes are a sequence of tokens with non-zero run lengths that produce
exactly `T` bytes. -/
theorem C16_chunk_framing (nSectorsPerTrack : Int) (L0 L1 : Nat) (payload : List Nat)
    (toks : List (List Nat)) (next : List Nat)
    (hcase :
      ((readWord L0 L1 : Int) = NUMBYTESPERSECTOR * nSectorsPerTrack ∧
        payload.length = readWord L0 L1) ∨
      ((readWord L0 L1 : Int) ≠ NUMBYTESPERSECTOR * nSectorsPerTrack ∧
        payload = toks.flatten ∧
        (∀ t ∈ toks, isToken t = true ∧ expandToken t ≠ []) ∧
        ((expandTokens toks).length : Int) = NUMBYTESPERSECTOR * nSectorsPerTrack)) :
    uncompressChunk (NUMBYTESPERSECTOR * nSectorsPerTrack) (L0 :: L1 :: (payload ++ next)) =
      some (if (readWord L0 L1 : Int) = NUMBYTESPERSECTOR * nSectorsPerTrack then payload
        else expandTokens toks, next) ∧
    (L0 :: L1 :: (payload ++ next)).drop (2 + payload.length) = next := by
  constructor
  · rcases hcase with ⟨hT, hlen⟩ | ⟨hT, hp, htok, hfill⟩
    · rw [uncompressChunk]
      simp only [hT, if_true]
      have hn : (NUMBYTESPERSECTOR * nSectorsPerTrack : Int).toNat = payload.length := by
        rw [← hT, hlen]; simp
      rw [hn, if_neg (by simp), List.take_left, List.drop_left]
    · rw [uncompressChunk]
      simp only [hT, if_false]
      rw [hp, uncompressLoop_tokens_exact _ toks next 0 htok (by omega)]
  · have h2 : 2 + payload.length = payload.length + 1 + 1 := by omega
    rw [h2, List.drop_succ_cons, List.drop_succ_cons, List.drop_left]

/-- C16, witness: the chunk `00 04 | E5 09 02 00` of a one-sector track, followed
by the bytes `1, 2`. -/
theorem C16_chunk_framing_witness :
    uncompressChunk (NUMBYTESPERSECTOR * (1 : Int))
        (0 :: 4 :: ([0xE5, 9, 2, 0] ++ [1, 2])) =
      some (if (readWord 0 4 : Int) = NUMBYTESPERSECTOR * (1 : Int) then [0xE5, 9, 2, 0]
        else expandTokens [[0xE5, 9, 2, 0]], [1, 2]) ∧
    (0 :: 4 :: ([0xE5, 9, 2, 0] ++ [1, 2])).drop (2 + [0xE5, 9, 2, 0].length) = [1, 2] :=
  C16_chunk_framing 1 0 4 [0xE5, 9, 2, 0] [[0xE5, 9, 2, 0]] [1, 2]
    (Or.inr ⟨by decide, by decide, by decide, by decide⟩)

/-! ### The compression loop reads the track only -/

theorem runCount_take (l : List Nat) (n b : Nat) : runCount (l.take n) n b = runCount l n b := by
  rw [runCount, runCount, List.take_take, Nat.min_self]

theorem findRun_take (p : List Nat) (n : Nat) :
    MSA_FindRunOfBytes (p.take n) n = MSA_FindRunOfBytes p n := by
  by_cases hn : n < 2
  · rw [findRun_short _ _ hn, findRun_short _ _ hn]
  · cases p with
    | nil => simp
    | cons x p =>
      obtain ⟨k, rfl⟩ : ∃ k, n = k + 1 := ⟨n - 1, by omega⟩
      by_cases hx : x = 0xE5
      · subst hx
        rw [List.take_succ_cons, findRun_escape _ _ (by omega), findRun_escape _ _ (by omega)]
      · have h := runCount_take (x :: p) (k + 1) x
        rw [List.take_succ_cons] at h ⊢
        rw [findRun_cons x _ _ (by omega) hx, findRun_cons x _ _ (by omega) hx, h]

theorem headD_take (p : List Nat) (n : Nat) (hn : 0 < n) : (p.take n).headD 0 = p.headD 0 := by
  obtain ⟨k, rfl⟩ : ∃ k, n = k + 1 := ⟨n - 1, by omega⟩
  cases p <;> simp

theorem compressLoop_take (fuel : Nat) (p : List Nat) (n c : Nat) :
    compressLoop fuel (p.take n) n c = compressLoop fuel p n c := by
  induction fuel generalizing p n c with
  | zero => simp [compressLoop]
  | succ f ih =>
    unfold compressLoop
    by_cases hn : n > 0
    · simp only [hn, if_true, findRun_take, headD_take p n hn]
      by_cases hr : MSA_FindRunOfBytes p n = 0
      · simp only [hr, if_true]
        rw [List.drop_take, ih]
      · simp only [hr, if_false]
        rw [List.drop_take, ih]
    · simp [hn]

theorem loopSteps_take (p : List Nat) (n : Nat) : loopSteps (p.take n) n = loopSteps p n := by
  rw [loopSteps, loopSteps, compressLoop_take]

theorem trackStream_take (p : List Nat) (nSectorsPerTrack : Nat) :
    trackStream (p.take (NUMBYTESPERSECTOR * nSectorsPerTrack)) nSectorsPerTrack =
      trackStream p nSectorsPerTrack := by
  rw [trackStream, trackStream, trackSteps, trackSteps, loopSteps_take]

theorem trackCompressedBytes_take (p : List Nat) (nSectorsPerTrack : Nat) :
    trackCompressedBytes (p.take (NUMBYTESPERSECTOR * nSectorsPerTrack)) nSectorsPerTrack =
      trackCompressedBytes p nSectorsPerTrack := by
  rw [trackCompressedBytes, trackCompressedBytes, compressLoop_take]

/-- The chunk written for a track depends on the bytes of the track only. -/
theorem writeChunk_take (p : List Nat) (nSectorsPerTrack : Nat) :
    writeChunk (p.take (NUMBYTESPERSECTOR * nSectorsPerTrack)) nSectorsPerTrack =
      writeChunk p nSectorsPerTrack := by
  rw [writeChunk, writeChunk, chunkLength, chunkLength, chunkPayload, chunkPayload,
    trackCompressedBytes_take, trackStream_take, List.take_take, Nat.min_self]

theorem chunkWrites_take (off : Nat) (p : List Nat) (nSectorsPerTrack : Nat) :
    chunkWrites off (p.take (NUMBYTESPERSECTOR * nSectorsPerTrack)) nSectorsPerTrack =
      chunkWrites off p nSectorsPerTrack := by
  rw [chunkWrites, chunkWrites, trackCompressedBytes_take, trackStream_take]

theorem workspaceWrites_congr (nSectorsPerTrack : Nat) (ps qs : List (List Nat)) (off : Nat)
    (h : ps.map (List.take (NUMBYTESPERSECTOR * nSectorsPerTrack)) =
      qs.map (List.take (NUMBYTESPERSECTOR * nSectorsPerTrack))) :
    workspaceWrites off ps nSectorsPerTrack = workspaceWrites off qs nSectorsPerTrack := by
  induction ps generalizing qs off with
  | nil =>
    cases qs with
    | nil => rfl
    | cons q qs => simp at h
  | cons p ps ih =>
    cases qs with
    | nil => simp at h
    | cons q qs =>
      simp only [List.map_cons, List.cons.injEq] at h
      rw [workspaceWrites, workspaceWrites, ← chunkWrites_take off p, ← chunkWrites_take off q,
        ← writeChunk_take p, ← writeChunk_take q, h.1, ih qs _ h.2]

theorem writeChunks_congr (nSectorsPerTrack : Nat) (ps qs : List (List Nat))
    (h : ps.map (List.take (NUMBYTESPERSECTOR * nSectorsPerTrack)) =
      qs.map (List.take (NUMBYTESPERSECTOR * nSectorsPerTrack))) :
    ps.map (fun p => writeChunk p nSectorsPerTrack) =
      qs.map (fun p => writeChunk p nSectorsPerTrack) := by
  have e : (fun p => writeChunk p nSectorsPerTrack) =
      (fun p => writeChunk p nSectorsPerTrack) ∘
        List.take (NUMBYTESPERSECTOR * nSectorsPerTrack) := by
    funext p
    exact (writeChunk_take p nSectorsPerTrack).symm
  rw [e, ← List.map_map, ← List.map_map, h]

/-! ### The order of the chunks -/

theorem range_flatMap_map {α : Type} (f : Nat → α) (a b : Nat) :
    ((List.range a).flatMap fun i => (List.range b).map fun j => f (i * b + j)) =
      (List.range (a * b)).map f := by
  induction a with
  | zero => simp
  | succ a ih =>
    rw [List.range_succ, List.flatMap_append, ih, List.flatMap_singleton, Nat.succ_mul,
      List.range_add, List.map_append, List.map_map]
    rfl

/-- Without wrap of the `unsigned short` `nBytesPerTrack`, the track data pointer of
iteration `(Track, Side)` is the image at offset `(Track * nSides + Side) * T`. -/
theorem trackPointers_eq (pBuffer : List Nat) (nSectorsPerTrack nSides nTracks : Nat)
    (hspt : nSectorsPerTrack ≤ 127) :
    trackPointers pBuffer nSectorsPerTrack nSides nTracks =
      (List.range (nTracks * nSides)).map fun k =>
        pBuffer.drop (k * (NUMBYTESPERSECTOR * nSectorsPerTrack)) := by
  rw [← range_flatMap_map (fun k => pBuffer.drop (k * (NUMBYTESPERSECTOR * nSectorsPerTrack)))]
  unfold trackPointers
  have h512 : NUMBYTESPERSECTOR = 512 := rfl
  have hoff : ∀ Track Side, trackOffset nSectorsPerTrack nSides Track Side =
      (Track * nSides + Side) * (NUMBYTESPERSECTOR * nSectorsPerTrack) := by
    intro Track Side
    unfold trackOffset
    rw [Nat.mod_eq_of_lt (by rw [h512]; omega)]
    ring
  simp only [hoff]

/-! ### The stores into the workspace -/

theorem MSA_WriteDisc_eq (pBuffer : List Nat) (ImageSize nSectorsPerTrack nSides : Nat)
    (hspt : 1 ≤ nSectorsPerTrack) (hsides : 1 ≤ nSides) (hsize : ImageSize ≤ pBuffer.length)
    (hfit : fitsWorkspace (allWrites pBuffer ImageSize nSectorsPerTrack nSides) = true) :
    MSA_WriteDisc pBuffer ImageSize nSectorsPerTrack nSides =
      some (writeHeader ImageSize nSectorsPerTrack nSides ++
        ((trackPointers pBuffer nSectorsPerTrack nSides
          (((ImageSize / NUMBYTESPERSECTOR) / nSectorsPerTrack) / nSides)).map fun p =>
            writeChunk p nSectorsPerTrack).flatten) := by
  unfold MSA_WriteDisc
  rw [if_neg (by omega)]
  simp only [hfit, if_true]

theorem length_trackPointers (pBuffer : List Nat) (nSectorsPerTrack nSides nTracks : Nat) :
    (trackPointers pBuffer nSectorsPerTrack nSides nTracks).length = nTracks * nSides := by
  unfold trackPointers
  induction nTracks with
  | zero => simp
  | succ n ih =>
    rw [List.range_succ, List.flatMap_append, List.length_append, ih, List.flatMap_singleton,
      List.length_map, List.length_range, Nat.succ_mul]

theorem length_storeWord (v : Int) : (storeWord v).length = 2 := rfl

theorem length_chunkLength (p : List Nat) (nSectorsPerTrack : Nat) :
    (chunkLength p nSectorsPerTrack).length = 2 := by
  unfold chunkLength
  split <;> rfl

theorem length_writeHeader (ImageSize nSectorsPerTrack nSides : Nat) :
    (writeHeader ImageSize nSectorsPerTrack nSides).length = 10 := rfl

theorem trackStream_length_le (p : List Nat) (nSectorsPerTrack : Nat) :
    (trackStream p nSectorsPerTrack).length ≤ 4 * (NUMBYTESPERSECTOR * nSectorsPerTrack) := by
  rw [trackStream, trackSteps]
  by_cases h0 : NUMBYTESPERSECTOR * nSectorsPerTrack = 0
  · rw [h0, loopSteps_zero]; simp
  · have := loopSteps_stream_le p (NUMBYTESPERSECTOR * nSectorsPerTrack) (by omega)
    omega

/-- A bound for every store when each chunk has at most `L` bytes and the stores
of one iteration end at most `M` bytes behind its start. -/
theorem workspaceWrites_bound (nSectorsPerTrack L M : Nat) (ps : List (List Nat)) (off : Nat)
    (hL : ∀ p ∈ ps, (writeChunk p nSectorsPerTrack).length ≤ L)
    (hM : ∀ p ∈ ps, ∀ o, ∀ w ∈ chunkWrites o p nSectorsPerTrack, w.1 + w.2 ≤ o + M) :
    ∀ w ∈ workspaceWrites off ps nSectorsPerTrack, w.1 + w.2 ≤ off + ps.length * L + M := by
  induction ps generalizing off with
  | nil => intro w hw; simp [workspaceWrites] at hw
  | cons p ps ih =>
    intro w hw
    rw [workspaceWrites, List.mem_append] at hw
    have hLp := hL p (by simp)
    rw [List.length_cons, Nat.succ_mul]
    rcases hw with hw | hw
    · have := hM p (by simp) off w hw
      omega
    · have := ih (off + (writeChunk p nSectorsPerTrack).length)
        (fun q hq => hL q (by simp [hq])) (fun q hq => hM q (by simp [hq])) w hw
      omega

theorem length_writeChunks_le (nSectorsPerTrack L : Nat) (ps : List (List Nat))
    (hL : ∀ p ∈ ps, (writeChunk p nSectorsPerTrack).length ≤ L) :
    ((ps.map fun p => writeChunk p nSectorsPerTrack).flatten).length ≤ ps.length * L := by
  induction ps with
  | nil => simp
  | cons p ps ih =>
    have hLp := hL p (by simp)
    have := ih (fun q hq => hL q (by simp [hq]))
    rw [List.map_cons, List.flatten_cons, List.length_append, List.length_cons, Nat.succ_mul]
    omega

theorem length_writeChunk_le (p : List Nat) (nSectorsPerTrack : Nat)
    (hspt : nSectorsPerTrack ≤ 32) :
    (writeChunk p nSectorsPerTrack).length ≤ 2 + NUMBYTESPERSECTOR * nSectorsPerTrack := by
  rw [writeChunk, List.length_append, length_chunkLength]
  have := chunkPayload_length_le p nSectorsPerTrack hspt
  omega

theorem chunkWrites_le (p : List Nat) (nSectorsPerTrack o : Nat) :
    ∀ w ∈ chunkWrites o p nSectorsPerTrack,
      w.1 + w.2 ≤ o + (2 + 4 * (NUMBYTESPERSECTOR * nSectorsPerTrack)) := by
  intro w hw
  have hs := trackStream_length_le p nSectorsPerTrack
  unfold chunkWrites at hw
  rw [List.mem_append] at hw
  rcases hw with hw | hw
  · simp only [List.mem_cons, List.mem_singleton, List.not_mem_nil, or_false] at hw
    rcases hw with rfl | rfl
    · simp only; omega
    · simp only; omega
  · split at hw
    · simp at hw
    · simp only [List.mem_singleton] at hw
      subst hw
      simp only; omega

theorem fitsWorkspace_iff (writes : List (Nat × Nat)) :
    fitsWorkspace writes = true ↔ ∀ w ∈ writes, w.1 + w.2 ≤ MSA_WORKSPACE_SIZE := by
  simp [fitsWorkspace, List.all_eq_true]

theorem MSA_WriteDisc_some (pBuffer : List Nat) (ImageSize nSectorsPerTrack nSides : Nat)
    (c : List Nat) (h : MSA_WriteDisc pBuffer ImageSize nSectorsPerTrack nSides = some c) :
    c = writeHeader ImageSize nSectorsPerTrack nSides ++
        ((trackPointers pBuffer nSectorsPerTrack nSides
          (((ImageSize / NUMBYTESPERSECTOR) / nSectorsPerTrack) / nSides)).map fun p =>
            writeChunk p nSectorsPerTrack).flatten ∧
      fitsWorkspace (allWrites pBuffer ImageSize nSectorsPerTrack nSides) = true := by
  unfold MSA_WriteDisc at h
  split at h
  · simp at h
  · by_cases hfit : fitsWorkspace (allWrites pBuffer ImageSize nSectorsPerTrack nSides) = true
    · simp only [hfit, if_true, Option.some.injEq] at h
      exact ⟨h.symm, hfit⟩
    · simp [hfit] at h

/-! ### Claim C20 -/

/-- C20: for every image with at most 11 sectors per track, at most 2 sides and
at most 86 tracks, every store of `MSA_WriteDisc` into its workspace (the header,
the length words, the token stream of a track before the fallback decision, the
verbatim copies) ends at or below `MSA_WORKSPACE_SIZE = 1048576`, so that every
offset written is below it, the function returns a container whenever the
geometry is not zero and the image buffer holds `ImageSize` bytes, and the
container has at most `10 + tracks * sides * (2 + sectors_per_track * 512)`
bytes. -/
theorem C20_workspace_bound (pBuffer : List Nat) (ImageSize nSectorsPerTrack nSides : Nat)
    (hspt : nSectorsPerTrack ≤ 11) (hsides : nSides ≤ 2)
    (htracks : ((ImageSize / NUMBYTESPERSECTOR) / nSectorsPerTrack) / nSides ≤ 86) :
    MSA_WORKSPACE_SIZE = 1048576 ∧
    (∀ w ∈ allWrites pBuffer ImageSize nSectorsPerTrack nSides,
      w.1 + w.2 ≤ MSA_WORKSPACE_SIZE) ∧
    (1 ≤ nSectorsPerTrack → 1 ≤ nSides → ImageSize ≤ pBuffer.length →
      ∃ c, MSA_WriteDisc pBuffer ImageSize nSectorsPerTrack nSides = some c) ∧
    (∀ c, MSA_WriteDisc pBuffer ImageSize nSectorsPerTrack nSides = some c →
      c.length ≤ 10 + ((ImageSize / NUMBYTESPERSECTOR) / nSectorsPerTrack) / nSides * nSides *
        (2 + nSectorsPerTrack * 512)) := by
  have h512 : NUMBYTESPERSECTOR = 512 := rfl
  have hsize : MSA_WORKSPACE_SIZE = 1048576 := rfl
  have hL : ∀ p ∈ trackPointers pBuffer nSectorsPerTrack nSides
      (((ImageSize / NUMBYTESPERSECTOR) / nSectorsPerTrack) / nSides),
      (writeChunk p nSectorsPerTrack).length ≤ 2 + NUMBYTESPERSECTOR * nSectorsPerTrack :=
    fun p _ => length_writeChunk_le p nSectorsPerTrack (by omega)
  have hwrites : ∀ w ∈ allWrites pBuffer ImageSize nSectorsPerTrack nSides,
      w.1 + w.2 ≤ MSA_WORKSPACE_SIZE := by
    intro w hw
    unfold allWrites at hw
    simp only [List.mem_cons] at hw
    rcases hw with rfl | hw
    · rw [hsize]; simp
    · have hb := workspaceWrites_bound nSectorsPerTrack
        (2 + NUMBYTESPERSECTOR * nSectorsPerTrack)
        (2 + 4 * (NUMBYTESPERSECTOR * nSectorsPerTrack)) _ 10 hL
        (fun p _ o => chunkWrites_le p nSectorsPerTrack o) w hw
      rw [length_trackPointers] at hb
      have hN : ((ImageSize / NUMBYTESPERSECTOR) / nSectorsPerTrack) / nSides * nSides ≤
          86 * 2 := Nat.mul_le_mul htracks hsides
      have hT : 2 + NUMBYTESPERSECTOR * nSectorsPerTrack ≤ 5634 := by rw [h512]; omega
      have hNT := Nat.mul_le_mul hN hT
      rw [hsize]
      rw [h512] at hb hNT
      omega
  refine ⟨hsize, hwrites, ?_, ?_⟩
  · intro h1 h2 h3
    exact ⟨_, MSA_WriteDisc_eq pBuffer ImageSize nSectorsPerTrack nSides h1 h2 h3
      ((fitsWorkspace_iff _).mpr hwrites)⟩
  · intro c hc
    rw [(MSA_WriteDisc_some _ _ _ _ c hc).1, List.length_append, length_writeHeader]
    have := length_writeChunks_le nSectorsPerTrack (2 + NUMBYTESPERSECTOR * nSectorsPerTrack)
      _ hL
    rw [length_trackPointers] at this
    have e : 2 + NUMBYTESPERSECTOR * nSectorsPerTrack = 2 + nSectorsPerTrack * 512 := by
      rw [h512]; ring
    rw [e] at this
    omega

/-- C20, witness: an image of one track, one side, one sector. -/
theorem C20_workspace_bound_witness :
    MSA_WORKSPACE_SIZE = 1048576 ∧
    (∀ w ∈ allWrites trackTwoEscapes 512 1 1, w.1 + w.2 ≤ MSA_WORKSPACE_SIZE) ∧
    (1 ≤ 1 → 1 ≤ 1 → 512 ≤ trackTwoEscapes.length →
      ∃ c, MSA_WriteDisc trackTwoEscapes 512 1 1 = some c) ∧
    (∀ c, MSA_WriteDisc trackTwoEscapes 512 1 1 = some c →
      c.length ≤ 10 + ((512 / NUMBYTESPERSECTOR) / 1) / 1 * 1 * (2 + 1 * 512)) :=
  C20_workspace_bound trackTwoEscapes 512 1 1 (by decide) (by decide) (by decide)

/-! ### Tracks of one repeated byte -/

theorem trackSteps_constant (b nSectorsPerTrack : Nat) (rest : List Nat) (hb : b ≠ 0xE5)
    (hspt : 1 ≤ nSectorsPerTrack) :
    trackSteps (List.replicate (NUMBYTESPERSECTOR * nSectorsPerTrack) b ++ rest)
        nSectorsPerTrack =
      [(NUMBYTESPERSECTOR * nSectorsPerTrack,
        0xE5 :: b :: storeWord (NUMBYTESPERSECTOR * nSectorsPerTrack : Nat))] := by
  have h512 : NUMBYTESPERSECTOR = 512 := rfl
  have h := loopSteps_long_run b (NUMBYTESPERSECTOR * nSectorsPerTrack) rest 0 hb
    (by rw [h512]; omega) (Or.inl rfl)
  rw [Nat.add_zero, loopSteps_zero] at h
  rw [trackSteps, h]

theorem trackStream_constant (b nSectorsPerTrack : Nat) (rest : List Nat) (hb : b ≠ 0xE5)
    (hspt : 1 ≤ nSectorsPerTrack) :
    trackStream (List.replicate (NUMBYTESPERSECTOR * nSectorsPerTrack) b ++ rest)
        nSectorsPerTrack =
      0xE5 :: b :: storeWord (NUMBYTESPERSECTOR * nSectorsPerTrack : Nat) := by
  rw [trackStream, trackSteps_constant b nSectorsPerTrack rest hb hspt]
  simp only [List.map_cons, List.map_nil, List.flatten_cons, List.flatten_nil, List.append_nil]

theorem trackCompressedBytes_constant (b nSectorsPerTrack : Nat) (rest : List Nat)
    (hb : b ≠ 0xE5) (hspt : 1 ≤ nSectorsPerTrack) :
    trackCompressedBytes (List.replicate (NUMBYTESPERSECTOR * nSectorsPerTrack) b ++ rest)
        nSectorsPerTrack = 4 := by
  rw [trackCompressedBytes_eq, trackStream_constant b nSectorsPerTrack rest hb hspt]
  rfl

/-- The chunk of a track that consists of one repeated byte other than `0xE5`. -/
theorem writeChunk_constant (b nSectorsPerTrack : Nat) (rest : List Nat) (hb : b ≠ 0xE5)
    (hspt : 1 ≤ nSectorsPerTrack) :
    writeChunk (List.replicate (NUMBYTESPERSECTOR * nSectorsPerTrack) b ++ rest)
        nSectorsPerTrack =
      0 :: 4 :: 0xE5 :: b :: storeWord (NUMBYTESPERSECTOR * nSectorsPerTrack : Nat) := by
  have h512 : NUMBYTESPERSECTOR = 512 := rfl
  have h4 : storeWord (4 : Nat) = [0, 4] := by decide
  rw [writeChunk, chunkLength, chunkPayload,
    trackCompressedBytes_constant b nSectorsPerTrack rest hb hspt,
    if_pos (by rw [h512]; omega), if_pos (by rw [h512]; omega),
    trackStream_constant b nSectorsPerTrack rest hb hspt, h4]
  rfl

theorem chunkWrites_constant (off b nSectorsPerTrack : Nat) (rest : List Nat) (hb : b ≠ 0xE5)
    (hspt : 1 ≤ nSectorsPerTrack) :
    chunkWrites off (List.replicate (NUMBYTESPERSECTOR * nSectorsPerTrack) b ++ rest)
        nSectorsPerTrack = [(off + 2, 4), (off, 2)] := by
  have h512 : NUMBYTESPERSECTOR = 512 := rfl
  rw [chunkWrites, trackCompressedBytes_constant b nSectorsPerTrack rest hb hspt,
    if_pos (by rw [h512]; omega), trackStream_constant b nSectorsPerTrack rest hb hspt]
  rfl

/-! ### The header -/

theorem MSA_UnCompress_of_readHeader (pMSAFile : List Nat) (h : Int × Int × Int × Int)
    (hh : readHeader pMSAFile = some h) :
    MSA_UnCompress pMSAFile =
      (uncompressTracks (NUMBYTESPERSECTOR * h.1) (h.2.1 + 1).toNat
        (h.2.2.2 + 1 - h.2.2.1).toNat (pMSAFile.drop 10)).map fun r =>
          (toInt r.1.length, r.1) := by
  unfold readHeader at hh
  split at hh
  · rename_i id0 id1 s0 s1 d0 d1 a0 a1 e0 e1 data
    by_cases hm : readWord id0 id1 = 0x0E0F
    · simp only [hm, if_true, Option.some.injEq] at hh
      subst hh
      unfold MSA_UnCompress
      simp only [hm, if_true, List.drop_succ_cons, List.drop_zero]
      cases uncompressTracks _ _ _ data <;> rfl
    · simp [hm] at hh
  · simp at hh

theorem take_ten_MSA_WriteDisc (pBuffer : List Nat) (ImageSize nSectorsPerTrack nSides : Nat)
    (c : List Nat) (h : MSA_WriteDisc pBuffer ImageSize nSectorsPerTrack nSides = some c) :
    c.take 10 = writeHeader ImageSize nSectorsPerTrack nSides := by
  rw [(MSA_WriteDisc_some _ _ _ _ c h).1, List.take_append_of_le_length (by
    rw [length_writeHeader]), List.take_of_length_le (by rw [length_writeHeader])]

/-! ### Claim C13 -/

theorem MSA_WriteDisc_imageOf32768Sectors :
    MSA_WriteDisc imageOf32768Sectors 16777216 32768 1 =
      some ([0x0E, 0x0F, 0x80, 0, 0, 0, 0, 0, 0, 0] ++ [0, 4, 0xE5, 0, 0, 0]) := by
  have hlen : imageOf32768Sectors.length = 16777216 := by
    rw [imageOf32768Sectors, List.length_replicate]; decide
  have hp : trackPointers imageOf32768Sectors 32768 1 1 =
      [List.replicate (NUMBYTESPERSECTOR * 32768) 0 ++ []] := by
    rw [List.append_nil]
    show [List.drop (trackOffset 32768 1 0 0) imageOf32768Sectors] ++ [] = _
    have h0 : trackOffset 32768 1 0 0 = 0 := by decide
    rw [h0, List.drop_zero, List.append_nil, imageOf32768Sectors]
  have hn : 16777216 / NUMBYTESPERSECTOR / 32768 / 1 = 1 := by decide
  have hw : storeWord ((NUMBYTESPERSECTOR * 32768 : Nat) : Int) = [0, 0] := by decide
  have hfit : fitsWorkspace (allWrites imageOf32768Sectors 16777216 32768 1) = true := by
    rw [allWrites, hn, hp, workspaceWrites, chunkWrites_constant 10 0 32768 [] (by decide)
      (by decide), workspaceWrites]
    decide
  rw [MSA_WriteDisc_eq _ _ _ _ (by decide) (by decide) (by rw [hlen]) hfit, hn, hp,
    List.map_cons, List.map_nil, writeChunk_constant 0 32768 [] (by decide) (by decide), hw]
  have hh : writeHeader 16777216 32768 1 = [0x0E, 0x0F, 0x80, 0, 0, 0, 0, 0, 0, 0] := by decide
  rw [hh]
  rfl

/-- C13, counterexample: for the image `imageOf32768Sectors` (32768 sectors per
track, one side, one track) the header written holds the sectors-per-track word
`80 00`, which `MSA_UnCompress` reads into its `short int` field as -32768, not
as 32768. -/
theorem C13_header_field_is_a_short :
    imageOf32768Sectors.length = 1 * 1 * 32768 * 512 ∧
    MSA_WriteDisc imageOf32768Sectors 16777216 32768 1 =
      some ([0x0E, 0x0F, 0x80, 0, 0, 0, 0, 0, 0, 0] ++ [0, 4, 0xE5, 0, 0, 0]) ∧
    readHeader ([0x0E, 0x0F, 0x80, 0, 0, 0, 0, 0, 0, 0] ++ [0, 4, 0xE5, 0, 0, 0]) =
      some (-32768, 0, 0, 0) ∧
    (-32768 : Int) ≠ 32768 := by
  refine ⟨?_, MSA_WriteDisc_imageOf32768Sectors, by decide, by decide⟩
  rw [imageOf32768Sectors, List.length_replicate]
  decide

theorem toShort_readWord (v : Nat) (hv : v < 32768) :
    toShort (readWord (v / 256) (v % 256)) = v := by
  have : readWord (v / 256) (v % 256) = v := by unfold readWord; omega
  rw [this, toShort, if_pos hv]

/-- C13, amended: for every image with geometry (`sectors_per_track` from 1 to
32767, `side_count` in `{1,2}`, `track_count` from 1 to 32768, the values that fit
the `short int` header fields), the first 10 bytes written by `MSA_WriteDisc` are
the big-endian 16-bit words `0x0E0F`, `sectors_per_track`, `side_count - 1`, 0,
`track_count - 1`, and reading these bytes as `MSA_UnCompress` does recovers
`side_count = side_field + 1`, `track_count = ending_track - starting_track + 1`
and the same `sectors_per_track`. -/
theorem C13_header_symmetry (nSectorsPerTrack nSides nTracks : Nat) (body : List Nat)
    (hspt : 1 ≤ nSectorsPerTrack ∧ nSectorsPerTrack ≤ 32767)
    (hsides : nSides = 1 ∨ nSides = 2)
    (htracks : 1 ≤ nTracks ∧ nTracks ≤ 32768) :
    writeHeader (nTracks * nSides * nSectorsPerTrack * 512) nSectorsPerTrack nSides =
      storeWord 0x0E0F ++ storeWord nSectorsPerTrack ++ storeWord ((nSides : Int) - 1) ++
        storeWord 0 ++ storeWord ((nTracks : Int) - 1) ∧
    (∀ pBuffer c,
      MSA_WriteDisc pBuffer (nTracks * nSides * nSectorsPerTrack * 512) nSectorsPerTrack
          nSides = some c →
        c.take 10 =
          writeHeader (nTracks * nSides * nSectorsPerTrack * 512) nSectorsPerTrack nSides) ∧
    ∃ SectorsPerTrack Sides StartingTrack EndingTrack,
      readHeader
          (writeHeader (nTracks * nSides * nSectorsPerTrack * 512) nSectorsPerTrack nSides ++
            body) = some (SectorsPerTrack, Sides, StartingTrack, EndingTrack) ∧
        SectorsPerTrack = nSectorsPerTrack ∧ Sides + 1 = nSides ∧
        EndingTrack - StartingTrack + 1 = nTracks := by
  have h512 : NUMBYTESPERSECTOR = 512 := rfl
  have hn : nTracks * nSides * nSectorsPerTrack * 512 / NUMBYTESPERSECTOR / nSectorsPerTrack /
      nSides = nTracks := by
    rw [h512, Nat.mul_div_cancel _ (by omega), Nat.mul_div_cancel _ (by omega),
      Nat.mul_div_cancel _ (by omega)]
  have hhead : writeHeader (nTracks * nSides * nSectorsPerTrack * 512) nSectorsPerTrack nSides =
      storeWord 0x0E0F ++ storeWord nSectorsPerTrack ++ storeWord ((nSides : Int) - 1) ++
        storeWord 0 ++ storeWord ((nTracks : Int) - 1) := by
    rw [writeHeader, hn]
  refine ⟨hhead, fun pBuffer c hc => take_ten_MSA_WriteDisc _ _ _ _ c hc, ?_⟩
  have hE : ((nTracks : Int) - 1) = ((nTracks - 1 : Nat) : Int) := by omega
  have hS : ((nSides : Int) - 1) = ((nSides - 1 : Nat) : Int) := by omega
  have h0 : storeWord 0 = [0, 0] := by decide
  have hm : storeWord 0x0E0F = [0x0E, 0x0F] := by decide
  rw [hhead, hE, hS, storeWord_of_lt nSectorsPerTrack (by omega),
    storeWord_of_lt (nSides - 1) (by omega), storeWord_of_lt (nTracks - 1) (by omega), h0, hm]
  refine ⟨nSectorsPerTrack, ((nSides - 1 : Nat) : Int), 0, ((nTracks - 1 : Nat) : Int), ?_,
    rfl, by omega, by omega⟩
  simp only [List.cons_append, List.nil_append, readHeader]
  rw [if_pos (by decide), toShort_readWord _ (by omega), toShort_readWord _ (by omega),
    toShort_readWord _ (by omega)]
  rfl

/-- C13, witness: 9 sectors per track, 2 sides, 80 tracks. -/
theorem C13_header_symmetry_witness :
    writeHeader (80 * 2 * 9 * 512) 9 2 =
      storeWord 0x0E0F ++ storeWord (9 : Nat) ++ storeWord (((2 : Nat) : Int) - 1) ++
        storeWord 0 ++ storeWord (((80 : Nat) : Int) - 1) ∧
    (∀ pBuffer c, MSA_WriteDisc pBuffer (80 * 2 * 9 * 512) 9 2 = some c →
        c.take 10 = writeHeader (80 * 2 * 9 * 512) 9 2) ∧
    ∃ SectorsPerTrack Sides StartingTrack EndingTrack,
      readHeader (writeHeader (80 * 2 * 9 * 512) 9 2 ++ []) =
          some (SectorsPerTrack, Sides, StartingTrack, EndingTrack) ∧
        SectorsPerTrack = (9 : Nat) ∧ Sides + 1 = (2 : Nat) ∧
        EndingTrack - StartingTrack + 1 = (80 : Nat) :=
  C13_header_symmetry 9 2 80 [] (by decide) (Or.inr rfl) (by decide)

/-! ### Claim C14 -/

theorem trackPointers_128 (pBuffer : List Nat) :
    trackPointers pBuffer 128 1 2 = [pBuffer, pBuffer] := by
  have h0 : trackOffset 128 1 0 0 = 0 := by decide
  have h1 : trackOffset 128 1 1 0 = 0 := by decide
  show [List.drop (trackOffset 128 1 0 0) pBuffer] ++
    ([List.drop (trackOffset 128 1 1 0) pBuffer] ++ []) = _
  rw [h0, h1, List.drop_zero]
  rfl

theorem MSA_WriteDisc_imageOfTwoLongTracks :
    MSA_WriteDisc imageOfTwoLongTracks 131072 128 1 =
      some ([0x0E, 0x0F, 0, 128, 0, 0, 0, 0, 0, 1] ++
        ([0, 4, 0xE5, 0, 0, 0] ++ [0, 4, 0xE5, 0, 0, 0])) := by
  have hlen : imageOfTwoLongTracks.length = 131072 := by
    rw [imageOfTwoLongTracks, List.length_append, List.length_replicate, List.length_replicate]
    decide
  have hn : 131072 / NUMBYTESPERSECTOR / 128 / 1 = 2 := by decide
  have hw : storeWord ((NUMBYTESPERSECTOR * 128 : Nat) : Int) = [0, 0] := by decide
  have hwc := writeChunk_constant 0 128 (List.replicate (NUMBYTESPERSECTOR * 128) 1)
    (by decide) (by decide)
  rw [hw] at hwc
  have hfit : fitsWorkspace (allWrites imageOfTwoLongTracks 131072 128 1) = true := by
    rw [allWrites, hn, trackPointers_128, workspaceWrites, workspaceWrites, workspaceWrites,
      imageOfTwoLongTracks, hwc,
      chunkWrites_constant 10 0 128 (List.replicate (NUMBYTESPERSECTOR * 128) 1) (by decide)
        (by decide),
      chunkWrites_constant _ 0 128 (List.replicate (NUMBYTESPERSECTOR * 128) 1) (by decide)
        (by decide)]
    decide
  rw [MSA_WriteDisc_eq _ _ _ _ (by decide) (by decide) (by rw [hlen]) hfit, hn,
    trackPointers_128, imageOfTwoLongTracks, List.map_cons, List.map_cons, List.map_nil, hwc]
  have hh : writeHeader 131072 128 1 = [0x0E, 0x0F, 0, 128, 0, 0, 0, 0, 0, 1] := by decide
  rw [hh]
  rfl

/-- C14, counterexample: for `imageOfTwoLongTracks` (128 sectors per track, one
side, two tracks) the `unsigned short` `nBytesPerTrack` is 0, both track data
pointers are the start of the image, and the container holds the chunk
`00 04 | E5 00 00 00` of the zero bytes twice; the chunk of the slice
`[T, 2T)`, the bytes `1`, would be `00 04 | E5 01 00 00`. -/
theorem C14_second_chunk_repeats_first_track :
    imageOfTwoLongTracks.length = 2 * 1 * 128 * 512 ∧
    MSA_WriteDisc imageOfTwoLongTracks 131072 128 1 =
      some ([0x0E, 0x0F, 0, 128, 0, 0, 0, 0, 0, 1] ++
        ([0, 4, 0xE5, 0, 0, 0] ++ [0, 4, 0xE5, 0, 0, 0])) ∧
    writeChunk ((imageOfTwoLongTracks.drop (1 * (NUMBYTESPERSECTOR * 128))).take
        (NUMBYTESPERSECTOR * 128)) 128 = [0, 4, 0xE5, 1, 0, 0] ∧
    [0, 4, 0xE5, 0, 0, 0] ≠ [0, 4, 0xE5, 1, 0, 0] := by
  refine ⟨?_, MSA_WriteDisc_imageOfTwoLongTracks, ?_, by decide⟩
  · rw [imageOfTwoLongTracks, List.length_append, List.length_replicate, List.length_replicate]
    decide
  · have hw : storeWord ((NUMBYTESPERSECTOR * 128 : Nat) : Int) = [0, 0] := by decide
    have hwc := writeChunk_constant 1 128 [] (by decide) (by decide)
    rw [hw, List.append_nil] at hwc
    rw [writeChunk_take, imageOfTwoLongTracks, Nat.one_mul,
      List.drop_left' (List.length_replicate _ _), hwc]

/-- C14, amended: for at most 127 sectors per track (so that the track size fits
the `unsigned short` `nBytesPerTrack`), the container written by `MSA_WriteDisc`
holds, after the 10-byte header, exactly `track_count * side_count` chunks, and
the `k`-th chunk (0-based, `k = track * side_count + side`) is the chunk of the
raw image slice `[k*T, (k+1)*T)` with `T = sectors_per_track * 512`. -/
theorem C14_chunk_order (pBuffer : List Nat) (ImageSize nSectorsPerTrack nSides : Nat)
    (hspt : 1 ≤ nSectorsPerTrack ∧ nSectorsPerTrack ≤ 127) (hsides : 1 ≤ nSides)
    (hsize : ImageSize ≤ pBuffer.length)
    (hfit : fitsWorkspace (allWrites pBuffer ImageSize nSectorsPerTrack nSides) = true) :
    MSA_WriteDisc pBuffer ImageSize nSectorsPerTrack nSides =
      some (writeHeader ImageSize nSectorsPerTrack nSides ++
        ((List.range (((ImageSize / NUMBYTESPERSECTOR) / nSectorsPerTrack) / nSides * nSides)).map
          fun k => writeChunk
            ((pBuffer.drop (k * (NUMBYTESPERSECTOR * nSectorsPerTrack))).take
              (NUMBYTESPERSECTOR * nSectorsPerTrack)) nSectorsPerTrack).flatten) ∧
    (writeHeader ImageSize nSectorsPerTrack nSides).length = 10 ∧
    ((List.range (((ImageSize / NUMBYTESPERSECTOR) / nSectorsPerTrack) / nSides * nSides)).map
      fun k => writeChunk
        ((pBuffer.drop (k * (NUMBYTESPERSECTOR * nSectorsPerTrack))).take
          (NUMBYTESPERSECTOR * nSectorsPerTrack)) nSectorsPerTrack).length =
      ((ImageSize / NUMBYTESPERSECTOR) / nSectorsPerTrack) / nSides * nSides ∧
    ∀ Track Side, trackOffset nSectorsPerTrack nSides Track Side =
      (Track * nSides + Side) * (NUMBYTESPERSECTOR * nSectorsPerTrack) := by
  refine ⟨?_, rfl, by rw [List.length_map, List.length_range], ?_⟩
  swap
  · intro Track Side
    have h512 : NUMBYTESPERSECTOR = 512 := rfl
    unfold trackOffset
    rw [Nat.mod_eq_of_lt (by rw [h512]; omega)]
    ring
  rw [MSA_WriteDisc_eq _ _ _ _ hspt.1 hsides hsize hfit, trackPointers_eq _ _ _ _ hspt.2,
    List.map_map]
  have e : ((fun p => writeChunk p nSectorsPerTrack) ∘ fun k =>
      List.drop (k * (NUMBYTESPERSECTOR * nSectorsPerTrack)) pBuffer) =
      fun k => writeChunk
        ((pBuffer.drop (k * (NUMBYTESPERSECTOR * nSectorsPerTrack))).take
          (NUMBYTESPERSECTOR * nSectorsPerTrack)) nSectorsPerTrack := by
    funext k
    exact (writeChunk_take _ _).symm
  rw [e]

/-- C14, witness: the image `imageEndingInE5` of two tracks of one sector. -/
theorem C14_chunk_order_witness :
    MSA_WriteDisc imageEndingInE5 1024 1 1 =
      some (writeHeader 1024 1 1 ++
        ((List.range (((1024 / NUMBYTESPERSECTOR) / 1) / 1 * 1)).map
          fun k => writeChunk
            ((imageEndingInE5.drop (k * (NUMBYTESPERSECTOR * 1))).take
              (NUMBYTESPERSECTOR * 1)) 1).flatten) ∧
    (writeHeader 1024 1 1).length = 10 ∧
    ((List.range (((1024 / NUMBYTESPERSECTOR) / 1) / 1 * 1)).map
      fun k => writeChunk
        ((imageEndingInE5.drop (k * (NUMBYTESPERSECTOR * 1))).take
          (NUMBYTESPERSECTOR * 1)) 1).length = ((1024 / NUMBYTESPERSECTOR) / 1) / 1 * 1 ∧
    ∀ Track Side, trackOffset 1 1 Track Side = (Track * 1 + Side) * (NUMBYTESPERSECTOR * 1) :=
  C14_chunk_order imageEndingInE5 1024 1 1 (by decide) (by decide) (by decide) (by decide)

/-! ### Claim C15 -/

/-- C15, counterexample: the 513 bytes of `imageWithExtraByte` are not a multiple
of `1 * 512 * 1`, and `MSA_WriteDisc` reports no error: it builds the container
of one track that covers the first 512 bytes only. -/
theorem C15_partial_image_is_written :
    imageWithExtraByte.length = 513 ∧ 513 % (1 * 512 * 1) ≠ 0 ∧
    MSA_WriteDisc imageWithExtraByte 513 1 1 =
      some ([0x0E, 0x0F, 0, 1, 0, 0, 0, 0, 0, 0] ++ [0, 4, 0xE5, 0, 2, 0]) ∧
    MSA_WriteDisc (imageWithExtraByte.take 512) 512 1 1 =
      some ([0x0E, 0x0F, 0, 1, 0, 0, 0, 0, 0, 0] ++ [0, 4, 0xE5, 0, 2, 0]) := by
  decide

theorem flatMap_congr_mem {α β : Type} (l : List α) (f g : α → List β)
    (h : ∀ x ∈ l, f x = g x) : l.flatMap f = l.flatMap g := by
  induction l with
  | nil => rfl
  | cons x l ih =>
    rw [List.flatMap_cons, List.flatMap_cons, h x (by simp),
      ih (fun y hy => h y (by simp [hy]))]

theorem take_drop_take (p : List Nat) (T off N : Nat) (h : off + T ≤ N) :
    ((p.take N).drop off).take T = (p.drop off).take T := by
  rw [List.drop_take, List.take_take, Nat.min_eq_left (by omega)]

theorem trackOffset_le (nSectorsPerTrack nSides nTracks Track Side : Nat)
    (hT : Track < nTracks) (hS : Side < nSides) :
    trackOffset nSectorsPerTrack nSides Track Side + NUMBYTESPERSECTOR * nSectorsPerTrack ≤
      nTracks * nSides * (NUMBYTESPERSECTOR * nSectorsPerTrack) := by
  unfold trackOffset
  have hw : NUMBYTESPERSECTOR * nSectorsPerTrack % 65536 ≤ NUMBYTESPERSECTOR * nSectorsPerTrack :=
    Nat.mod_le _ _
  have hk : nSides * Track + Side + 1 ≤ nTracks * nSides := by
    have : nSides * (Track + 1) ≤ nSides * nTracks := Nat.mul_le_mul_left _ hT
    rw [Nat.mul_comm nTracks nSides]
    rw [Nat.mul_add] at this
    omega
  calc NUMBYTESPERSECTOR * nSectorsPerTrack % 65536 * Side +
        NUMBYTESPERSECTOR * nSectorsPerTrack % 65536 * nSides * Track +
        NUMBYTESPERSECTOR * nSectorsPerTrack
      = NUMBYTESPERSECTOR * nSectorsPerTrack % 65536 * (nSides * Track + Side) +
          NUMBYTESPERSECTOR * nSectorsPerTrack := by ring
    _ ≤ NUMBYTESPERSECTOR * nSectorsPerTrack * (nSides * Track + Side) +
          NUMBYTESPERSECTOR * nSectorsPerTrack :=
        Nat.add_le_add_right (Nat.mul_le_mul_right _ hw) _
    _ = (nSides * Track + Side + 1) * (NUMBYTESPERSECTOR * nSectorsPerTrack) := by ring
    _ ≤ nTracks * nSides * (NUMBYTESPERSECTOR * nSectorsPerTrack) :=
        Nat.mul_le_mul_right _ hk

/-- The track data pointers reach only the first
`nTracks * nSides * T` bytes of the image. -/
theorem trackPointers_take (pBuffer : List Nat) (nSectorsPerTrack nSides nTracks : Nat) :
    (trackPointers (pBuffer.take (nTracks * nSides * (NUMBYTESPERSECTOR * nSectorsPerTrack)))
        nSectorsPerTrack nSides nTracks).map
        (List.take (NUMBYTESPERSECTOR * nSectorsPerTrack)) =
      (trackPointers pBuffer nSectorsPerTrack nSides nTracks).map
        (List.take (NUMBYTESPERSECTOR * nSectorsPerTrack)) := by
  unfold trackPointers
  rw [List.map_flatMap, List.map_flatMap]
  apply flatMap_congr_mem
  intro Track hTrack
  rw [List.map_map, List.map_map]
  apply List.map_congr_left
  intro Side hSide
  rw [List.mem_range] at hTrack hSide
  exact take_drop_take _ _ _ _ (trackOffset_le _ _ _ _ _ hTrack hSide)

/-- C15, amended: for a raw image whose size is not a multiple of
`sectors_per_track * 512 * side_count`, `MSA_WriteDisc` reports no error of its
own: with `nTracks` the quotient rounded down, it writes (when the geometry is not
zero, the buffer holds the image and the stores fit the workspace) the container
of the first `nTracks * side_count * T` bytes of the image, fewer than the image
has, and leaves the remaining bytes out. -/
theorem C15_geometry_mismatch (pBuffer : List Nat) (ImageSize nSectorsPerTrack nSides : Nat)
    (hspt : 1 ≤ nSectorsPerTrack) (hsides : 1 ≤ nSides) (hsize : ImageSize ≤ pBuffer.length)
    (hnot : ImageSize % (nSectorsPerTrack * 512 * nSides) ≠ 0)
    (hfit : fitsWorkspace (allWrites pBuffer ImageSize nSectorsPerTrack nSides) = true) :
    ((ImageSize / NUMBYTESPERSECTOR) / nSectorsPerTrack) / nSides * nSides *
        (NUMBYTESPERSECTOR * nSectorsPerTrack) < ImageSize ∧
    ∃ c, MSA_WriteDisc pBuffer ImageSize nSectorsPerTrack nSides = some c ∧
      MSA_WriteDisc
        (pBuffer.take (((ImageSize / NUMBYTESPERSECTOR) / nSectorsPerTrack) / nSides * nSides *
          (NUMBYTESPERSECTOR * nSectorsPerTrack)))
        (((ImageSize / NUMBYTESPERSECTOR) / nSectorsPerTrack) / nSides * nSides *
          (NUMBYTESPERSECTOR * nSectorsPerTrack)) nSectorsPerTrack nSides = some c := by
  have h512 : NUMBYTESPERSECTOR = 512 := rfl
  obtain ⟨nTracks, hnT⟩ : ∃ n, n = ((ImageSize / NUMBYTESPERSECTOR) / nSectorsPerTrack) / nSides :=
    ⟨_, rfl⟩
  rw [← hnT]
  have hle : nTracks * nSides * (NUMBYTESPERSECTOR * nSectorsPerTrack) ≤ ImageSize := by
    have h1 := Nat.div_mul_le_self (ImageSize / NUMBYTESPERSECTOR / nSectorsPerTrack) nSides
    have h2 := Nat.div_mul_le_self (ImageSize / NUMBYTESPERSECTOR) nSectorsPerTrack
    have h3 := Nat.div_mul_le_self ImageSize NUMBYTESPERSECTOR
    rw [← hnT] at h1
    calc nTracks * nSides * (NUMBYTESPERSECTOR * nSectorsPerTrack)
        = nTracks * nSides * nSectorsPerTrack * NUMBYTESPERSECTOR := by ring
      _ ≤ ImageSize / NUMBYTESPERSECTOR / nSectorsPerTrack * nSectorsPerTrack *
            NUMBYTESPERSECTOR :=
          Nat.mul_le_mul_right _ (Nat.mul_le_mul_right _ h1)
      _ ≤ ImageSize / NUMBYTESPERSECTOR * NUMBYTESPERSECTOR := Nat.mul_le_mul_right _ h2
      _ ≤ ImageSize := h3
  have hlt : nTracks * nSides * (NUMBYTESPERSECTOR * nSectorsPerTrack) < ImageSize := by
    rcases Nat.lt_or_ge (nTracks * nSides * (NUMBYTESPERSECTOR * nSectorsPerTrack)) ImageSize
      with h | h
    · exact h
    · exfalso
      apply hnot
      have he : ImageSize = nTracks * (nSectorsPerTrack * 512 * nSides) := by
        have := Nat.le_antisymm hle h
        rw [← this, h512]; ring
      rw [he, Nat.mul_mod_left]
  have hn' : nTracks * nSides * (NUMBYTESPERSECTOR * nSectorsPerTrack) / NUMBYTESPERSECTOR /
      nSectorsPerTrack / nSides = nTracks := by
    have e : nTracks * nSides * (NUMBYTESPERSECTOR * nSectorsPerTrack) =
        nTracks * nSides * nSectorsPerTrack * NUMBYTESPERSECTOR := by ring
    rw [e, Nat.mul_div_cancel _ (by rw [h512]; omega), Nat.mul_div_cancel _ (by omega),
      Nat.mul_div_cancel _ (by omega)]
  have hptr := trackPointers_take pBuffer nSectorsPerTrack nSides nTracks
  have hlen' : nTracks * nSides * (NUMBYTESPERSECTOR * nSectorsPerTrack) ≤
      (pBuffer.take (nTracks * nSides * (NUMBYTESPERSECTOR * nSectorsPerTrack))).length := by
    rw [List.length_take]
    omega
  have hfit' : fitsWorkspace (allWrites
      (pBuffer.take (nTracks * nSides * (NUMBYTESPERSECTOR * nSectorsPerTrack)))
      (nTracks * nSides * (NUMBYTESPERSECTOR * nSectorsPerTrack)) nSectorsPerTrack nSides) =
      true := by
    rw [allWrites, hn', workspaceWrites_congr nSectorsPerTrack _ _ 10 hptr]
    rw [allWrites, ← hnT] at hfit
    exact hfit
  refine ⟨hlt, _, MSA_WriteDisc_eq _ _ _ _ hspt hsides hsize hfit, ?_⟩
  rw [MSA_WriteDisc_eq _ _ _ _ hspt hsides hlen' hfit', hn', ← hnT,
    writeChunks_congr nSectorsPerTrack _ _ hptr]
  have hh : writeHeader (nTracks * nSides * (NUMBYTESPERSECTOR * nSectorsPerTrack))
      nSectorsPerTrack nSides = writeHeader ImageSize nSectorsPerTrack nSides := by
    rw [writeHeader, writeHeader, hn', ← hnT]
  rw [hh]

/-- C15, witness: the 513 bytes of `imageWithExtraByte` with one sector per track
and one side. -/
theorem C15_geometry_mismatch_witness :
    ((513 / NUMBYTESPERSECTOR) / 1) / 1 * 1 * (NUMBYTESPERSECTOR * 1) < 513 ∧
    ∃ c, MSA_WriteDisc imageWithExtraByte 513 1 1 = some c ∧
      MSA_WriteDisc
        (imageWithExtraByte.take (((513 / NUMBYTESPERSECTOR) / 1) / 1 * 1 *
          (NUMBYTESPERSECTOR * 1)))
        (((513 / NUMBYTESPERSECTOR) / 1) / 1 * 1 * (NUMBYTESPERSECTOR * 1)) 1 1 = some c :=
  C15_geometry_mismatch imageWithExtraByte 513 1 1 (by decide) (by decide) (by decide)
    (by decide) (by decide)

/-! ### Decoding what the compression loop stores -/

theorem take_runCount (p : List Nat) (n b : Nat) :
    p.take (runCount p n b) = List.replicate (runCount p n b) b := by
  induction p generalizing n with
  | nil => simp [runCount_nil]
  | cons x p ih =>
    cases n with
    | zero => simp [runCount_zero]
    | succ n =>
      by_cases hx : x = b
      · subst hx
        rw [runCount_cons_eq, Nat.add_comm, List.take_succ_cons, List.replicate_succ, ih]
      · rw [runCount_cons_ne x b p _ hx]
        simp

theorem expandToken_escape (x r : Nat) (hr : r < 65536) :
    expandToken (0xE5 :: x :: storeWord (r : Nat)) = List.replicate r x := by
  rw [storeWord_of_lt r hr]
  have : readWord (r / 256) (r % 256) = r := by unfold readWord; omega
  simp only [expandToken, this]

/-- Every iteration of the compression loop stores one token of the file format,
and the tokens stand for the bytes of the track, when the track does not end in
`0xE5` (and is shorter than 65536 bytes). -/
theorem loopSteps_tokens :
    ∀ (n : Nat) (p : List Nat), n ≤ p.length → n < 65536 →
      (0 < n → p[n - 1]? ≠ some 0xE5) →
      (∀ t ∈ (loopSteps p n).map Prod.snd, isToken t = true ∧ expandToken t ≠ []) ∧
        expandTokens ((loopSteps p n).map Prod.snd) = p.take n := by
  intro n
  induction n using Nat.strong_induction_on with
  | _ n ih =>
    intro p hlen hn hlast
    by_cases h0 : n = 0
    · subst h0
      rw [loopSteps_zero]
      simp [expandTokens]
    · cases p with
      | nil => simp at hlen; omega
      | cons x p' =>
        by_cases hr : MSA_FindRunOfBytes (x :: p') n = 0
        · have hx : x ≠ 0xE5 := by
            intro hx
            subst hx
            by_cases h2 : 2 ≤ n
            · rw [findRun_escape _ _ h2] at hr; omega
            · have h1 : n = 1 := by omega
              subst h1
              exact hlast (by omega) (by simp)
          have hrec := ih (n - 1) (by omega) p' (by simp at hlen; omega) (by omega) (by
            intro hpos
            have := hlast (by omega)
            have e : n - 1 = (n - 1 - 1) + 1 := by omega
            rw [e, List.getElem?_cons_succ] at this
            exact this)
          rw [loopSteps_literal _ _ (by omega) hr]
          simp only [List.headD_cons, List.drop_succ_cons, List.drop_zero, List.map_cons]
          refine ⟨?_, ?_⟩
          · intro t ht
            rw [List.mem_cons] at ht
            rcases ht with rfl | ht
            · exact ⟨by simp [isToken, hx], by simp [expandToken]⟩
            · exact hrec.1 t ht
          · rw [expandTokens_cons, hrec.2]
            obtain ⟨k, rfl⟩ : ∃ k, n = k + 1 := ⟨n - 1, by omega⟩
            simp [expandToken]
        · have hle := findRun_le (x :: p') n
          obtain ⟨r, hrdef⟩ : ∃ r, r = MSA_FindRunOfBytes (x :: p') n := ⟨_, rfl⟩
          rw [← hrdef] at hr hle
          have htake : (x :: p').take r = List.replicate r x := by
            by_cases hx : x = 0xE5
            · subst hx
              have := findRun_escape_le p' n
              have h1 : r = 1 := by omega
              subst h1
              rfl
            · have h2 : 2 ≤ n := by
                by_contra hlt
                exact hr (by rw [hrdef]; exact findRun_short _ _ (by omega))
              rw [findRun_cons x p' n h2 hx] at hrdef
              split at hrdef
              · exact absurd hrdef hr
              · rw [hrdef]
                exact take_runCount _ _ _
          have hrec := ih (n - r) (by omega) ((x :: p').drop r) (by
            rw [List.length_drop]; omega) (by omega) (by
            intro hpos
            have := hlast (by omega)
            rw [List.getElem?_drop]
            have e : r + (n - r - 1) = n - 1 := by omega
            rw [e]
            exact this)
          rw [loopSteps_run _ _ r hrdef.symm hr]
          simp only [List.headD_cons, List.map_cons]
          refine ⟨?_, ?_⟩
          · intro t ht
            rw [List.mem_cons] at ht
            rcases ht with rfl | ht
            · refine ⟨by simp [isToken, storeWord], ?_⟩
              rw [expandToken_escape x r (by omega)]
              intro hnil
              have := congrArg List.length hnil
              simp at this
              exact hr this
            · exact hrec.1 t ht
          · rw [expandTokens_cons, hrec.2, expandToken_escape x r (by omega), ← htake]
            have e : n = r + (n - r) := by omega
            conv_rhs => rw [e, List.take_add]

theorem trackStream_lt (p : List Nat) (nSectorsPerTrack : Nat) (hspt : nSectorsPerTrack ≤ 31) :
    (trackStream p nSectorsPerTrack).length < 65536 := by
  have h512 : NUMBYTESPERSECTOR = 512 := rfl
  have := trackStream_length_le p nSectorsPerTrack
  rw [h512] at this
  omega

theorem writeChunk_of_lt (p : List Nat) (nSectorsPerTrack : Nat)
    (hc : (trackStream p nSectorsPerTrack).length < 65536)
    (h : (trackStream p nSectorsPerTrack).length < NUMBYTESPERSECTOR * nSectorsPerTrack) :
    writeChunk p nSectorsPerTrack =
      (trackStream p nSectorsPerTrack).length / 256 ::
        (trackStream p nSectorsPerTrack).length % 256 :: trackStream p nSectorsPerTrack := by
  have hcb : trackCompressedBytes p nSectorsPerTrack = (trackStream p nSectorsPerTrack).length := by
    rw [trackCompressedBytes_eq, Nat.mod_eq_of_lt hc]
  rw [writeChunk, chunkLength, chunkPayload, hcb, if_pos h, if_pos h, storeWord_of_lt _ hc]
  rfl

theorem writeChunk_of_ge (p : List Nat) (nSectorsPerTrack : Nat)
    (hc : (trackStream p nSectorsPerTrack).length < 65536)
    (h : ¬ (trackStream p nSectorsPerTrack).length < NUMBYTESPERSECTOR * nSectorsPerTrack) :
    writeChunk p nSectorsPerTrack =
      NUMBYTESPERSECTOR * nSectorsPerTrack / 256 ::
        NUMBYTESPERSECTOR * nSectorsPerTrack % 256 ::
          p.take (NUMBYTESPERSECTOR * nSectorsPerTrack) := by
  have hcb : trackCompressedBytes p nSectorsPerTrack = (trackStream p nSectorsPerTrack).length := by
    rw [trackCompressedBytes_eq, Nat.mod_eq_of_lt hc]
  rw [writeChunk, chunkLength, chunkPayload, hcb, if_neg h, if_neg h, ← Nat.cast_mul,
    storeWord_of_lt _ (by omega)]
  rfl

theorem readWord_div_mod (v : Nat) : readWord (v / 256) (v % 256) = v := by
  unfold readWord
  omega

/-- One chunk written for a track of at most 31 sectors that does not end in
`0xE5` is decoded to the bytes of the track, and the decoder stops right behind
the chunk. -/
theorem uncompressChunk_writeChunk (p : List Nat) (nSectorsPerTrack : Nat) (rest : List Nat)
    (hspt : 1 ≤ nSectorsPerTrack ∧ nSectorsPerTrack ≤ 31)
    (hlen : NUMBYTESPERSECTOR * nSectorsPerTrack ≤ p.length)
    (hlast : p[NUMBYTESPERSECTOR * nSectorsPerTrack - 1]? ≠ some 0xE5) :
    uncompressChunk ((NUMBYTESPERSECTOR * nSectorsPerTrack : Nat) : Int)
        (writeChunk p nSectorsPerTrack ++ rest) =
      some (p.take (NUMBYTESPERSECTOR * nSectorsPerTrack), rest) := by
  have h512 : NUMBYTESPERSECTOR = 512 := rfl
  have hc := trackStream_lt p nSectorsPerTrack hspt.2
  by_cases h : (trackStream p nSectorsPerTrack).length < NUMBYTESPERSECTOR * nSectorsPerTrack
  · have htok := loopSteps_tokens (NUMBYTESPERSECTOR * nSectorsPerTrack) p hlen
      (by rw [h512]; omega) (fun _ => hlast)
    rw [writeChunk_of_lt p nSectorsPerTrack hc h, List.cons_append, List.cons_append,
      uncompressChunk]
    have hne : ((readWord ((trackStream p nSectorsPerTrack).length / 256)
        ((trackStream p nSectorsPerTrack).length % 256) : Nat) : Int) ≠
        ((NUMBYTESPERSECTOR * nSectorsPerTrack : Nat) : Int) := by
      rw [readWord_div_mod]
      exact_mod_cast Nat.ne_of_lt h
    simp only [hne, if_false]
    rw [trackStream, trackSteps,
      uncompressLoop_tokens_exact _ _ rest 0 htok.1 (by rw [htok.2, List.length_take]; omega),
      htok.2]
  · rw [writeChunk_of_ge p nSectorsPerTrack hc h, List.cons_append, List.cons_append,
      uncompressChunk]
    simp only [readWord_div_mod, if_true, Int.toNat_ofNat]
    have hl : (p.take (NUMBYTESPERSECTOR * nSectorsPerTrack)).length =
        NUMBYTESPERSECTOR * nSectorsPerTrack := by
      rw [List.length_take]; omega
    rw [if_neg (by rw [List.length_append, hl]; omega)]
    rw [List.take_left' hl, List.drop_left' hl]

/-- The length word of such a chunk is the number of payload bytes behind it. -/
theorem writeChunk_prefix (p : List Nat) (nSectorsPerTrack : Nat)
    (hspt : nSectorsPerTrack ≤ 31)
    (hlen : NUMBYTESPERSECTOR * nSectorsPerTrack ≤ p.length) :
    ∃ hi lo payload, writeChunk p nSectorsPerTrack = hi :: lo :: payload ∧
      readWord hi lo = payload.length := by
  have h512 : NUMBYTESPERSECTOR = 512 := rfl
  have hc := trackStream_lt p nSectorsPerTrack hspt
  by_cases h : (trackStream p nSectorsPerTrack).length < NUMBYTESPERSECTOR * nSectorsPerTrack
  · exact ⟨_, _, _, writeChunk_of_lt p nSectorsPerTrack hc h, readWord_div_mod _⟩
  · refine ⟨_, _, _, writeChunk_of_ge p nSectorsPerTrack hc h, ?_⟩
    rw [readWord_div_mod, List.length_take]
    omega

theorem uncompressSides_chunks (nSectorsPerTrack : Nat) (ps : List (List Nat))
    (rest : List Nat) (hspt : 1 ≤ nSectorsPerTrack ∧ nSectorsPerTrack ≤ 31)
    (hps : ∀ p ∈ ps, NUMBYTESPERSECTOR * nSectorsPerTrack ≤ p.length ∧
      p[NUMBYTESPERSECTOR * nSectorsPerTrack - 1]? ≠ some 0xE5) :
    uncompressSides ((NUMBYTESPERSECTOR * nSectorsPerTrack : Nat) : Int) ps.length
        ((ps.map fun p => writeChunk p nSectorsPerTrack).flatten ++ rest) =
      some ((ps.map (List.take (NUMBYTESPERSECTOR * nSectorsPerTrack))).flatten, rest) := by
  induction ps with
  | nil => rfl
  | cons p ps ih =>
    have hp := hps p (by simp)
    rw [List.length_cons, uncompressSides, List.map_cons, List.flatten_cons, List.append_assoc,
      uncompressChunk_writeChunk p nSectorsPerTrack _ hspt hp.1 hp.2]
    dsimp only
    rw [ih (fun q hq => hps q (by simp [hq]))]
    rfl

theorem uncompressSides_add (T : Int) (a b : Nat) (input : List Nat) :
    uncompressSides T (a + b) input =
      match uncompressSides T a input with
      | none => none
      | some c =>
        match uncompressSides T b c.2 with
        | none => none
        | some r => some (c.1 ++ r.1, r.2) := by
  induction a generalizing input with
  | zero =>
    rw [Nat.zero_add, uncompressSides]
    dsimp only
    cases uncompressSides T b input <;> rfl
  | succ a ih =>
    have e : a + 1 + b = (a + b) + 1 := by omega
    rw [e, uncompressSides, uncompressSides]
    cases uncompressChunk T input with
    | none => rfl
    | some c =>
      dsimp only
      rw [ih]
      cases uncompressSides T a c.2 with
      | none => rfl
      | some d =>
        dsimp only
        cases uncompressSides T b d.2 with
        | none => rfl
        | some r => simp

/-- The `Track` and `Side` loops of `MSA_UnCompress` read `nTracks * nSides`
chunks one behind the other. -/
theorem uncompressTracks_eq_sides (T : Int) (nSides nTracks : Nat) (input : List Nat) :
    uncompressTracks T nSides nTracks input = uncompressSides T (nTracks * nSides) input := by
  induction nTracks generalizing input with
  | zero => rw [Nat.zero_mul, uncompressTracks, uncompressSides]
  | succ n ih =>
    have e : (n + 1) * nSides = nSides + n * nSides := by ring
    rw [e, uncompressSides_add, uncompressTracks]
    cases uncompressSides T nSides input with
    | none => rfl
    | some c =>
      dsimp only
      rw [ih]

theorem flatten_slices (l : List Nat) (T N : Nat) :
    ((List.range N).map fun k => (l.drop (k * T)).take T).flatten = l.take (N * T) := by
  induction N with
  | zero => simp
  | succ N ih =>
    rw [List.range_succ, List.map_append, List.flatten_append, ih, Nat.succ_mul, List.take_add]
    simp

theorem readHeader_writeHeader (nSectorsPerTrack nSides nTracks : Nat) (body : List Nat)
    (hspt : 1 ≤ nSectorsPerTrack ∧ nSectorsPerTrack ≤ 32767)
    (hsides : 1 ≤ nSides ∧ nSides ≤ 32768)
    (htracks : 1 ≤ nTracks ∧ nTracks ≤ 32768) :
    readHeader
        (writeHeader (nTracks * nSides * (NUMBYTESPERSECTOR * nSectorsPerTrack))
          nSectorsPerTrack nSides ++ body) =
      some ((nSectorsPerTrack : Int), ((nSides - 1 : Nat) : Int), 0,
        ((nTracks - 1 : Nat) : Int)) := by
  have h512 : NUMBYTESPERSECTOR = 512 := rfl
  have hn : nTracks * nSides * (NUMBYTESPERSECTOR * nSectorsPerTrack) / NUMBYTESPERSECTOR /
      nSectorsPerTrack / nSides = nTracks := by
    have e : nTracks * nSides * (NUMBYTESPERSECTOR * nSectorsPerTrack) =
        nTracks * nSides * nSectorsPerTrack * NUMBYTESPERSECTOR := by ring
    rw [e, Nat.mul_div_cancel _ (by rw [h512]; omega), Nat.mul_div_cancel _ (by omega),
      Nat.mul_div_cancel _ (by omega)]
  have hE : ((nTracks : Int) - 1) = ((nTracks - 1 : Nat) : Int) := by omega
  have hS : ((nSides : Int) - 1) = ((nSides - 1 : Nat) : Int) := by omega
  have h0 : storeWord 0 = [0, 0] := by decide
  have hm : storeWord 0x0E0F = [0x0E, 0x0F] := by decide
  rw [writeHeader, hn, hE, hS, storeWord_of_lt nSectorsPerTrack (by omega),
    storeWord_of_lt (nSides - 1) (by omega), storeWord_of_lt (nTracks - 1) (by omega), h0, hm]
  simp only [List.cons_append, List.nil_append, readHeader]
  rw [if_pos (by decide), toShort_readWord _ (by omega), toShort_readWord _ (by omega),
    toShort_readWord _ (by omega)]
  rfl

/-! ### Claim C18 -/

/-- C18, amended: for every raw image of exactly `tracks * sides * T` bytes
(`T = sectors_per_track * 512`, `1 <= sectors_per_track <= 31`, sides in `{1,2}`,
`1 <= tracks <= 32768` so that `tracks - 1` fits the `short int` header field) in
which no track has `0xE5` as its last byte and for which the stores of
`MSA_WriteDisc` stay inside its workspace, `MSA_UnCompress` applied to the
container built by `MSA_WriteDisc` returns the size of the image and reproduces
it byte for byte; and for every chunk the length word is the number of payload
bytes behind it and the decoder stops exactly behind these bytes. -/
theorem C18_roundtrip_without_trailing_escape (pBuffer : List Nat)
    (nSectorsPerTrack nSides nTracks : Nat)
    (hspt : 1 ≤ nSectorsPerTrack ∧ nSectorsPerTrack ≤ 31)
    (hsides : nSides = 1 ∨ nSides = 2)
    (htracks : 1 ≤ nTracks ∧ nTracks ≤ 32768)
    (hlen : pBuffer.length = nTracks * nSides * (NUMBYTESPERSECTOR * nSectorsPerTrack))
    (hlast : ∀ k, k < nTracks * nSides →
      pBuffer[k * (NUMBYTESPERSECTOR * nSectorsPerTrack) +
        (NUMBYTESPERSECTOR * nSectorsPerTrack - 1)]? ≠ some 0xE5)
    (hfit : fitsWorkspace (allWrites pBuffer pBuffer.length nSectorsPerTrack nSides) = true) :
    (∃ c, MSA_WriteDisc pBuffer pBuffer.length nSectorsPerTrack nSides = some c ∧
      MSA_UnCompress c = some ((pBuffer.length : Int), pBuffer)) ∧
    ∀ k, k < nTracks * nSides → ∀ rest,
      uncompressChunk ((NUMBYTESPERSECTOR * nSectorsPerTrack : Nat) : Int)
          (writeChunk (pBuffer.drop (k * (NUMBYTESPERSECTOR * nSectorsPerTrack)))
            nSectorsPerTrack ++ rest) =
        some ((pBuffer.drop (k * (NUMBYTESPERSECTOR * nSectorsPerTrack))).take
          (NUMBYTESPERSECTOR * nSectorsPerTrack), rest) ∧
      ∃ hi lo payload,
        writeChunk (pBuffer.drop (k * (NUMBYTESPERSECTOR * nSectorsPerTrack)))
          nSectorsPerTrack = hi :: lo :: payload ∧ readWord hi lo = payload.length := by
  have h512 : NUMBYTESPERSECTOR = 512 := rfl
  obtain ⟨T, hT⟩ : ∃ T, T = NUMBYTESPERSECTOR * nSectorsPerTrack := ⟨_, rfl⟩
  rw [← hT] at hlen hlast ⊢
  have hTpos : 1 ≤ T := by rw [hT, h512]; omega
  -- every track data pointer has a whole track that does not end in `0xE5`
  have hgood : ∀ k, k < nTracks * nSides →
      T ≤ (pBuffer.drop (k * T)).length ∧ (pBuffer.drop (k * T))[T - 1]? ≠ some 0xE5 := by
    intro k hk
    have hkT : (k + 1) * T ≤ nTracks * nSides * T := Nat.mul_le_mul_right _ hk
    rw [Nat.succ_mul] at hkT
    refine ⟨by rw [List.length_drop, hlen]; omega, ?_⟩
    rw [List.getElem?_drop]
    exact hlast k hk
  subst hT
  refine ⟨?_, ?_⟩
  · have hsides' : 1 ≤ nSides := by omega
    have hn : pBuffer.length / NUMBYTESPERSECTOR / nSectorsPerTrack / nSides = nTracks := by
      have e : nTracks * nSides * (NUMBYTESPERSECTOR * nSectorsPerTrack) =
          nTracks * nSides * nSectorsPerTrack * NUMBYTESPERSECTOR := by ring
      rw [hlen, e, Nat.mul_div_cancel _ (by rw [h512]; omega), Nat.mul_div_cancel _ (by omega),
        Nat.mul_div_cancel _ (by omega)]
    refine ⟨_, MSA_WriteDisc_eq _ _ _ _ hspt.1 hsides' (le_refl _) hfit, ?_⟩
    rw [hn, trackPointers_eq _ _ _ _ (by omega)]
    have hh := readHeader_writeHeader nSectorsPerTrack nSides nTracks
      ((((List.range (nTracks * nSides)).map fun k =>
        pBuffer.drop (k * (NUMBYTESPERSECTOR * nSectorsPerTrack))).map fun p =>
          writeChunk p nSectorsPerTrack).flatten)
      ⟨hspt.1, by omega⟩ ⟨hsides', by omega⟩ htracks
    rw [← hlen] at hh
    rw [MSA_UnCompress_of_readHeader _ _ hh]
    dsimp only
    rw [List.drop_left' (length_writeHeader _ _ _), uncompressTracks_eq_sides]
    have hc1 : (((nSides - 1 : Nat) : Int) + 1).toNat = nSides := by omega
    have hc2 : (((nTracks - 1 : Nat) : Int) + 1 - 0).toNat = nTracks := by omega
    have hps := uncompressSides_chunks nSectorsPerTrack
      ((List.range (nTracks * nSides)).map fun k =>
        pBuffer.drop (k * (NUMBYTESPERSECTOR * nSectorsPerTrack))) [] hspt (by
        intro p hp
        rw [List.mem_map] at hp
        obtain ⟨k, hk, rfl⟩ := hp
        rw [List.mem_range] at hk
        exact hgood k hk)
    rw [List.append_nil, List.length_map, List.length_range, Nat.cast_mul] at hps
    rw [hc1, hc2, hps]
    rw [List.map_map]
    have hfl := flatten_slices pBuffer (NUMBYTESPERSECTOR * nSectorsPerTrack) (nTracks * nSides)
    have hcomp : (List.take (NUMBYTESPERSECTOR * nSectorsPerTrack) ∘ fun k =>
        List.drop (k * (NUMBYTESPERSECTOR * nSectorsPerTrack)) pBuffer) =
        fun k => (pBuffer.drop (k * (NUMBYTESPERSECTOR * nSectorsPerTrack))).take
          (NUMBYTESPERSECTOR * nSectorsPerTrack) := rfl
    rw [hcomp, hfl, ← hlen, List.take_of_length_le (le_refl _)]
    have hlt : pBuffer.length < 2147483648 := by
      have h1 : nTracks * nSides ≤ 32768 * 2 := Nat.mul_le_mul htracks.2 (by omega)
      have h2 : NUMBYTESPERSECTOR * nSectorsPerTrack ≤ 512 * 31 :=
        Nat.mul_le_mul (le_of_eq h512) hspt.2
      have h3 := Nat.mul_le_mul h1 h2
      rw [hlen]
      omega
    show some (toInt pBuffer.length, pBuffer) = _
    rw [toInt_of_lt _ hlt]
  · intro k hk rest
    have hg := hgood k hk
    exact ⟨uncompressChunk_writeChunk _ _ rest hspt hg.1 hg.2,
      writeChunk_prefix _ _ hspt.2 hg.1⟩

theorem mem_trackPointers_imageOf32769Tracks (p : List Nat)
    (hp : p ∈ trackPointers imageOf32769Tracks 1 1 32769) :
    ∃ rest, p = List.replicate (NUMBYTESPERSECTOR * 1) 0 ++ rest := by
  have h512 : NUMBYTESPERSECTOR = 512 := rfl
  rw [trackPointers_eq _ _ _ _ (by decide), List.mem_map] at hp
  obtain ⟨k, hk, rfl⟩ := hp
  rw [List.mem_range] at hk
  rw [imageOf32769Tracks, List.drop_replicate]
  refine ⟨List.replicate (NUMBYTESPERSECTOR * 32769 - k * (NUMBYTESPERSECTOR * 1) -
    NUMBYTESPERSECTOR * 1) 0, ?_⟩
  rw [← List.replicate_add]
  congr 1
  rw [h512]
  omega

theorem fitsWorkspace_imageOf32769Tracks :
    fitsWorkspace (allWrites imageOf32769Tracks 16777728 1 1) = true := by
  have hn : 16777728 / NUMBYTESPERSECTOR / 1 / 1 = 32769 := by decide
  have hsize : MSA_WORKSPACE_SIZE = 1048576 := rfl
  rw [fitsWorkspace_iff]
  intro w hw
  unfold allWrites at hw
  simp only [List.mem_cons] at hw
  rcases hw with rfl | hw
  · rw [hsize]; simp
  · rw [hn] at hw
    have hb := workspaceWrites_bound 1 6 6 _ 10
      (fun p hp => by
        obtain ⟨rest, rfl⟩ := mem_trackPointers_imageOf32769Tracks p hp
        rw [writeChunk_constant 0 1 rest (by decide) (by decide)]
        simp [length_storeWord])
      (fun p hp o w hw => by
        obtain ⟨rest, rfl⟩ := mem_trackPointers_imageOf32769Tracks p hp
        rw [chunkWrites_constant o 0 1 rest (by decide) (by decide)] at hw
        simp only [List.mem_cons, List.mem_singleton, List.not_mem_nil, or_false] at hw
        rcases hw with rfl | rfl
        · simp only; omega
        · simp only; omega) w hw
    rw [length_trackPointers] at hb
    rw [hsize]
    omega

theorem MSA_WriteDisc_imageOf32769Tracks :
    MSA_WriteDisc imageOf32769Tracks 16777728 1 1 =
      some ([0x0E, 0x0F, 0, 1, 0, 0, 0, 0, 0x80, 0] ++
        ((trackPointers imageOf32769Tracks 1 1 32769).map fun p => writeChunk p 1).flatten) := by
  have hlen : imageOf32769Tracks.length = 16777728 := by
    rw [imageOf32769Tracks, List.length_replicate]; decide
  have hn : 16777728 / NUMBYTESPERSECTOR / 1 / 1 = 32769 := by decide
  have hh : writeHeader 16777728 1 1 = [0x0E, 0x0F, 0, 1, 0, 0, 0, 0, 0x80, 0] := by decide
  rw [MSA_WriteDisc_eq _ _ _ _ (by decide) (by decide) (by rw [hlen])
    fitsWorkspace_imageOf32769Tracks, hn, hh]

theorem MSA_UnCompress_negative_track (body : List Nat) :
    MSA_UnCompress ([0x0E, 0x0F, 0, 1, 0, 0, 0, 0, 0x80, 0] ++ body) = some (0, []) := by
  have hh : readHeader ([0x0E, 0x0F, 0, 1, 0, 0, 0, 0, 0x80, 0] ++ body) =
      some (1, 0, 0, -32768) := by
    rfl
  rw [MSA_UnCompress_of_readHeader _ _ hh]
  rfl
theorem workspaceWrites_getElem (nSectorsPerTrack L : Nat) (ps : List (List Nat)) (off i : Nat)
    (p : List Nat) (hL : ∀ q ∈ ps, (writeChunk q nSectorsPerTrack).length = L)
    (hp : ps[i]? = some p) :
    ∀ w ∈ chunkWrites (off + i * L) p nSectorsPerTrack,
      w ∈ workspaceWrites off ps nSectorsPerTrack := by
  induction ps generalizing off i with
  | nil => simp at hp
  | cons q ps ih =>
    intro w hw
    rw [workspaceWrites, List.mem_append]
    cases i with
    | zero =>
      rw [List.getElem?_cons_zero, Option.some.injEq] at hp
      subst hp
      rw [Nat.zero_mul, Nat.add_zero] at hw
      exact Or.inl hw
    | succ i =>
      rw [List.getElem?_cons_succ] at hp
      refine Or.inr (ih (off + (writeChunk q nSectorsPerTrack).length) i
        (fun r hr => hL r (by simp [hr])) hp w ?_)
      rw [hL q (by simp)]
      have e : off + L + i * L = off + (i + 1) * L := by ring
      rw [e]
      exact hw

theorem drop_flatten_replicate (t : List Nat) (n k : Nat) :
    ((List.replicate n t).flatten).drop (k * t.length) = (List.replicate (n - k) t).flatten := by
  induction k generalizing n with
  | zero => simp
  | succ k ih =>
    cases n with
    | zero => simp
    | succ n =>
      rw [List.replicate_succ, List.flatten_cons, Nat.succ_mul, Nat.add_comm (k * t.length),
        ← List.drop_drop, List.drop_left, ih, Nat.succ_sub_succ]

theorem trackSteps_trackOfEscapesAndZero (rest : List Nat) :
    trackSteps (trackOfEscapesAndZero ++ rest) 1 =
      List.replicate 511 (1, [0xE5, 0xE5, 0, 1]) ++ [(1, [0])] := by
  have h : NUMBYTESPERSECTOR * 1 = 511 + 1 := by decide
  have h2 := loopSteps_escapes 511 (0 :: rest) 1 (by decide)
  rw [trackSteps, trackOfEscapesAndZero, h, List.append_assoc, List.singleton_append, h2,
    loopSteps_last_byte]

theorem trackStream_trackOfEscapesAndZero (rest : List Nat) :
    (trackStream (trackOfEscapesAndZero ++ rest) 1).length = 2045 := by
  rw [trackStream, trackSteps_trackOfEscapesAndZero, List.map_append, List.map_replicate,
    List.flatten_append, List.length_append, length_flatten_replicate]
  rfl

theorem mem_trackPointers_imageOf2042Tracks (p : List Nat)
    (hp : p ∈ trackPointers imageOf2042Tracks 1 1 2042) :
    ∃ rest, p = trackOfEscapesAndZero ++ rest := by
  have hl : trackOfEscapesAndZero.length = 512 := by decide
  rw [trackPointers_eq _ _ _ _ (by decide), List.mem_map] at hp
  obtain ⟨k, hk, rfl⟩ := hp
  rw [List.mem_range] at hk
  have e : k * (NUMBYTESPERSECTOR * 1) = k * trackOfEscapesAndZero.length := by rw [hl]; rfl
  have e2 : 2042 - k = (2042 - k - 1) + 1 := by omega
  rw [imageOf2042Tracks, e, drop_flatten_replicate, e2, List.replicate_succ, List.flatten_cons]
  exact ⟨_, rfl⟩

theorem writeChunk_trackOfEscapesAndZero (rest : List Nat) :
    (writeChunk (trackOfEscapesAndZero ++ rest) 1).length = 514 := by
  have hl : trackOfEscapesAndZero.length = 512 := by decide
  have hc : trackCompressedBytes (trackOfEscapesAndZero ++ rest) 1 = 2045 := by
    rw [trackCompressedBytes_eq, trackStream_trackOfEscapesAndZero]
  rw [writeChunk, List.length_append, length_chunkLength, chunkPayload, hc,
    if_neg (by decide), List.length_take, List.length_append, hl]
  have : NUMBYTESPERSECTOR * 1 = 512 := rfl
  omega

theorem chunkWrites_trackOfEscapesAndZero (off : Nat) (rest : List Nat) :
    (off + 2, 512) ∈ chunkWrites off (trackOfEscapesAndZero ++ rest) 1 := by
  have hc : trackCompressedBytes (trackOfEscapesAndZero ++ rest) 1 = 2045 := by
    rw [trackCompressedBytes_eq, trackStream_trackOfEscapesAndZero]
  rw [chunkWrites, hc, if_neg (by decide)]
  exact List.mem_append_right _ (List.mem_singleton.mpr rfl)

theorem fitsWorkspace_imageOf2042Tracks :
    fitsWorkspace (allWrites imageOf2042Tracks 1045504 1 1) = false := by
  have hn : 1045504 / NUMBYTESPERSECTOR / 1 / 1 = 2042 := by decide
  have hsize : MSA_WORKSPACE_SIZE = 1048576 := rfl
  rw [← Bool.not_eq_true, fitsWorkspace_iff]
  intro h
  have hlen := length_trackPointers imageOf2042Tracks 1 1 2042
  obtain ⟨p, hp⟩ : ∃ p, (trackPointers imageOf2042Tracks 1 1 2042)[2040]? = some p := by
    rw [List.getElem?_eq_getElem (by rw [hlen]; decide)]
    exact ⟨_, rfl⟩
  obtain ⟨rest, hrest⟩ := mem_trackPointers_imageOf2042Tracks p (List.mem_iff_getElem?.mpr ⟨_, hp⟩)
  have hw := workspaceWrites_getElem 1 514 _ 10 2040 p
    (fun q hq => by
      obtain ⟨r, rfl⟩ := mem_trackPointers_imageOf2042Tracks q hq
      exact writeChunk_trackOfEscapesAndZero r) hp (10 + 2040 * 514 + 2, 512)
    (by rw [hrest]; exact chunkWrites_trackOfEscapesAndZero _ rest)
  have := h (10 + 2040 * 514 + 2, 512) (by
    unfold allWrites
    rw [hn]
    exact List.mem_cons_of_mem _ hw)
  rw [hsize] at this
  omega

theorem MSA_WriteDisc_imageOf2042Tracks :
    MSA_WriteDisc imageOf2042Tracks 1045504 1 1 = none := by
  have hlen : imageOf2042Tracks.length = 1045504 := by
    rw [imageOf2042Tracks, length_flatten_replicate]
    decide
  unfold MSA_WriteDisc
  rw [if_neg (by rw [hlen]; decide)]
  simp only [fitsWorkspace_imageOf2042Tracks]
  rfl
/-- C18, counterexample: two images that meet every precondition of the claim
(one sector per track, one side, no track ending in `0xE5`) and are not
reproduced.  For `imageOf32769Tracks` (32769 tracks of zero bytes) all stores of
`MSA_WriteDisc` stay inside its workspace and the header holds the ending track
word `80 00`, which `MSA_UnCompress` reads into its `short int` field as -32768,
so that it decodes no track at all and returns size 0.  For `imageOf2042Tracks`
(2042 tracks of 511 bytes `0xE5` and one zero byte, each stored verbatim in a
chunk of 514 bytes) the stores of `MSA_WriteDisc` go behind the end of its
workspace of 1048576 bytes, and no container is built. -/
theorem C18_roundtrip_needs_track_bound_and_workspace :
    (imageOf32769Tracks.length = 32769 * 1 * (NUMBYTESPERSECTOR * 1) ∧
      (∀ k, k < 32769 * 1 →
        imageOf32769Tracks[k * (NUMBYTESPERSECTOR * 1) + (NUMBYTESPERSECTOR * 1 - 1)]? ≠
          some 0xE5) ∧
      fitsWorkspace (allWrites imageOf32769Tracks imageOf32769Tracks.length 1 1) = true ∧
      ∃ c, MSA_WriteDisc imageOf32769Tracks imageOf32769Tracks.length 1 1 = some c ∧
        MSA_UnCompress c = some (0, []) ∧
        MSA_UnCompress c ≠ some ((imageOf32769Tracks.length : Int), imageOf32769Tracks)) ∧
    (imageOf2042Tracks.length = 2042 * 1 * (NUMBYTESPERSECTOR * 1) ∧
      (∀ k, k < 2042 * 1 →
        imageOf2042Tracks[k * (NUMBYTESPERSECTOR * 1) + (NUMBYTESPERSECTOR * 1 - 1)]? ≠
          some 0xE5) ∧
      fitsWorkspace (allWrites imageOf2042Tracks imageOf2042Tracks.length 1 1) = false ∧
      MSA_WriteDisc imageOf2042Tracks imageOf2042Tracks.length 1 1 = none) := by
  have hlen : imageOf32769Tracks.length = 16777728 := by
    rw [imageOf32769Tracks, List.length_replicate]; decide
  have hlen' : imageOf2042Tracks.length = 1045504 := by
    rw [imageOf2042Tracks, length_flatten_replicate]
    decide
  have hl : trackOfEscapesAndZero.length = 512 := by decide
  refine ⟨⟨?_, ?_, ?_, ?_⟩, ?_, ?_, ?_, ?_⟩
  · rw [hlen]; decide
  · intro k _
    rw [imageOf32769Tracks, List.getElem?_replicate]
    split
    · decide
    · exact fun h => Option.noConfusion h
  · rw [hlen]; exact fitsWorkspace_imageOf32769Tracks
  · rw [hlen]
    refine ⟨_, MSA_WriteDisc_imageOf32769Tracks, MSA_UnCompress_negative_track _, ?_⟩
    rw [MSA_UnCompress_negative_track]
    intro h
    rw [Option.some.injEq, Prod.mk.injEq] at h
    exact absurd h.1 (by decide)
  · rw [hlen']; decide
  · intro k hk
    have e : k * (NUMBYTESPERSECTOR * 1) = k * trackOfEscapesAndZero.length := by rw [hl]; rfl
    have e2 : 2042 - k = (2042 - k - 1) + 1 := by omega
    rw [← List.getElem?_drop, imageOf2042Tracks, e, drop_flatten_replicate, e2,
      List.replicate_succ, List.flatten_cons,
      List.getElem?_append_left (by rw [hl]; decide)]
    decide
  · rw [hlen']; exact fitsWorkspace_imageOf2042Tracks
  · rw [hlen']; exact MSA_WriteDisc_imageOf2042Tracks

/-- C18, witness: the image `imageOfTwoSides` of one track with two sides. -/
theorem C18_roundtrip_without_trailing_escape_witness :
    ∃ c, MSA_WriteDisc imageOfTwoSides imageOfTwoSides.length 1 2 = some c ∧
      MSA_UnCompress c = some ((imageOfTwoSides.length : Int), imageOfTwoSides) :=
  (C18_roundtrip_without_trailing_escape imageOfTwoSides 1 2 1 (by decide) (by decide)
    (by decide) (by decide) (by decide) (by decide)).1

/-! ### Claim C9: the returned size is an `int` -/

theorem uncompressSides_replicate (T : Int) (chunk track : List Nat)
    (h : ∀ rest, uncompressChunk T (chunk ++ rest) = some (track, rest)) (k : Nat)
    (rest : List Nat) :
    uncompressSides T k ((List.replicate k chunk).flatten ++ rest) =
      some ((List.replicate k track).flatten, rest) := by
  induction k with
  | zero => rfl
  | succ k ih =>
    rw [List.replicate_succ, List.flatten_cons, List.append_assoc, uncompressSides, h]
    dsimp only
    rw [ih]
    rfl

theorem length_expandTokens_chunkOf16384Sectors :
    (expandTokens (List.replicate 128 [0xE5, 0, 0xFF, 0xFF] ++ [[0xE5, 0, 0, 128]])).length =
      8388608 := by
  have h1 : expandToken [0xE5, 0, 0xFF, 0xFF] = List.replicate 65535 0 := rfl
  have h2 : expandToken [0xE5, 0, 0, 128] = List.replicate 128 0 := rfl
  rw [expandTokens, List.map_append, List.map_replicate, List.flatten_append,
    List.length_append, length_flatten_replicate, h1, List.length_replicate, List.map_cons,
    List.map_nil, List.flatten_cons, List.flatten_nil, List.append_nil, h2,
    List.length_replicate]

theorem uncompressChunk_chunkOf16384Sectors (rest : List Nat) :
    uncompressChunk 8388608 (chunkOf16384Sectors ++ rest) =
      some (expandTokens (List.replicate 128 [0xE5, 0, 0xFF, 0xFF] ++ [[0xE5, 0, 0, 128]]),
        rest) := by
  have hd : ((readWord 2 4 : Nat) : Int) ≠ 8388608 := by decide
  have htok : ∀ t ∈ List.replicate 128 [0xE5, 0, 0xFF, 0xFF] ++ [[0xE5, 0, 0, 128]],
      isToken t = true ∧ expandToken t ≠ [] := by
    intro t ht
    rw [List.mem_append, List.mem_singleton] at ht
    rcases ht with ht | rfl
    · rw [List.eq_of_mem_replicate ht]
      refine ⟨rfl, ?_⟩
      show List.replicate (65534 + 1) 0 ≠ []
      rw [List.replicate_succ]
      exact List.cons_ne_nil _ _
    · exact ⟨rfl, by decide⟩
  have hloop := uncompressLoop_tokens_exact 8388608
    (List.replicate 128 [0xE5, 0, 0xFF, 0xFF] ++ [[0xE5, 0, 0, 128]]) rest 0 htok
    (by rw [length_expandTokens_chunkOf16384Sectors]; rfl)
  rw [chunkOf16384Sectors, List.append_assoc]
  show uncompressChunk 8388608 (2 :: 4 :: _) = _
  rw [uncompressChunk]
  simp only [hd, if_false]
  exact hloop

/-- C9, counterexample: the container `containerOf2GiB` has the magic `0x0E0F`
and the header fields `sectors_per_track = 16384`, side field 1, starting track
0 and ending track 127, its chunk data is long enough, and
`(127 - 0 + 1) * (1 + 1) * 16384 * 512` is 2147483648; `MSA_UnCompress` stores
2147483648 bytes and returns -2147483648. -/
theorem C9_returned_size_is_an_int :
    containerOf2GiB.length = 132618 ∧
    readHeader containerOf2GiB = some (16384, 1, 0, 127) ∧
    ((127 - 0 + 1) * (1 + 1) * 16384 * 512 : Int) = 2147483648 ∧
    ∃ out, MSA_UnCompress containerOf2GiB = some (-2147483648, out) ∧
      out.length = 2147483648 := by
  have hh : readHeader containerOf2GiB = some (16384, 1, 0, 127) := rfl
  have hl : chunkOf16384Sectors.length = 518 := by decide
  refine ⟨?_, hh, by decide, ?_⟩
  · rw [containerOf2GiB, List.length_append, length_flatten_replicate, hl]
    rfl
  · have hdrop : containerOf2GiB.drop 10 = (List.replicate 256 chunkOf16384Sectors).flatten ++ [] := by
      rw [List.append_nil]
      rfl
    have hs := uncompressSides_replicate 8388608 chunkOf16384Sectors _
      uncompressChunk_chunkOf16384Sectors 256 []
    have hT : (NUMBYTESPERSECTOR : Int) * 16384 = 8388608 := by decide
    have hlen : ((List.replicate 256 (expandTokens
        (List.replicate 128 [0xE5, 0, 0xFF, 0xFF] ++ [[0xE5, 0, 0, 128]]))).flatten).length =
        2147483648 := by
      rw [length_flatten_replicate, length_expandTokens_chunkOf16384Sectors]
    refine ⟨_, ?_, hlen⟩
    rw [MSA_UnCompress_of_readHeader _ _ hh]
    dsimp only
    rw [hdrop, hT, uncompressTracks_eq_sides]
    have hk : ((127 : Int) + 1 - 0).toNat * ((1 : Int) + 1).toNat = 256 := by decide
    rw [hk, hs, Option.map_some', hlen]
    rfl

end MSA

namespace YMFormat

/-! ### The register streams of the YM file -/

theorem copyStream_eq (old : Nat → Nat) (Count pTmp pNew : Nat) (new : Nat → Nat) (i : Nat) :
    copyStream old Count pTmp pNew new i =
      if pNew ≤ i ∧ i < pNew + Count then
        old (pTmp + (i - pNew) * NUM_PSG_SOUND_REGISTERS)
      else new i := by
  induction Count generalizing pTmp pNew new with
  | zero =>
    rw [copyStream, if_neg (by omega)]
  | succ c ih =>
    rw [copyStream, ih]
    by_cases h1 : i = pNew
    · subst h1
      rw [if_neg (by omega), if_pos (by omega), Nat.sub_self, Nat.zero_mul, Nat.add_zero, poke,
        if_pos rfl]
    · by_cases h2 : pNew + 1 ≤ i ∧ i < pNew + 1 + c
      · rw [if_pos h2, if_pos (by omega)]
        congr 1
        have e : i - pNew = (i - (pNew + 1)) + 1 := by omega
        rw [e, Nat.succ_mul]
        omega
      · rw [if_neg h2, if_neg (by omega), poke, if_neg h1]

theorem copyStreams_eq (old : Nat → Nat) (n k Reg : Nat) (new : Nat → Nat) :
    (∀ r v, Reg ≤ r → r < Reg + k → v < n →
      copyStreams old n k Reg new (4 + r * n + v) = old (4 + v * NUM_PSG_SOUND_REGISTERS + r)) ∧
    ∀ i, i < 4 + Reg * n ∨ 4 + (Reg + k) * n ≤ i → copyStreams old n k Reg new i = new i := by
  induction k generalizing Reg new with
  | zero =>
    refine ⟨fun r v h1 h2 _ => by omega, fun i _ => rfl⟩
  | succ k ih =>
    obtain ⟨ih1, ih2⟩ := ih (Reg + 1)
      (copyStream old n (4 + Reg) (4 + Reg * n) new)
    have e1 : (Reg + 1) * n = Reg * n + n := Nat.succ_mul _ _
    have e2 : (Reg + 1 + k) * n = (Reg + (k + 1)) * n := by rw [Nat.add_right_comm, Nat.add_assoc]
    have e3 : Reg * n + n ≤ (Reg + (k + 1)) * n := by
      rw [← e1]
      exact Nat.mul_le_mul_right _ (by omega)
    refine ⟨?_, ?_⟩
    · intro r v h1 h2 hv
      rw [copyStreams]
      by_cases hr : r = Reg
      · subst hr
        rw [ih2 _ (Or.inl (by omega)), copyStream_eq, if_pos (by omega)]
        congr 1
        have e : 4 + r * n + v - (4 + r * n) = v := by omega
        rw [e]
        omega
      · exact ih1 r v (by omega) (by omega) hv
    · intro i hi
      rw [copyStreams, ih2 i (by omega), copyStream_eq, if_neg (by omega)]

/-! ### Claim C17 -/

/-- C17: for every workspace and every number `n` of recorded frames with
`1 <= n <= 24000`, `YMFormat_ConvertToStreams` returns `TRUE` once its `malloc`
has answered a block, and the workspace it assigns has the first 4 bytes of the
old one and, for every register `r` in 0..13 and every frame `v` in 0..n-1, at
offset `4 + r*n + v` the byte the old workspace has at offset `4 + v*14 + r`,
both offsets being inside `YM_RECORDSIZE`; `YMFormat_EndRecording` then saves
under the recorded name a file of `4 + 14*n` bytes, the first `4 + 14*n` bytes of
that workspace. -/
theorem C17_register_streams (pYMWorkspace block : Nat → Nat) (n : Nat) (name : String)
    (pYMData : Nat) (hn : 1 ≤ n ∧ n ≤ 24000) :
    ∃ w, YMFormat_ConvertToStreams pYMWorkspace n (some block) = some w ∧
      (∀ i, i < 4 → w i = pYMWorkspace i) ∧
      (∀ r v, r < 14 → v < n →
        w (4 + r * n + v) = pYMWorkspace (4 + v * 14 + r) ∧
        4 + r * n + v < YM_RECORDSIZE ∧ 4 + v * 14 + r < YM_RECORDSIZE) ∧
      ∃ file,
        (YMFormat_EndRecording
          { bRecordingYM := true, nYMVBLS := n, pYMData := pYMData,
            pYMWorkspace := some pYMWorkspace, pszYMFileName := some name } (some block)).2 =
          some (name, file) ∧
        file.length = 4 + 14 * n ∧ ∀ i, i < 4 + 14 * n → file[i]? = some (w i) := by
  have hsize : YM_RECORDSIZE = 336004 := rfl
  have h14 : NUM_PSG_SOUND_REGISTERS = 14 := rfl
  obtain ⟨h1, h2⟩ := copyStreams_eq pYMWorkspace n NUM_PSG_SOUND_REGISTERS 0
    (poke (poke (poke (poke block 0 (pYMWorkspace 0)) 1 (pYMWorkspace 1))
      2 (pYMWorkspace 2)) 3 (pYMWorkspace 3))
  have hconv : YMFormat_ConvertToStreams pYMWorkspace n (some block) =
      some (copyStreams pYMWorkspace n NUM_PSG_SOUND_REGISTERS 0
        (poke (poke (poke (poke block 0 (pYMWorkspace 0)) 1 (pYMWorkspace 1))
          2 (pYMWorkspace 2)) 3 (pYMWorkspace 3))) := by
    rw [YMFormat_ConvertToStreams, Int.toNat_ofNat]
  obtain ⟨W, hW⟩ : ∃ W, W = copyStreams pYMWorkspace n NUM_PSG_SOUND_REGISTERS 0
      (poke (poke (poke (poke block 0 (pYMWorkspace 0)) 1 (pYMWorkspace 1))
        2 (pYMWorkspace 2)) 3 (pYMWorkspace 3)) := ⟨_, rfl⟩
  rw [← hW] at h1 h2 hconv
  refine ⟨W, hconv, ?_, ?_, ?_⟩
  · intro i hi
    rw [h2 i (Or.inl (by omega))]
    unfold poke
    have : i = 0 ∨ i = 1 ∨ i = 2 ∨ i = 3 := by omega
    rcases this with rfl | rfl | rfl | rfl <;> simp
  · intro r v hr hv
    have hrn : r * n ≤ 13 * n := Nat.mul_le_mul_right _ (by omega)
    refine ⟨?_, by rw [hsize]; omega, by rw [hsize]; omega⟩
    rw [h1 r v (Nat.zero_le _) (by rw [h14]; omega) hv, h14]
  · have hne : ((n : Nat) : Int) ≠ 0 := by omega
    have hsz : (((n : Nat) : Int) * (NUM_PSG_SOUND_REGISTERS : Nat)).toNat + 4 = 4 + 14 * n := by
      rw [h14]; omega
    refine ⟨(List.range (4 + 14 * n)).map W, ?_, ?_, ?_⟩
    · unfold YMFormat_EndRecording
      simp only [hne, ne_eq, not_false_eq_true, if_true, hconv, File_Save, hsz]
    · rw [List.length_map, List.length_range]
    · intro i hi
      rw [List.getElem?_map, List.getElem?_range hi]
      rfl

/-- C17, witness: two frames recorded in `recordedBlock`, converted into a fresh
block of zero bytes. -/
theorem C17_register_streams_witness :
    ∃ w, YMFormat_ConvertToStreams recordedBlock 2 (some zeroBlock) = some w ∧
      (∀ i, i < 4 → w i = recordedBlock i) ∧
      ∀ r v, r < 14 → v < 2 → w (4 + r * 2 + v) = recordedBlock (4 + v * 14 + r) := by
  obtain ⟨w, h1, h2, h3, _⟩ :=
    C17_register_streams recordedBlock zeroBlock 2 "tune.ym" 32 (by decide)
  exact ⟨w, h1, h2, fun r v hr hv => (h3 r v hr hv).1⟩

/-! ### The recorder -/

theorem invariant_EndRecording (s : State) (malloc : Option (Nat → Nat)) :
    RecorderInvariant (YMFormat_EndRecording s malloc).1 := by
  intro h
  exact absurd h (by simp [YMFormat_EndRecording])

theorem invariant_BeginRecording (s : State) (filename : Option String) (strdup : Bool)
    (malloc : Option (Nat → Nat)) :
    RecorderInvariant (YMFormat_BeginRecording s filename strdup malloc).2 := by
  unfold YMFormat_BeginRecording
  cases filename with
  | none => exact invariant_EndRecording { s with bRecordingYM := false } none
  | some name =>
    dsimp only
    by_cases h1 : name.length ≤ 0
    · rw [if_pos h1]
      exact invariant_EndRecording { s with bRecordingYM := false } none
    · rw [if_neg h1]
      by_cases h2 : ¬ strdup = true
      · rw [if_pos h2]
        exact invariant_EndRecording { s with bRecordingYM := false } none
      · rw [if_neg h2]
        cases malloc with
        | none =>
          intro h
          exact absurd h (by simp [YMFormat_EndRecording])
        | some block =>
          intro _
          have hmax : (0 : Int) < (YM_MAX_VBLS : Int) := by decide
          exact ⟨⟨_, rfl⟩, le_refl _, hmax, rfl⟩

theorem storeRegister_some (s : State) (v : Nat) (block : Nat → Nat)
    (hw : s.pYMWorkspace = some block) (hp : s.pYMData < YM_RECORDSIZE) :
    ∃ s1, storeRegister s v = some s1 ∧ s1.pYMData = s.pYMData + 1 ∧
      (∃ b, s1.pYMWorkspace = some b) ∧ s1.nYMVBLS = s.nYMVBLS ∧
      s1.bRecordingYM = s.bRecordingYM := by
  unfold storeRegister
  rw [hw]
  dsimp only
  rw [if_pos hp]
  exact ⟨_, rfl, rfl, ⟨_, rfl⟩, rfl, rfl⟩

theorem storeRegisters_some (PSGRegisters : Nat → Nat) (k i : Nat) (s : State)
    (hw : ∃ b, s.pYMWorkspace = some b) (hp : s.pYMData + k ≤ YM_RECORDSIZE) :
    ∃ s1, storeRegisters PSGRegisters k i s = some s1 ∧ s1.pYMData = s.pYMData + k ∧
      (∃ b, s1.pYMWorkspace = some b) ∧ s1.nYMVBLS = s.nYMVBLS ∧
      s1.bRecordingYM = s.bRecordingYM := by
  induction k generalizing i s with
  | zero => exact ⟨s, rfl, rfl, hw, rfl, rfl⟩
  | succ k ih =>
    obtain ⟨b, hb⟩ := hw
    obtain ⟨s1, h1, h2, h3, h4, h5⟩ := storeRegister_some s (PSGRegisters i) b hb (by omega)
    obtain ⟨s2, g1, g2, g3, g4, g5⟩ := ih (i + 1) s1 h3 (by omega)
    refine ⟨s2, ?_, by omega, g3, by rw [g4, h4], by rw [g5, h5]⟩
    rw [storeRegisters, h1]
    exact g1

theorem invariant_UpdateRecording (s : State) (PSGRegisters : Nat → Nat)
    (bEnvelopeFreqFlag : Bool) (malloc : Option (Nat → Nat)) (hs : RecorderInvariant s) :
    ∃ r, YMFormat_UpdateRecording s PSGRegisters bEnvelopeFreqFlag malloc = some r ∧
      RecorderInvariant r.1 := by
  have hsize : YM_RECORDSIZE = 336004 := rfl
  have hmax : YM_MAX_VBLS = 24000 := rfl
  have h14 : NUM_PSG_SOUND_REGISTERS - 1 = 13 := rfl
  unfold YMFormat_UpdateRecording
  by_cases hrec : s.bRecordingYM = true
  · obtain ⟨hw, h0, hlt, hp⟩ := hs hrec
    rw [hmax] at hlt
    obtain ⟨s1, h1, h2, h3, h4, h5⟩ := storeRegisters_some PSGRegisters
      (NUM_PSG_SOUND_REGISTERS - 1) 0 s hw (by rw [hsize, h14]; omega)
    obtain ⟨b, hb⟩ := h3
    obtain ⟨s2, g1, g2, g3, g4, g5⟩ := storeRegister_some s1
      (if bEnvelopeFreqFlag then PSGRegisters PSG_REG_ENV_SHAPE else 0xff) b hb
      (by rw [hsize]; omega)
    rw [if_pos hrec, h1]
    dsimp only
    rw [g1]
    dsimp only
    split
    · exact ⟨_, rfl, invariant_EndRecording _ _⟩
    · rename_i hge
      refine ⟨_, rfl, ?_⟩
      intro _
      rw [hmax] at hge
      dsimp only at hge ⊢
      rw [hmax]
      refine ⟨g3, by omega, by omega, by omega⟩
  · rw [if_neg hrec]
    exact ⟨_, rfl, hs⟩

theorem invariant_run (calls : List Call) (s : State) (hs : RecorderInvariant s) :
    ∃ s1, run s calls = some s1 ∧ RecorderInvariant s1 := by
  induction calls generalizing s with
  | nil => exact ⟨s, rfl, hs⟩
  | cons c calls ih =>
    have hstep : ∃ s1, step s c = some s1 ∧ RecorderInvariant s1 := by
      cases c with
      | BeginRecording filename strdup malloc =>
        exact ⟨_, rfl, invariant_BeginRecording s filename strdup malloc⟩
      | UpdateRecording PSGRegisters bEnvelopeFreqFlag malloc =>
        obtain ⟨r, h1, h2⟩ := invariant_UpdateRecording s PSGRegisters bEnvelopeFreqFlag malloc hs
        refine ⟨r.1, ?_, h2⟩
        rw [step, h1]
        rfl
      | EndRecording malloc =>
        exact ⟨_, rfl, invariant_EndRecording s malloc⟩
    obtain ⟨s1, h1, h2⟩ := hstep
    obtain ⟨s2, g1, g2⟩ := ih s1 h2
    refine ⟨s2, ?_, g2⟩
    rw [run, h1]
    exact g1

/-! ### Claim C19 -/

/-- C19: every sequence of calls of `YMFormat_BeginRecording`,
`YMFormat_UpdateRecording` and `YMFormat_EndRecording` from the initial state,
whatever the environment answers, runs without a store outside the workspace and
ends in a state in which, whenever `bRecordingYM` is set, the workspace is
allocated, `0 <= nYMVBLS < YM_MAX_VBLS = 24000` and `pYMData` is at offset
`4 + 14 * nYMVBLS` of the workspace, so that the 14 bytes the next
`YMFormat_UpdateRecording` stores end at an offset of at most
`YM_RECORDSIZE = 4 + 14 * 24000`. -/
theorem C19_recorder_invariant (calls : List Call) :
    ∃ s, run initial calls = some s ∧
      (s.bRecordingYM = true →
        (∃ block, s.pYMWorkspace = some block) ∧ 0 ≤ s.nYMVBLS ∧ s.nYMVBLS < 24000 ∧
        (s.pYMData : Int) = 4 + 14 * s.nYMVBLS ∧ s.pYMData + 14 ≤ YM_RECORDSIZE) ∧
      YM_MAX_VBLS = 24000 ∧ YM_RECORDSIZE = 4 + 14 * 24000 := by
  obtain ⟨s, h1, h2⟩ := invariant_run calls initial (fun h => absurd h (by decide))
  refine ⟨s, h1, ?_, rfl, rfl⟩
  intro hrec
  obtain ⟨hw, h0, hlt, hp⟩ := h2 hrec
  have hsize : YM_RECORDSIZE = 336004 := rfl
  have hmax : YM_MAX_VBLS = 24000 := rfl
  rw [hmax] at hlt
  refine ⟨hw, h0, hlt, hp, ?_⟩
  rw [hsize]
  omega

/-- C19, witness: after `callsOfOneFrame` the recorder is recording, one frame
is counted and `pYMData` is at offset 18. -/
theorem C19_recorder_invariant_witness :
    ∃ s, run initial callsOfOneFrame = some s ∧ s.bRecordingYM = true ∧ s.nYMVBLS = 1 ∧
      s.pYMData = 18 ∧ s.pYMData + 14 ≤ YM_RECORDSIZE := by
  obtain ⟨s, h1, h2, _⟩ := C19_recorder_invariant callsOfOneFrame
  have hrec : s.bRecordingYM = true := by
    have h : (run initial callsOfOneFrame).map State.bRecordingYM = some true := rfl
    rw [h1] at h
    exact Option.some.inj h
  have hn : s.nYMVBLS = 1 := by
    have h : (run initial callsOfOneFrame).map State.nYMVBLS = some 1 := rfl
    rw [h1] at h
    exact Option.some.inj h
  have hp : s.pYMData = 18 := by
    have h : (run initial callsOfOneFrame).map State.pYMData = some 18 := rfl
    rw [h1] at h
    exact Option.some.inj h
  exact ⟨s, h1, hrec, hn, hp, (h2 hrec).2.2.2.2⟩

end YMFormat
